import Mathlib

/-!
Verification development for the symbolic reachability engine in
src/examples/tbddmc.c (the sylvan repository's TBDD model checker example).

The decision-diagram engine (sylvan's TBDD substrate) is an external
collaborator of the core under verification: its primitives are modelled
from the spec as referentially transparent semantic operations on the set
of satisfying assignments, which is faithful to the spec's canonicity
guarantee (equal functions always share the same representation).
The exploration strategies, the saturation recursion, the preprocessing
(sort, merge) and the loaders are embedded from the C source.
-/

namespace Tbddmc

/-- Raw TBDD variable assignments.  State bit `k` of a model with `B` total
state bits occupies the "current" variable `2*k` and the "next-state"
variable `2*k+1`, so assignments range over `2*B` raw variables. -/
abbrev As (B : Nat) := Fin (2 * B) → Bool

/-- Modelled from the spec: a TBDD handle is identified with the set of
assignments satisfying its characteristic function.  The spec's glossary
states the representation is canonical (equal functions always share the
same representation), so semantic identity and handle identity coincide. -/
abbrev TBDD (B : Nat) := Finset (As B)

/-- Value of raw variable `v` in an assignment (false for out-of-range `v`). -/
def evalV {B : Nat} (α : As B) (v : Nat) : Bool :=
  if h : v < 2 * B then α ⟨v, h⟩ else false

/-- Overwrite raw variable `v` with value `b` (identity for out-of-range `v`). -/
def setV {B : Nat} (v : Nat) (b : Bool) (α : As B) : As B :=
  fun u => if (u : Nat) = v then b else α u

/-- The diagram does not depend on raw variable `v`. -/
def Insens {B : Nat} (S : TBDD B) (v : Nat) : Prop :=
  ∀ α : As B, setV v true α ∈ S ↔ setV v false α ∈ S

instance {B : Nat} (S : TBDD B) (v : Nat) : Decidable (Insens S v) :=
  inferInstanceAs (Decidable (∀ _, _))

/-- The set-diagram does not depend on any next-state (odd) variable; state
sets produced by the engine are functions of current-state variables only. -/
def OddClosed {B : Nat} (S : TBDD B) : Prop :=
  ∀ k : Fin B, Insens S (2 * (k : Nat) + 1)

instance {B : Nat} (S : TBDD B) : Decidable (OddClosed S) :=
  inferInstanceAs (Decidable (∀ _, _))

/-- Modelled from the spec: `tbdd_false`, the empty characteristic function. -/
def tbdd_false {B : Nat} : TBDD B := ∅

/-- Modelled from the spec: `tbdd_true`, the constant-true function (as a set
diagram: every assignment). -/
def tbdd_true {B : Nat} : TBDD B := Finset.univ

/-- Modelled from the spec: `tbdd_or`, disjunction of two diagrams declared
over a common variable domain.  On satisfying sets this is union; the domain
argument carried by the C call is redundant for the semantics. -/
def tbdd_or {B : Nat} (x y : TBDD B) (_dom : List Nat) : TBDD B := x ∪ y

/-- Modelled from the spec: `tbdd_diff`, set difference of two diagrams. -/
def tbdd_diff {B : Nat} (x y : TBDD B) (_dom : List Nat) : TBDD B := x \ y

/-- Modelled from the spec: `tbdd_and`, conjunction of two diagrams. -/
def tbdd_and {B : Nat} (x y : TBDD B) (_dom : List Nat) : TBDD B := x ∩ y

/-- Zero out all current-state (even) variables below `t`; used to interpret
moving a tag: the variables whose must-be-zero constraint the tag dropped
become don't-care. -/
def maskBelow {B : Nat} (t : Nat) (α : As B) : As B :=
  fun u => if (u : Nat) < t ∧ (u : Nat) % 2 = 0 then false else α u

/-- Modelled from the spec: `tbdd_settag`, which moves the edge tag of a
diagram down to `newtag`, turning the variables formerly constrained to be
zero by the tag into don't-care variables. -/
def tbdd_settag {B : Nat} (S : TBDD B) (newtag : Nat) : TBDD B :=
  Finset.univ.filter (fun α => maskBelow newtag α ∈ S)

/-- Modelled from the spec: `tbdd_makenode var low high nextvar` builds the
diagram branching on `var` with the given cofactors. -/
def tbdd_makenode {B : Nat} (v : Nat) (low high : TBDD B) (_nextvar : Nat) : TBDD B :=
  low.filter (fun α => evalV α v = false) ∪ high.filter (fun α => evalV α v = true)

/-- First element of a list satisfying a predicate, with the engine's
no-variable sentinel `0xFFFFF` as default. -/
def firstSat (p : Nat → Bool) : List Nat → Nat
  | [] => 1048575
  | v :: rest => if p v then v else firstSat p rest

/-- Modelled from the spec: the tag of a diagram edge, i.e. the shallowest
current-state variable the characteristic function depends on
(`0xFFFFF` when there is none, as for the true terminal). -/
def tagOf {B : Nat} (S : TBDD B) : Nat :=
  firstSat (fun v => decide (¬ Insens S v)) ((List.range B).map (fun k => 2 * k))

/-- Modelled from the spec: the branch variable of a diagram's root node,
i.e. the shallowest variable at or below the tag whose positive cofactor is
nonempty (`0xFFFFF` when the root is a terminal). -/
def varOf {B : Nat} (S : TBDD B) : Nat :=
  firstSat (fun v => tagOf S ≤ v && (S.filter (fun α => evalV α v = true)).Nonempty)
    ((List.range B).map (fun k => 2 * k))

/-- Modelled from the spec: low cofactor of the diagram's root node. -/
def tbddnode_low {B : Nat} (S : TBDD B) : TBDD B :=
  Finset.univ.filter (fun α => setV (varOf S) false α ∈ S)

/-- Modelled from the spec: high cofactor of the diagram's root node. -/
def tbddnode_high {B : Nat} (S : TBDD B) : TBDD B :=
  Finset.univ.filter (fun α => setV (varOf S) true α ∈ S)

/-- The C relation struct (src/examples/tbddmc.c lines 108-114).  Variable
domains (the C field named variables, here `vars`, and `satdom`) are ordered
variable lists, matching their construction by `tbdd_from_array`; `bdd` is
the semantic diagram. -/
structure Rel (B : Nat) where
  bdd : TBDD B
  vars : List Nat
  r_proj : List Int
  w_proj : List Int
  satdom : List Nat

instance {B : Nat} : Inhabited (Rel B) := ⟨⟨∅, [], [], [], []⟩⟩

instance {B : Nat} : DecidableEq (Rel B) := fun a b =>
  decidable_of_iff
    (a.bdd = b.bdd ∧ a.vars = b.vars ∧ a.r_proj = b.r_proj ∧
      a.w_proj = b.w_proj ∧ a.satdom = b.satdom)
    (by cases a; cases b; simp)

/-- The C set struct (src/examples/tbddmc.c lines 102-106). -/
structure SetT (B : Nat) where
  bdd : TBDD B
  vars : List Nat

instance {B : Nat} : DecidableEq (SetT B) := fun a b =>
  decidable_of_iff (a.bdd = b.bdd ∧ a.vars = b.vars) (by cases a; cases b; simp)

/-- Modelled from the spec: `tbdd_getvar` on a variable-domain diagram built
by `tbdd_from_array` returns its first (topmost) variable. -/
def tbdd_getvar (vars : List Nat) : Nat := vars.headD 1048575

/-- The full current-state variable domain `vectordom`
(src/examples/tbddmc.c lines 728-731). -/
def vectordom (B : Nat) : List Nat := (List.range B).map (fun k => 2 * k)

/-- Modelled from the spec: `tbdd_relnext cur rel vars dom` computes the
relational image of `cur` under `rel`: a successor assignment agrees with
some transition's next-state values on the variables written by the
relation, and copies from the predecessor every domain variable the
relation does not write. -/
def tbdd_relnext {B : Nat} (S R : TBDD B) (vars dom : List Nat) : TBDD B :=
  Finset.univ.filter (fun β => ∃ α ∈ S, ∃ γ ∈ R,
    (∀ k : Fin B, 2 * (k : Nat) ∈ vars → evalV γ (2 * (k : Nat)) = evalV α (2 * (k : Nat))) ∧
    (∀ k : Fin B, 2 * (k : Nat) + 1 ∈ vars → evalV β (2 * (k : Nat)) = evalV γ (2 * (k : Nat) + 1)) ∧
    (∀ k : Fin B, 2 * (k : Nat) ∈ dom → 2 * (k : Nat) + 1 ∉ vars →
      evalV β (2 * (k : Nat)) = evalV α (2 * (k : Nat))))

/-- Modelled from the spec: satisfying-assignment count of a diagram over its
declared variable domain: the number of distinct restrictions to the domain. -/
def tbdd_satcount {B : Nat} (S : TBDD B) (dom : List Nat) : Nat :=
  (S.image (fun α => fun u : Fin (2 * B) => if (u : Nat) ∈ dom then α u else false)).card

/-- Array access `next[i]` on the global relation array. -/
def nextD {B : Nat} (next : List (Rel B)) (i : Nat) : Rel B := next.getD i default

/-- Embeds `go_bfs` (src/examples/tbddmc.c lines 322-342): sequential
per-level image of the frontier over the group range `[frm, frm+len)`, with
new states only.  `fuel` bounds the recursion depth; the C code recurses
unboundedly when `len = 0`. -/
def go_bfs {B : Nat} (next : List (Rel B)) (fuel : Nat) (cur visited : TBDD B)
    (frm len : Nat) : Option (TBDD B) :=
  match fuel with
  | 0 => none
  | f + 1 =>
    if len = 1 then
      let succ := tbdd_relnext cur (nextD next frm).bdd (nextD next frm).vars (vectordom B)
      some (tbdd_diff succ visited (vectordom B))
    else do
      let left ← go_bfs next f cur visited frm (len / 2)
      let right ← go_bfs next f cur visited (frm + len / 2) (len - len / 2)
      some (tbdd_or left right (vectordom B))

/-- Embeds the loop of `bfs` (src/examples/tbddmc.c lines 347-377). -/
def bfsLoop {B : Nat} (next : List (Rel B)) (fuel : Nat) (visited front : TBDD B) :
    Option (TBDD B) :=
  match fuel with
  | 0 => none
  | f + 1 => do
    let front2 ← go_bfs next f front visited 0 next.length
    let visited2 := tbdd_or visited front2 (vectordom B)
    if front2 = tbdd_false then some visited2 else bfsLoop next f visited2 front2

/-- Embeds the BFS strategy entry point (src/examples/tbddmc.c lines 347-377):
only the `bdd` field of the set is replaced. -/
def bfs {B : Nat} (next : List (Rel B)) (fuel : Nat) (s : SetT B) : Option (SetT B) :=
  (bfsLoop next fuel s.bdd s.bdd).map (fun v => { s with bdd := v })

/-- Embeds `go_par` (src/examples/tbddmc.c lines 383-404): the task-parallel
variant of `go_bfs`.  The C code forks the left half and computes the right
half inline before joining, so the sequential rendering evaluates the right
half first. -/
def go_par {B : Nat} (next : List (Rel B)) (fuel : Nat) (cur visited : TBDD B)
    (frm len : Nat) : Option (TBDD B) :=
  match fuel with
  | 0 => none
  | f + 1 =>
    if len = 1 then
      let succ := tbdd_relnext cur (nextD next frm).bdd (nextD next frm).vars (vectordom B)
      some (tbdd_diff succ visited (vectordom B))
    else do
      let right ← go_par next f cur visited (frm + len / 2) (len - len / 2)
      let left ← go_par next f cur visited frm (len / 2)
      some (tbdd_or left right (vectordom B))

/-- Embeds the loop of `par` (src/examples/tbddmc.c lines 409-439). -/
def parLoop {B : Nat} (next : List (Rel B)) (fuel : Nat) (visited front : TBDD B) :
    Option (TBDD B) :=
  match fuel with
  | 0 => none
  | f + 1 => do
    let front2 ← go_par next f front visited 0 next.length
    let visited2 := tbdd_or visited front2 (vectordom B)
    if front2 = tbdd_false then some visited2 else parLoop next f visited2 front2

/-- Embeds the PAR strategy entry point (src/examples/tbddmc.c lines 409-439). -/
def par {B : Nat} (next : List (Rel B)) (fuel : Nat) (s : SetT B) : Option (SetT B) :=
  (parLoop next fuel s.bdd s.bdd).map (fun v => { s with bdd := v })

/-- Embeds the inner loop of one chaining iteration (src/examples/tbddmc.c
lines 544-548): every group is applied once, sequentially, unioning its image
of the running set back into the running set. -/
def chainBody {B : Nat} (next : List (Rel B)) (nl : TBDD B) : TBDD B :=
  next.foldl (fun acc r =>
    tbdd_or acc (tbdd_relnext acc r.bdd r.vars (vectordom B)) (vectordom B)) nl

/-- Embeds the loop of `chaining` (src/examples/tbddmc.c lines 531-577). -/
def chainingLoop {B : Nat} (next : List (Rel B)) (fuel : Nat)
    (visited next_level : TBDD B) : Option (TBDD B) :=
  match fuel with
  | 0 => none
  | f + 1 =>
    let nl1 := chainBody next next_level
    let nl2 := tbdd_diff nl1 visited (vectordom B)
    let visited2 := tbdd_or visited nl2 (vectordom B)
    if nl2 = tbdd_false then some visited2 else chainingLoop next f visited2 nl2

/-- Embeds the Chaining strategy entry point (src/examples/tbddmc.c
lines 531-577). -/
def chaining {B : Nat} (next : List (Rel B)) (fuel : Nat) (s : SetT B) : Option (SetT B) :=
  (chainingLoop next fuel s.bdd s.bdd).map (fun v => { s with bdd := v })

/-- Embeds the pivot-variable computation of `go_sat`
(src/examples/tbddmc.c line 461). -/
def pivotVar (set_tag set_var rel_var : Nat) : Nat :=
  if set_tag < rel_var then set_tag else if set_var < rel_var then set_var else rel_var

/-- Embeds the count of consecutive groups sharing the pivot's top variable
(src/examples/tbddmc.c lines 466-467). -/
def countSame {B : Nat} (next : List (Rel B)) (idx rel_var : Nat) : Nat :=
  1 + ((next.drop (idx + 1)).takeWhile (fun r => tbdd_getvar r.vars == rel_var)).length

/-- Embeds the chain-apply step of `go_sat` (src/examples/tbddmc.c
lines 483-487): apply each of the `n` same-level groups once, unioning each
image into the running set over the group's `satdom`. -/
def chainApplyN {B : Nat} (next : List (Rel B)) (idx n : Nat) (s : TBDD B) : TBDD B :=
  (List.range n).foldl (fun set i =>
    let r := nextD next (idx + i)
    tbdd_or set (tbdd_relnext set r.bdd r.vars r.satdom) r.satdom) s

mutual

/-- Embeds `go_sat` (src/examples/tbddmc.c lines 445-518), the recursive
saturation algorithm, with an explicit fuel bound on the recursion.  The
memoization cache (lines 451-454 and 515) is omitted: per the spec it is a
pure lookup returning an equivalent result and does not affect the value. -/
def go_sat {B : Nat} (next : List (Rel B)) (fuel : Nat) (set : TBDD B) (idx : Nat) :
    Option (TBDD B) :=
  match fuel with
  | 0 => none
  | f + 1 =>
    if set = tbdd_false then some tbdd_false
    else if idx = next.length then some set
    else
      let set_var := varOf set
      let set_tag := tagOf set
      let rel_var := tbdd_getvar (nextD next idx).vars
      let pivot_var := pivotVar set_tag set_var rel_var
      if pivot_var = rel_var then
        satLoop next f set idx (countSame next idx rel_var)
      else if pivot_var < set_var then
        (go_sat next f (tbdd_settag set (pivot_var + 2)) idx).map
          (fun r => tbdd_makenode pivot_var r tbdd_false (pivot_var + 2))
      else do
        let high ← go_sat next f (tbddnode_high set) idx
        let low ← go_sat next f (tbddnode_low set) idx
        some (tbdd_makenode pivot_var low high (pivot_var + 2))

/-- Embeds the fixpoint loop of `go_sat` (src/examples/tbddmc.c
lines 473-489): saturate deeper, chain-apply the same-level groups once,
repeat until no change. -/
def satLoop {B : Nat} (next : List (Rel B)) (fuel : Nat) (set : TBDD B) (idx n : Nat) :
    Option (TBDD B) :=
  match fuel with
  | 0 => none
  | f + 1 => do
    let s1 ← go_sat next f set (idx + n)
    let s2 := chainApplyN next idx n s1
    if s2 = set then some set else satLoop next f s2 idx n

end

/-- Embeds the Saturation strategy entry point (src/examples/tbddmc.c
lines 523-526): `set->bdd = go_sat(set->bdd, 0)`. -/
def sat {B : Nat} (next : List (Rel B)) (fuel : Nat) (s : SetT B) : Option (SetT B) :=
  (go_sat next fuel s.bdd 0).map (fun v => { s with bdd := v })

/-- Modelled from the spec: `tbdd_extend_domain` lifts a diagram's declared
domain to a larger one without changing its characteristic function. -/
def tbdd_extend_domain {B : Nat} (r : TBDD B) (_vars _dom : List Nat) : TBDD B := r

/-- Embeds the identity-relation construction of `extend_relation`
(src/examples/tbddmc.c lines 597-609): walking components from `B-1` down to
`0`, conjoin `current = next` for every component absent from the relation.
`m` counts the iterations performed; the state carries the running `eq`
diagram and the `nextvar` bookkeeping variable of the C loop. -/
def extendEqAux {B : Nat} (has : Nat → Bool) : Nat → TBDD B × Nat
  | 0 => (tbdd_true, 1048575)
  | m + 1 =>
    let st := extendEqAux has m
    let eq := st.1
    let nextvar := st.2
    let i := B - 1 - m
    if has i then (eq, 2 * i)
    else
      let low := tbdd_makenode (2 * i + 1) eq tbdd_false nextvar
      let high := tbdd_makenode (2 * i + 1) tbdd_false eq nextvar
      let eq2 := tbdd_makenode (2 * i) low high (2 * i + 1)
      (eq2, 2 * i)

/-- Embeds `extend_relation` (src/examples/tbddmc.c lines 583-620): compute
which components the relation touches, build the identity relation for the
others, lift the relation's domain and conjoin. -/
def extend_relation {B : Nat} (relation : TBDD B) (vars totaldom : List Nat) : TBDD B :=
  let has : Nat → Bool := fun i =>
    decide (i ∈ (vars.takeWhile (fun v => v / 2 < B)).map (fun v => v / 2))
  let eq := (@extendEqAux B has B).1
  let result := tbdd_extend_domain relation vars totaldom
  tbdd_and result eq totaldom

/-- Embeds `big_union` (src/examples/tbddmc.c lines 626-636): balanced binary
disjunction of the group diagrams in `[first, first+count)`.  The C code
forks the left half and computes the right half first; it recurses
unboundedly when `count = 0`, hence the fuel. -/
def big_union {B : Nat} (next : List (Rel B)) (fuel : Nat) (first count : Nat) :
    Option (TBDD B) :=
  match fuel with
  | 0 => none
  | f + 1 =>
    if count = 1 then some (nextD next first).bdd
    else do
      let right ← big_union next f (first + count / 2) (count - count / 2)
      let left ← big_union next f first (count / 2)
      some (tbdd_or left right (nextD next first).vars)

/-- The merge target domain: all current and next variables
(src/examples/tbddmc.c lines 784-786). -/
def newvarsList (B : Nat) : List Nat := List.range (2 * B)

/-- Embeds the merge preprocessing (src/examples/tbddmc.c lines 783-804):
extend every group to the full domain, take the big union into group 0,
clear the other groups and set the group count to 1.  Note the `satdom`
field of group 0 is left unchanged by the C code. -/
def mergeRels {B : Nat} (fuel : Nat) (next : List (Rel B)) : Option (List (Rel B)) :=
  let newvars := newvarsList B
  let next1 := next.map (fun r =>
    { r with bdd := extend_relation r.bdd r.vars newvars, vars := newvars })
  do
    let u ← big_union next1 fuel 0 next1.length
    match next1 with
    | [] => none
    | r0 :: _ => some [{ r0 with bdd := u }]

/-- Embeds the gnome sort of main (src/examples/tbddmc.c lines 754-768),
generically in the key.  The state `(l, i, j)` mirrors the C indices; a swap
happens only when the left neighbour's key is strictly greater. -/
def gnomeAux {α : Type _} (key : α → Nat) (fuel : Nat) (l : List α) (i j : Nat) :
    Option (List α) :=
  match fuel with
  | 0 => none
  | f + 1 =>
    if i < l.length then
      match l.get? (i - 1), l.get? i with
      | some q, some p =>
        if key q > key p then
          let l2 := (l.set (i - 1) p).set i q
          if i - 1 ≠ 0 then gnomeAux key f l2 (i - 1) j
          else gnomeAux key f l2 j (j + 1)
        else gnomeAux key f l j (j + 1)
      | _, _ => none
    else some l

/-- Gnome sort entry point with the C initial indices `i = 1`, `j = 2`. -/
def gnomeSort {α : Type _} (key : α → Nat) (fuel : Nat) (l : List α) : Option (List α) :=
  gnomeAux key fuel l 1 2

/-- The group key used by the sort: the top variable of the group's variable
domain (src/examples/tbddmc.c line 760). -/
def relKey {B : Nat} (r : Rel B) : Nat := tbdd_getvar r.vars

/-- The SAT/Chaining preprocessing sort of the group array. -/
def sortRels {B : Nat} (fuel : Nat) (next : List (Rel B)) : Option (List (Rel B)) :=
  gnomeSort relKey fuel next

/-- Embeds the strategy pipeline of `main` (src/examples/tbddmc.c
lines 754-842): sort the groups for SAT and Chaining, merge if requested,
then dispatch on the strategy number (any other number aborts). -/
def mainRun {B : Nat} (strategy : Nat) (merge_relations : Bool) (fuel : Nat)
    (next : List (Rel B)) (s : SetT B) : Option (SetT B) :=
  Option.bind (if strategy = 2 ∨ strategy = 3 then sortRels fuel next else some next)
    (fun next1 =>
      Option.bind (if merge_relations then mergeRels fuel next1 else some next1)
        (fun next2 =>
          if strategy = 0 then bfs next2 fuel s
          else if strategy = 1 then par next2 fuel s
          else if strategy = 2 then sat next2 fuel s
          else if strategy = 3 then chaining next2 fuel s
          else none))

/-- One-group relational image over the full vector domain, as used by the
BFS, PAR and Chaining strategies. -/
def imgFull {B : Nat} (r : Rel B) (V : TBDD B) : TBDD B :=
  tbdd_relnext V r.bdd r.vars (vectordom B)

/-- One-group relational image over the group's saturation domain, as used
by the inner loop of `go_sat` (src/examples/tbddmc.c line 484). -/
def imgSat {B : Nat} (r : Rel B) (V : TBDD B) : TBDD B :=
  tbdd_relnext V r.bdd r.vars r.satdom

/-- One reachability step: the set together with every group's image of it. -/
def stepAll {B : Nat} (next : List (Rel B)) (V : TBDD B) : TBDD B :=
  next.foldr (fun r acc => acc ∪ imgFull r V) V

/-- Iterated reachability steps. -/
def reachIter {B : Nat} (next : List (Rel B)) : Nat → TBDD B → TBDD B
  | 0, V => V
  | n + 1, V => reachIter next n (stepAll next V)

/-- The set of states reachable from `V` under the groups of `next`: the
least fixpoint of `stepAll`, reached after at most `|assignments|` steps. -/
def reach {B : Nat} (next : List (Rel B)) (V : TBDD B) : TBDD B :=
  reachIter next (Fintype.card (As B)) V

/-- Stated from the claim (C8): one chaining iteration applies every group
exactly once, in array order, sequentially, each time unioning that group's
relational image of the running set directly into the next-level set. -/
def chainingClaimApply {B : Nat} : List (Rel B) → TBDD B → TBDD B
  | [], acc => acc
  | r :: rest, acc =>
    chainingClaimApply rest (acc ∪ tbdd_relnext acc r.bdd r.vars (vectordom B))

/-- Stated from the claim (C8): after all groups are applied, next-level
becomes next-level minus visited, visited becomes visited union next-level,
and the loop terminates exactly when next-level is empty, returning visited. -/
def chainingClaimLoop {B : Nat} (next : List (Rel B)) (fuel : Nat)
    (visited next_level : TBDD B) : Option (TBDD B) :=
  match fuel with
  | 0 => none
  | f + 1 =>
    let applied := chainingClaimApply next next_level
    let fresh := applied \ visited
    let visited2 := visited ∪ fresh
    if fresh = ∅ then some visited2 else chainingClaimLoop next f visited2 fresh

/-- Reads one machine integer from the input stream; a short read aborts
(src/examples/tbddmc.c: every `fread` of a single int). -/
def readInt (l : List Int) : Option (Int × List Int) :=
  match l with
  | [] => none
  | x :: rest => some (x, rest)

/-- Reads `n` machine integers; a short read aborts. -/
def readInts : Nat → List Int → Option (List Int × List Int)
  | 0, l => some ([], l)
  | n + 1, l => do
    let (x, l1) ← readInt l
    let (xs, l2) ← readInts n l1
    some (x :: xs, l2)

/-- Modelled from the spec: `tbdd_reader_frombinary`, the binary diagram
reader; it consumes one opaque payload token and aborts on a truncated
stream. -/
def tbdd_reader_frombinary (l : List Int) : Option (Int × List Int) := readInt l

/-- Embeds the projected-variables loop of `set_load`
(src/examples/tbddmc.c lines 189-198): walk components in order, emitting
the current-state bit variables of each component selected by the
projection; the loop stops when components or projection entries run out,
and an out-of-range or out-of-order projection entry is silently skipped
over (never matched). -/
def setVarsAux : List Nat → Nat → List Int → Nat → List Nat
  | [], _, _, _ => []
  | sb :: rest, i, proj, cv =>
    match proj with
    | [] => []
    | p :: ptail =>
      if (i : Int) = p then
        ((List.range sb).map (fun x => cv + 2 * x)) ++ setVarsAux rest (i + 1) ptail (cv + 2 * sb)
      else
        setVarsAux rest (i + 1) (p :: ptail) (cv + 2 * sb)

/-- Embeds `set_load` (src/examples/tbddmc.c lines 165-206) on a stream of
integers; the loaded set is summarized by its variable list and the opaque
diagram token.  A negative projection size other than `-1` makes the
projection `fread` fail (its size is converted to an enormous `size_t`). -/
def set_load (statebits : List Nat) (totalbits : Nat) (l : List Int) :
    Option ((List Nat × Int) × List Int) := do
  let (k, l1) ← readInt l
  if k = -1 then
    let vars := (List.range totalbits).map (fun i => 2 * i)
    let (d, l2) ← tbdd_reader_frombinary l1
    some ((vars, d), l2)
  else do
    let (proj, l2) ← if k < 0 then none else readInts k.toNat l1
    let vars := setVarsAux statebits 0 proj 0
    let (d, l3) ← tbdd_reader_frombinary l2
    some ((vars, d), l3)

/-- Embeds the sorted-merge of the read and write projections
(src/examples/tbddmc.c lines 232-249). -/
def mergeProj : List Int → List Int → List Int
  | [], [] => []
  | [], w :: wt => w :: mergeProj [] wt
  | r :: rt, [] => r :: mergeProj rt []
  | r :: rt, w :: wt =>
    if r < w then r :: mergeProj rt (w :: wt)
    else if r > w then w :: mergeProj (r :: rt) wt
    else w :: mergeProj rt wt

/-- Embeds the combined-variables loop of `rel_load_proj`
(src/examples/tbddmc.c lines 256-267): both the current and the next
variable of every bit of every selected component. -/
def relVarsAux : List Nat → Nat → List Int → Nat → List Nat
  | [], _, _, _ => []
  | sb :: rest, i, aproj, curvar =>
    match aproj with
    | [] => []
    | p :: pt =>
      if (i : Int) = p then
        (((List.range sb).map (fun x => [curvar + 2 * x, curvar + 2 * x + 1])).flatten)
          ++ relVarsAux rest (i + 1) pt (curvar + 2 * sb)
      else relVarsAux rest (i + 1) (p :: pt) (curvar + 2 * sb)

/-- Embeds the `satdom` computation of `rel_load_proj`
(src/examples/tbddmc.c lines 271-277): all current-state variables from the
relation's topmost variable onward.  With an empty variable list the C code
reads uninitialized memory at `all_vars[0]`; the embedding picks `0`. -/
def satdomOf (totalbits : Nat) (all_vars : List Nat) : List Nat :=
  ((List.range totalbits).drop (all_vars.headD 0 / 2)).map (fun i => 2 * i)

/-- Embeds `rel_load_proj` (src/examples/tbddmc.c lines 213-280): reads the
projection sizes and entries (aborting only on short reads), merges them,
and derives the combined variable list and the saturation domain.  No range
check is performed on any projection entry. -/
def rel_load_proj (statebits : List Nat) (totalbits : Nat) (l : List Int) :
    Option ((List Int × List Int × List Nat × List Nat) × List Int) := do
  let (r_k, l1) ← readInt l
  let (w_k, l2) ← readInt l1
  let (r_proj, l3) ← if r_k < 0 then none else readInts r_k.toNat l2
  let (w_proj, l4) ← if w_k < 0 then none else readInts w_k.toNat l3
  let a_proj := mergeProj r_proj w_proj
  let all_vars := relVarsAux statebits 0 a_proj 0
  some ((r_proj, w_proj, all_vars, satdomOf totalbits all_vars), l4)

/-- The topmost state-bit index of a relation (src/examples/tbddmc.c
line 272: `top_var = all_vars[0]/2`). -/
def topBit {B : Nat} (r : Rel B) : Nat := tbdd_getvar r.vars / 2

/-- Well-formedness of one transition group, as established by the loader:
the variable list is nonempty, sorted and in range with an even (current
state) top variable, the diagram depends only on the declared variables, the
saturation domain contains exactly the current-state variables from the
group's top variable onward among the variables the group does not write,
and the variables come in current/next pairs (`rel_load_proj` emits both
`curvar` and `curvar + 1` for every bit of every selected component). -/
def RelWF {B : Nat} (r : Rel B) : Prop :=
  r.vars ≠ [] ∧
  tbdd_getvar r.vars % 2 = 0 ∧
  List.Pairwise (· < ·) r.vars ∧
  (∀ v ∈ r.vars, v < 2 * B) ∧
  (∀ γ δ : As B, (∀ v ∈ r.vars, evalV γ v = evalV δ v) → (γ ∈ r.bdd ↔ δ ∈ r.bdd)) ∧
  (∀ k : Fin B, 2 * (k : Nat) + 1 ∉ r.vars →
    ((2 * (k : Nat) ∈ r.satdom) ↔ topBit r ≤ (k : Nat))) ∧
  (∀ k : Fin B, 2 * (k : Nat) ∈ r.vars ↔ 2 * (k : Nat) + 1 ∈ r.vars)

instance {B : Nat} (r : Rel B) : Decidable (RelWF r) := by
  unfold RelWF
  exact instDecidableAnd

/-- Well-formedness of a loaded model: the variable space fits the engine's
20-bit variable identifiers and every group is well-formed. -/
def ModelWF {B : Nat} (next : List (Rel B)) : Prop :=
  B ≤ 524288 ∧ ∀ r ∈ next, RelWF r

instance {B : Nat} (next : List (Rel B)) : Decidable (ModelWF next) := by
  unfold ModelWF
  exact instDecidableAnd

/-- The per-level result claimed for `go_bfs`/`go_par`: the union over the
group range of (relational image of the frontier, minus visited). -/
def rangeImg {B : Nat} (next : List (Rel B)) (cur visited : TBDD B) (frm len : Nat) :
    TBDD B :=
  ((List.range len).map (fun t =>
    tbdd_diff (tbdd_relnext cur (nextD next (frm + t)).bdd (nextD next (frm + t)).vars
      (vectordom B)) visited (vectordom B))).foldr (· ∪ ·) ∅

/-- The strategy numbered `strategy` terminates on the given model: some
fuel suffices for the embedded run (no merging). -/
def StratTerminates {B : Nat} (strategy : Nat) (next : List (Rel B)) (s : SetT B) : Prop :=
  ∃ fuel, (mainRun strategy false fuel next s).isSome

/-- Witness model, one state bit: the transition writing bit 0 to 1. -/
def wRel : Rel 1 :=
  { bdd := Finset.univ.filter (fun γ => evalV γ 1 = true)
    vars := [0, 1]
    r_proj := [0]
    w_proj := [0]
    satdom := [0] }

/-- Witness model initial set: bit 0 clear. -/
def wSet : SetT 1 :=
  { bdd := Finset.univ.filter (fun α => evalV α 0 = false)
    vars := [0] }

/-- The number of current-state bits a diagram still depends on; the
recursion of `go_sat` strictly reduces it when it moves the tag or branches,
which bounds the recursion depth at a fixed group index. -/
def sensCount {B : Nat} (S : TBDD B) : Nat :=
  (Finset.univ.filter (fun k : Fin B => ¬ Insens S (2 * (k : Nat)))).card

/-- A second witness group on the same one-bit domain whose top variable is
the next-state bit only, giving it a larger sort key than `wRel`. -/
def wRelB : Rel 1 :=
  { bdd := ∅
    vars := [1]
    r_proj := []
    w_proj := []
    satdom := [] }

section Lemmas

variable {B : Nat}

theorem evalV_lt {α : As B} {v : Nat} (h : v < 2 * B) : evalV α v = α ⟨v, h⟩ := by
  unfold evalV
  rw [dif_pos h]

theorem setV_eq_of_eval {v : Nat} {b : Bool} {α : As B} (h : evalV α v = b) :
    setV v b α = α := by
  funext u
  unfold setV
  split
  · rename_i hu
    subst hu
    unfold evalV at h
    rw [dif_pos u.isLt] at h
    rw [← h]
  · rfl

theorem evalV_setV_ne {v u : Nat} {b : Bool} {α : As B} (h : u ≠ v) :
    evalV (setV v b α) u = evalV α u := by
  unfold evalV setV
  split
  · simp [h]
  · rfl

theorem evalV_setV_eq {v : Nat} {b : Bool} {α : As B} (h : v < 2 * B) :
    evalV (setV v b α) v = b := by
  unfold evalV setV
  rw [dif_pos h, if_pos rfl]

theorem insens_setV_mem {S : TBDD B} {v : Nat} (h : Insens S v) (b : Bool) (α : As B) :
    setV v b α ∈ S ↔ α ∈ S := by
  by_cases hv : v < 2 * B
  · have hself : setV v (α ⟨v, hv⟩) α = α := by
      funext u
      unfold setV
      split
      · rename_i hu
        congr 1
        exact Fin.ext hu.symm
      · rfl
    have h2 : ∀ b1 b2 : Bool, setV v b1 α ∈ S ↔ setV v b2 α ∈ S := by
      intro b1 b2
      cases b1 <;> cases b2
      · exact Iff.rfl
      · exact (h α).symm
      · exact h α
      · exact Iff.rfl
    rw [h2 b (α ⟨v, hv⟩), hself]
  · have : setV v b α = α := by
      funext u
      unfold setV
      rw [if_neg]
      omega
    rw [this]

theorem insens_agree_aux {S : TBDD B} :
    ∀ (n : Nat) (α β : As B),
      (Finset.univ.filter (fun u => α u ≠ β u)).card = n →
      (∀ u : Fin (2 * B), α u ≠ β u → Insens S (u : Nat)) →
      (α ∈ S ↔ β ∈ S) := by
  intro n
  induction n using Nat.strong_induction_on with
  | _ n ih =>
    intro α β hcard hins
    rcases Nat.eq_zero_or_pos n with hz | hp
    · subst hz
      have : α = β := by
        funext u
        by_contra hne
        have : u ∈ Finset.univ.filter (fun u => α u ≠ β u) := by
          simp [hne]
        rw [Finset.card_eq_zero] at hcard
        simp [hcard] at this
      rw [this]
    · have hne : (Finset.univ.filter (fun u => α u ≠ β u)).Nonempty := by
        rw [← Finset.card_pos, hcard]; exact hp
      obtain ⟨u0, hu0mem⟩ := hne
      have hu0 := Finset.mem_filter.mp hu0mem
      have hins0 := hins u0 hu0.2
      set α' := setV (u0 : Nat) (β u0) α with hα'
      have hstep : α ∈ S ↔ α' ∈ S := (insens_setV_mem hins0 (β u0) α).symm
      have hval : α' u0 = β u0 := by
        rw [hα']; unfold setV; rw [if_pos rfl]
      have hother : ∀ u : Fin (2 * B), u ≠ u0 → α' u = α u := by
        intro u hu
        rw [hα']; unfold setV
        rw [if_neg]
        exact fun hc => hu (Fin.ext hc)
      have hsub : (Finset.univ.filter (fun u => α' u ≠ β u)) ⊂
          (Finset.univ.filter (fun u => α u ≠ β u)) := by
        constructor
        · intro u hu
          rw [Finset.mem_filter] at hu ⊢
          refine ⟨Finset.mem_univ u, ?_⟩
          by_cases h : u = u0
          · subst h; exact absurd hval hu.2
          · rw [hother u h] at hu; exact hu.2
        · intro hc
          have := hc hu0mem
          rw [Finset.mem_filter] at this
          exact this.2 hval
      have hcard' := Finset.card_lt_card hsub
      rw [hcard] at hcard'
      have hins' : ∀ u : Fin (2 * B), α' u ≠ β u → Insens S (u : Nat) := by
        intro u hu
        by_cases h : u = u0
        · subst h; exact absurd hval hu
        · rw [hother u h] at hu; exact hins u hu
      rw [hstep]
      exact ih _ hcard' α' β rfl hins'

theorem insens_agree {S : TBDD B} {α β : As B}
    (h : ∀ u : Fin (2 * B), α u ≠ β u → Insens S (u : Nat)) : α ∈ S ↔ β ∈ S :=
  insens_agree_aux _ α β rfl h

theorem mem_relnext {S R : TBDD B} {vars dom : List Nat} {β : As B} :
    β ∈ tbdd_relnext S R vars dom ↔ ∃ α ∈ S, ∃ γ ∈ R,
      (∀ k : Fin B, 2 * (k : Nat) ∈ vars → evalV γ (2 * (k : Nat)) = evalV α (2 * (k : Nat))) ∧
      (∀ k : Fin B, 2 * (k : Nat) + 1 ∈ vars →
        evalV β (2 * (k : Nat)) = evalV γ (2 * (k : Nat) + 1)) ∧
      (∀ k : Fin B, 2 * (k : Nat) ∈ dom → 2 * (k : Nat) + 1 ∉ vars →
        evalV β (2 * (k : Nat)) = evalV α (2 * (k : Nat))) := by
  unfold tbdd_relnext
  simp

theorem relnext_mono {S S' R : TBDD B} {vars dom : List Nat} (h : S ⊆ S') :
    tbdd_relnext S R vars dom ⊆ tbdd_relnext S' R vars dom := by
  intro β hβ
  rw [mem_relnext] at hβ ⊢
  obtain ⟨α, hα, rest⟩ := hβ
  exact ⟨α, h hα, rest⟩

theorem relnext_union_left {S T R : TBDD B} {vars dom : List Nat} :
    tbdd_relnext (S ∪ T) R vars dom = tbdd_relnext S R vars dom ∪ tbdd_relnext T R vars dom := by
  ext β
  simp only [Finset.mem_union, mem_relnext]
  constructor
  · rintro ⟨α, hα | hα, rest⟩
    · exact Or.inl ⟨α, hα, rest⟩
    · exact Or.inr ⟨α, hα, rest⟩
  · rintro (⟨α, hα, rest⟩ | ⟨α, hα, rest⟩)
    · exact ⟨α, Or.inl hα, rest⟩
    · exact ⟨α, Or.inr hα, rest⟩

theorem relnext_empty_left {R : TBDD B} {vars dom : List Nat} :
    tbdd_relnext (∅ : TBDD B) R vars dom = ∅ := by
  ext β
  rw [mem_relnext]
  simp

theorem relnext_rel_union {S R1 R2 : TBDD B} {vars dom : List Nat} :
    tbdd_relnext S (R1 ∪ R2) vars dom =
      tbdd_relnext S R1 vars dom ∪ tbdd_relnext S R2 vars dom := by
  ext β
  simp only [Finset.mem_union, mem_relnext]
  constructor
  · rintro ⟨α, hα, γ, hγ | hγ, rest⟩
    · exact Or.inl ⟨α, hα, γ, hγ, rest⟩
    · exact Or.inr ⟨α, hα, γ, hγ, rest⟩
  · rintro (⟨α, hα, γ, hγ, rest⟩ | ⟨α, hα, γ, hγ, rest⟩)
    · exact ⟨α, hα, γ, Or.inl hγ, rest⟩
    · exact ⟨α, hα, γ, Or.inr hγ, rest⟩

theorem firstSat_cases (p : Nat → Bool) (l : List Nat) :
    (firstSat p l = 1048575 ∧ ∀ v ∈ l, p v = false) ∨
    (firstSat p l ∈ l ∧ p (firstSat p l) = true) := by
  induction l with
  | nil =>
    left
    exact ⟨rfl, fun v hv => absurd hv (List.not_mem_nil v)⟩
  | cons a t ih =>
    by_cases h : p a = true
    · right
      unfold firstSat
      rw [if_pos h]
      exact ⟨List.mem_cons_self a t, h⟩
    · have hfalse : p a = false := by simpa using h
      unfold firstSat
      rw [if_neg h]
      rcases ih with ⟨h1, h2⟩ | ⟨h1, h2⟩
      · left
        refine ⟨h1, fun v hv => ?_⟩
        rcases List.mem_cons.mp hv with rfl | hv'
        · exact hfalse
        · exact h2 v hv'
      · right
        exact ⟨List.mem_cons_of_mem a h1, h2⟩

theorem firstSat_prefix_false {p : Nat → Bool} :
    ∀ {l : List Nat}, List.Pairwise (· < ·) l →
      ∀ v ∈ l, v < firstSat p l → p v = false := by
  intro l
  induction l with
  | nil =>
    intro _ v hv
    exact absurd hv (List.not_mem_nil v)
  | cons a t ih =>
    intro hpw v hv hlt
    rw [List.pairwise_cons] at hpw
    by_cases h : p a = true
    · unfold firstSat at hlt
      rw [if_pos h] at hlt
      rcases List.mem_cons.mp hv with rfl | hv'
      · omega
      · have := hpw.1 v hv'
        omega
    · have hfalse : p a = false := by simpa using h
      unfold firstSat at hlt
      rw [if_neg h] at hlt
      rcases List.mem_cons.mp hv with rfl | hv'
      · exact hfalse
      · exact ih hpw.2 v hv' hlt

theorem mem_evens_iff {v : Nat} :
    v ∈ (List.range B).map (fun k => 2 * k) ↔ ∃ k < B, v = 2 * k := by
  simp only [List.mem_map, List.mem_range]
  constructor
  · rintro ⟨k, hk, rfl⟩
    exact ⟨k, hk, rfl⟩
  · rintro ⟨k, hk, rfl⟩
    exact ⟨k, hk, rfl⟩

theorem evens_pairwise : List.Pairwise (· < ·) ((List.range B).map (fun k => 2 * k)) := by
  rw [List.pairwise_map]
  exact (List.pairwise_lt_range B).imp (by omega)

theorem setV_noop {v : Nat} {b : Bool} {α : As B} (h : 2 * B ≤ v) : setV v b α = α := by
  funext u
  unfold setV
  rw [if_neg]
  have := u.isLt
  omega

theorem insens_of_ge {S : TBDD B} {v : Nat} (h : 2 * B ≤ v) : Insens S v := by
  intro α
  rw [setV_noop h, setV_noop h]

theorem insens_of_lt_tagOf {S : TBDD B} {v : Nat} (hv : v % 2 = 0) (hlt : v < tagOf S) :
    Insens S v := by
  by_cases hb : v < 2 * B
  · have hmem : v ∈ (List.range B).map (fun k => 2 * k) := by
      rw [mem_evens_iff]
      exact ⟨v / 2, by omega, by omega⟩
    have := @firstSat_prefix_false (fun v => decide (¬ Insens S v)) _
      evens_pairwise v hmem hlt
    simpa using this
  · exact insens_of_ge (by omega)

theorem tagOf_le_max (hB : B ≤ 524288) (S : TBDD B) : tagOf S ≤ 1048575 := by
  rcases firstSat_cases (fun v => decide (¬ Insens S v)) ((List.range B).map (fun k => 2 * k))
    with ⟨h1, _⟩ | ⟨h1, _⟩
  · rw [tagOf, h1]
  · rw [mem_evens_iff] at h1
    obtain ⟨k, hk, he⟩ := h1
    rw [tagOf, he]
    omega

theorem tagOf_le_varOf (hB : B ≤ 524288) (S : TBDD B) : tagOf S ≤ varOf S := by
  rcases firstSat_cases
      (fun v => tagOf S ≤ v && (S.filter (fun α => evalV α v = true)).Nonempty)
      ((List.range B).map (fun k => 2 * k)) with ⟨h1, _⟩ | ⟨h1, h2⟩
  · rw [varOf, h1]
    exact tagOf_le_max hB S
  · rw [varOf]
    rw [← varOf] at h1 h2
    rw [Bool.and_eq_true] at h2
    exact of_decide_eq_true h2.1

theorem varOf_spec_found (S : TBDD B) (h : varOf S ≠ 1048575) :
    (∃ k < B, varOf S = 2 * k) ∧ tagOf S ≤ varOf S ∧
      (S.filter (fun α => evalV α (varOf S) = true)).Nonempty := by
  rcases firstSat_cases
      (fun v => tagOf S ≤ v && (S.filter (fun α => evalV α v = true)).Nonempty)
      ((List.range B).map (fun k => 2 * k)) with ⟨h1, _⟩ | ⟨h1, h2⟩
  · rw [varOf] at h
    exact absurd h1 h
  · rw [← varOf] at h1 h2
    rw [Bool.and_eq_true] at h2
    exact ⟨mem_evens_iff.mp h1, of_decide_eq_true h2.1, of_decide_eq_true h2.2⟩

theorem tagOf_spec_found (S : TBDD B) (h : tagOf S ≠ 1048575) :
    (∃ k < B, tagOf S = 2 * k) ∧ ¬ Insens S (tagOf S) := by
  rcases firstSat_cases (fun v => decide (¬ Insens S v)) ((List.range B).map (fun k => 2 * k))
    with ⟨h1, _⟩ | ⟨h1, h2⟩
  · rw [tagOf] at h
    exact absurd h1 h
  · rw [← tagOf] at h1 h2
    exact ⟨mem_evens_iff.mp h1, of_decide_eq_true h2⟩

theorem filter_true_empty_of_lt_varOf {S : TBDD B} {v : Nat} (hv : v % 2 = 0)
    (hb : v < 2 * B) (htag : tagOf S ≤ v) (hlt : v < varOf S) :
    S.filter (fun α => evalV α v = true) = ∅ := by
  have hmem : v ∈ (List.range B).map (fun k => 2 * k) := by
    rw [mem_evens_iff]
    exact ⟨v / 2, by omega, by omega⟩
  have := @firstSat_prefix_false
    (fun v => tagOf S ≤ v && (S.filter (fun α => evalV α v = true)).Nonempty) _
    evens_pairwise v hmem hlt
  rw [Bool.and_eq_false_iff] at this
  rcases this with h | h
  · rw [decide_eq_false_iff_not] at h
    exact absurd htag h
  · rw [decide_eq_false_iff_not, Finset.not_nonempty_iff_eq_empty] at h
    exact h

theorem eval_false_of_mem_of_lt_varOf {S : TBDD B} {v : Nat} {α : As B} (hv : v % 2 = 0)
    (hb : v < 2 * B) (htag : tagOf S ≤ v) (hlt : v < varOf S) (hα : α ∈ S) :
    evalV α v = false := by
  by_contra h
  have : α ∈ S.filter (fun α => evalV α v = true) := by
    rw [Finset.mem_filter]
    exact ⟨hα, by simpa using h⟩
  rw [filter_true_empty_of_lt_varOf hv hb htag hlt] at this
  exact absurd this (Finset.not_mem_empty α)

theorem mem_settag {S : TBDD B} {t : Nat} {α : As B} :
    α ∈ tbdd_settag S t ↔ maskBelow t α ∈ S := by
  unfold tbdd_settag
  simp

theorem mem_makenode {low high : TBDD B} {v nv : Nat} {α : As B} :
    α ∈ tbdd_makenode v low high nv ↔
      (α ∈ low ∧ evalV α v = false) ∨ (α ∈ high ∧ evalV α v = true) := by
  unfold tbdd_makenode
  simp

theorem shannon_at_varOf (S : TBDD B) (nv : Nat) :
    tbdd_makenode (varOf S) (tbddnode_low S) (tbddnode_high S) nv = S := by
  ext α
  rw [mem_makenode]
  unfold tbddnode_low tbddnode_high
  simp only [Finset.mem_filter, Finset.mem_univ, true_and]
  cases hα : evalV α (varOf S)
  · rw [setV_eq_of_eval hα]
    simp
  · rw [setV_eq_of_eval hα]
    simp

theorem settag_decomp {S : TBDD B} (hfound : tagOf S ≠ 1048575)
    (hlt : tagOf S < varOf S) :
    tbdd_makenode (tagOf S) (tbdd_settag S (tagOf S + 2)) tbdd_false (tagOf S + 2) = S := by
  obtain ⟨⟨k, hk, hke⟩, _⟩ := tagOf_spec_found S hfound
  have hb : tagOf S < 2 * B := by omega
  have hv : tagOf S % 2 = 0 := by omega
  ext α
  rw [mem_makenode]
  unfold tbdd_false
  simp only [Finset.not_mem_empty, false_and, or_false]
  rw [mem_settag]
  have hmask : ∀ β : As B, evalV β (tagOf S) = false → (maskBelow (tagOf S + 2) β ∈ S ↔ β ∈ S) := by
    intro β hβ
    apply insens_agree
    intro u hu
    unfold maskBelow at hu
    by_cases hcase : (u : Nat) < tagOf S + 2 ∧ (u : Nat) % 2 = 0
    · rcases Nat.lt_or_ge (u : Nat) (tagOf S) with h1 | h1
      · exact insens_of_lt_tagOf hcase.2 h1
      · have hu_eq : (u : Nat) = tagOf S := by omega
        rw [if_pos hcase] at hu
        have hfalse : β u = false := by
          have hβ' := hβ
          rw [evalV_lt hb] at hβ'
          rw [show u = (⟨tagOf S, hb⟩ : Fin (2 * B)) from Fin.ext hu_eq]
          exact hβ'
        exact absurd hfalse.symm hu
    · rw [if_neg hcase] at hu
      exact absurd rfl hu
  constructor
  · rintro ⟨hmem, hev⟩
    exact (hmask α hev).mp hmem
  · intro hα
    have hev : evalV α (tagOf S) = false :=
      eval_false_of_mem_of_lt_varOf hv hb (le_refl _) hlt hα
    exact ⟨(hmask α hev).mpr hα, hev⟩

/-- C4: in every non-terminal call of the saturation recursion, the pivot
variable computed by the embedded pivot expression of `go_sat`
(src/examples/tbddmc.c line 461) equals the minimum of the diagram's tag,
the diagram's branch variable, and the group's top variable; the engine's
20-bit variable space is assumed. -/
theorem go_sat_pivot_is_min {B : Nat} (hB : B ≤ 524288) (S : TBDD B) (rel_var : Nat) :
    pivotVar (tagOf S) (varOf S) rel_var = min (tagOf S) (min (varOf S) rel_var) := by
  have h := tagOf_le_varOf hB S
  unfold pivotVar
  split_ifs <;> omega

/-- Closed witness for `go_sat_pivot_is_min` at a concrete diagram. -/
theorem go_sat_pivot_is_min_witness :
    pivotVar (tagOf (∅ : TBDD 1)) (varOf (∅ : TBDD 1)) 4 =
      min (tagOf (∅ : TBDD 1)) (min (varOf (∅ : TBDD 1)) 4) :=
  go_sat_pivot_is_min (by norm_num) (∅ : TBDD 1) 4

/-- C5: the saturation recursion satisfies both terminal cases
(src/examples/tbddmc.c lines 447-449): the empty set is returned unchanged
for every group index, and any set is returned unchanged once the group
index has passed the last group. -/
theorem go_sat_terminal_cases {B : Nat} (next : List (Rel B)) (f idx : Nat) (S : TBDD B) :
    go_sat next (f + 1) tbdd_false idx = some tbdd_false ∧
    go_sat next (f + 1) S next.length = some S := by
  constructor
  · unfold go_sat
    rw [if_pos rfl]
  · unfold go_sat
    by_cases h : S = tbdd_false
    · rw [if_pos h, h]
    · rw [if_neg h, if_pos rfl]

theorem chainBody_eq_claimApply (next : List (Rel B)) (nl : TBDD B) :
    chainBody next nl = chainingClaimApply next nl := by
  unfold chainBody
  induction next generalizing nl with
  | nil => rfl
  | cons r rest ih =>
    rw [List.foldl_cons]
    unfold chainingClaimApply
    exact ih _

theorem chainingLoop_eq_claimLoop (next : List (Rel B)) (fuel : Nat) :
    ∀ (v nl : TBDD B), chainingLoop next fuel v nl = chainingClaimLoop next fuel v nl := by
  induction fuel with
  | zero => intro v nl; rfl
  | succ f ih =>
    intro v nl
    simp only [chainingLoop, chainingClaimLoop, chainBody_eq_claimApply, tbdd_diff,
      tbdd_or, tbdd_false]
    by_cases h : chainingClaimApply next nl \ v = ∅
    · rw [if_pos h, if_pos h]
    · rw [if_neg h, if_neg h]
      exact ih _ _

/-- C8: the embedded Chaining strategy coincides with the claimed iteration
scheme: every group applied exactly once in array order, sequentially, each
image unioned directly into the next-level set; then next-level minus
visited, visited union next-level, terminating exactly when next-level is
empty and returning visited. -/
theorem chaining_matches_claimed_iteration {B : Nat} (next : List (Rel B)) (fuel : Nat)
    (s : SetT B) :
    chaining next fuel s =
      (chainingClaimLoop next fuel s.bdd s.bdd).map (fun v => { s with bdd := v }) := by
  unfold chaining
  rw [chainingLoop_eq_claimLoop]

theorem go_par_eq_go_bfs (next : List (Rel B)) :
    ∀ (fuel : Nat) (cur visited : TBDD B) (frm len : Nat),
      go_par next fuel cur visited frm len = go_bfs next fuel cur visited frm len := by
  intro fuel
  induction fuel with
  | zero => intro cur visited frm len; rfl
  | succ f ih =>
    intro cur visited frm len
    unfold go_par go_bfs
    by_cases h : len = 1
    · rw [if_pos h, if_pos h]
    · rw [if_neg h, if_neg h]
      rw [ih cur visited (frm + len / 2) (len - len / 2), ih cur visited frm (len / 2)]
      cases go_bfs next f cur visited frm (len / 2) <;>
        cases go_bfs next f cur visited (frm + len / 2) (len - len / 2) <;> rfl

theorem rangeImg_one (next : List (Rel B)) (cur visited : TBDD B) (frm : Nat) :
    rangeImg next cur visited frm 1 =
      tbdd_diff (tbdd_relnext cur (nextD next frm).bdd (nextD next frm).vars (vectordom B))
        visited (vectordom B) := by
  unfold rangeImg
  rw [List.range_succ, List.range_zero]
  simp

theorem foldr_union_append (l1 l2 : List (TBDD B)) :
    (l1 ++ l2).foldr (· ∪ ·) ∅ = l1.foldr (· ∪ ·) ∅ ∪ l2.foldr (· ∪ ·) ∅ := by
  induction l1 with
  | nil => simp
  | cons a t ih =>
    simp only [List.cons_append, List.foldr_cons, ih]
    rw [Finset.union_assoc]

theorem rangeImg_split (next : List (Rel B)) (cur visited : TBDD B) (frm a b : Nat) :
    rangeImg next cur visited frm (a + b) =
      rangeImg next cur visited frm a ∪ rangeImg next cur visited (frm + a) b := by
  unfold rangeImg
  rw [List.range_add, List.map_append, foldr_union_append, List.map_map]
  have hfun : ((fun t => tbdd_diff (tbdd_relnext cur (nextD next (frm + t)).bdd
        (nextD next (frm + t)).vars (vectordom B)) visited (vectordom B)) ∘ fun x => a + x)
      = fun t => tbdd_diff (tbdd_relnext cur (nextD next (frm + a + t)).bdd
        (nextD next (frm + a + t)).vars (vectordom B)) visited (vectordom B) := by
    funext t
    simp only [Function.comp_apply]
    rw [Nat.add_assoc]
  rw [hfun]

theorem go_bfs_formula (next : List (Rel B)) :
    ∀ (len fuel : Nat) (cur visited : TBDD B) (frm : Nat), 1 ≤ len → len ≤ fuel →
      go_bfs next fuel cur visited frm len = some (rangeImg next cur visited frm len) := by
  intro len
  induction len using Nat.strong_induction_on with
  | _ len ih =>
    intro fuel cur visited frm h1 h2
    cases fuel with
    | zero => omega
    | succ f =>
      unfold go_bfs
      by_cases hlen : len = 1
      · rw [if_pos hlen, hlen, rangeImg_one]
      · rw [if_neg hlen]
        have ha : 1 ≤ len / 2 := by omega
        have hb : 1 ≤ len - len / 2 := by omega
        have ha2 : len / 2 < len := by omega
        have hb2 : len - len / 2 < len := by omega
        rw [ih (len / 2) ha2 f cur visited frm ha (by omega),
          ih (len - len / 2) hb2 f cur visited (frm + len / 2) hb (by omega)]
        have hsplit : rangeImg next cur visited frm len =
            rangeImg next cur visited frm (len / 2) ∪
              rangeImg next cur visited (frm + len / 2) (len - len / 2) := by
          conv_lhs => rw [show len = len / 2 + (len - len / 2) by omega]
          exact rangeImg_split next cur visited frm (len / 2) (len - len / 2)
        rw [hsplit]
        rfl

/-- C9: the parallel per-level image computation `go_par` returns exactly
the same diagram as the sequential `go_bfs` at every fuel, and for a
nonempty group range both return the union over the range of (relational
image of the frontier under each group, minus visited); parallel evaluation
affects only timing, never the result. -/
theorem go_par_matches_go_bfs {B : Nat} (next : List (Rel B)) (cur visited : TBDD B)
    (frm len fuel : Nat) (h1 : 1 ≤ len) (h2 : len ≤ fuel) :
    go_par next fuel cur visited frm len = go_bfs next fuel cur visited frm len ∧
    go_par next fuel cur visited frm len = some (rangeImg next cur visited frm len) := by
  refine ⟨go_par_eq_go_bfs next fuel cur visited frm len, ?_⟩
  rw [go_par_eq_go_bfs next fuel cur visited frm len]
  exact go_bfs_formula next len fuel cur visited frm h1 h2

/-- Closed witness for `go_par_matches_go_bfs` on the concrete model. -/
theorem go_par_matches_go_bfs_witness :
    go_par [wRel] 1 wSet.bdd ∅ 0 1 = go_bfs [wRel] 1 wSet.bdd ∅ 0 1 ∧
    go_par [wRel] 1 wSet.bdd ∅ 0 1 = some (rangeImg [wRel] wSet.bdd ∅ 0 1) :=
  go_par_matches_go_bfs [wRel] wSet.bdd ∅ 0 1 1 (by norm_num) (by norm_num)

/-- C10: every strategy run, including the sorting and merging
preprocessing, modifies only the `bdd` field of the set: the `variables`
field (the declared domain used for the final satisfying-assignment count)
is returned unchanged. -/
theorem strategies_only_modify_bdd {B : Nat} (strategy : Nat) (mrg : Bool) (fuel : Nat)
    (next : List (Rel B)) (s s' : SetT B)
    (h : mainRun strategy mrg fuel next s = some s') : s'.vars = s.vars := by
  unfold mainRun at h
  rw [Option.bind_eq_some] at h
  obtain ⟨next1, _, h⟩ := h
  rw [Option.bind_eq_some] at h
  obtain ⟨next2, _, h⟩ := h
  unfold bfs par sat chaining at h
  split_ifs at h
  all_goals
    rw [Option.map_eq_some'] at h
    obtain ⟨v, _, hv⟩ := h
    rw [← hv]

/-- Closed witness for `strategies_only_modify_bdd` on the concrete model. -/
theorem strategies_only_modify_bdd_witness :
    ((mainRun 0 false 10 [wRel] wSet).get (by decide)).vars = wSet.vars :=
  strategies_only_modify_bdd 0 false 10 [wRel] wSet _ (Option.some_get _).symm

theorem imgFull_mono {r : Rel B} {V W : TBDD B} (h : V ⊆ W) : imgFull r V ⊆ imgFull r W :=
  relnext_mono h

theorem imgFull_union {r : Rel B} {V W : TBDD B} :
    imgFull r (V ∪ W) = imgFull r V ∪ imgFull r W :=
  relnext_union_left

theorem mem_stepAll {next : List (Rel B)} {V : TBDD B} {x : As B} :
    x ∈ stepAll next V ↔ x ∈ V ∨ ∃ r ∈ next, x ∈ imgFull r V := by
  unfold stepAll
  induction next with
  | nil => simp
  | cons r t ih =>
    rw [List.foldr_cons]
    simp only [Finset.mem_union, ih, List.mem_cons]
    constructor
    · rintro ((hx | ⟨r', hr', hx⟩) | hx)
      · exact Or.inl hx
      · exact Or.inr ⟨r', Or.inr hr', hx⟩
      · exact Or.inr ⟨r, Or.inl rfl, hx⟩
    · rintro (hx | ⟨r', rfl | hr', hx⟩)
      · exact Or.inl (Or.inl hx)
      · exact Or.inr hx
      · exact Or.inl (Or.inr ⟨r', hr', hx⟩)

theorem subset_stepAll {next : List (Rel B)} {V : TBDD B} : V ⊆ stepAll next V := by
  intro x hx
  rw [mem_stepAll]
  exact Or.inl hx

theorem stepAll_mono {next : List (Rel B)} {V W : TBDD B} (h : V ⊆ W) :
    stepAll next V ⊆ stepAll next W := by
  intro x hx
  rw [mem_stepAll] at hx ⊢
  rcases hx with hx | ⟨r, hr, hx⟩
  · exact Or.inl (h hx)
  · exact Or.inr ⟨r, hr, imgFull_mono h hx⟩

theorem stepAll_union {next : List (Rel B)} {V W : TBDD B} :
    stepAll next (V ∪ W) = stepAll next V ∪ stepAll next W := by
  ext x
  simp only [Finset.mem_union, mem_stepAll, imgFull_union]
  constructor
  · rintro ((hx | hx) | ⟨r, hr, hx | hx⟩)
    · exact Or.inl (Or.inl hx)
    · exact Or.inr (Or.inl hx)
    · exact Or.inl (Or.inr ⟨r, hr, hx⟩)
    · exact Or.inr (Or.inr ⟨r, hr, hx⟩)
  · rintro ((hx | ⟨r, hr, hx⟩) | (hx | ⟨r, hr, hx⟩))
    · exact Or.inl (Or.inl hx)
    · exact Or.inr ⟨r, hr, Or.inl hx⟩
    · exact Or.inl (Or.inr hx)
    · exact Or.inr ⟨r, hr, Or.inr hx⟩

theorem reachIter_succ_outer (next : List (Rel B)) (n : Nat) (V : TBDD B) :
    reachIter next (n + 1) V = stepAll next (reachIter next n V) := by
  induction n generalizing V with
  | zero => rfl
  | succ m ih =>
    show reachIter next (m + 1) (stepAll next V) = _
    rw [ih (stepAll next V)]
    rfl

theorem subset_reachIter (next : List (Rel B)) (n : Nat) (V : TBDD B) :
    V ⊆ reachIter next n V := by
  induction n generalizing V with
  | zero => exact subset_rfl
  | succ m ih =>
    rw [reachIter_succ_outer]
    exact (ih V).trans subset_stepAll

theorem reachIter_mono_set (next : List (Rel B)) (n : Nat) {V W : TBDD B} (h : V ⊆ W) :
    reachIter next n V ⊆ reachIter next n W := by
  induction n generalizing V W with
  | zero => exact h
  | succ m ih =>
    rw [reachIter_succ_outer, reachIter_succ_outer]
    exact stepAll_mono (ih h)

theorem reachIter_fix {next : List (Rel B)} {V : TBDD B} (h : stepAll next V = V) (n : Nat) :
    reachIter next n V = V := by
  induction n with
  | zero => rfl
  | succ m ih =>
    rw [reachIter_succ_outer, ih, h]

theorem reachIter_add (next : List (Rel B)) (m n : Nat) (V : TBDD B) :
    reachIter next (m + n) V = reachIter next m (reachIter next n V) := by
  induction n generalizing V with
  | zero => rfl
  | succ k ih =>
    rw [reachIter_succ_outer]
    rw [show m + (k + 1) = m + k + 1 from rfl]
    rw [show reachIter next (m + k + 1) V = reachIter next (m + k) (stepAll next V) from rfl]
    rw [ih (stepAll next V)]
    congr 1
    rw [← reachIter_succ_outer]
    rfl

theorem reachIter_card_grow {next : List (Rel B)} {V : TBDD B} :
    ∀ k, (∀ j < k, stepAll next (reachIter next j V) ≠ reachIter next j V) →
      V.card + k ≤ (reachIter next k V).card := by
  intro k
  induction k with
  | zero =>
    intro _
    show V.card + 0 ≤ V.card
    omega
  | succ m ih =>
    intro h
    have h1 := ih (fun j hj => h j (by omega))
    have h2 : reachIter next m V ⊂ reachIter next (m + 1) V := by
      rw [reachIter_succ_outer]
      refine HasSubset.Subset.ssubset_of_ne subset_stepAll ?_
      exact fun hc => h m (by omega) hc.symm
    have := Finset.card_lt_card h2
    omega

theorem stepAll_reach (next : List (Rel B)) (V : TBDD B) :
    stepAll next (reach next V) = reach next V := by
  by_cases h : ∃ j < Fintype.card (As B), stepAll next (reachIter next j V) = reachIter next j V
  · obtain ⟨j, hj, hfix⟩ := h
    unfold reach
    rw [show Fintype.card (As B) = (Fintype.card (As B) - j) + j by omega,
      reachIter_add, reachIter_fix hfix, hfix]
  · push_neg at h
    have hcard := @reachIter_card_grow B next V (Fintype.card (As B)) h
    have hle : (reachIter next (Fintype.card (As B)) V).card ≤ Fintype.card (As B) :=
      Finset.card_le_univ _
    have huniv : reachIter next (Fintype.card (As B)) V = Finset.univ := by
      apply Finset.eq_univ_of_card
      omega
    unfold reach
    rw [huniv]
    apply Finset.univ_subset_iff.mp
    exact subset_stepAll

theorem subset_reach (next : List (Rel B)) (V : TBDD B) : V ⊆ reach next V :=
  subset_reachIter next _ V

theorem reach_closed {next : List (Rel B)} {V : TBDD B} {r : Rel B} (hr : r ∈ next) :
    imgFull r (reach next V) ⊆ reach next V := by
  intro x hx
  have : x ∈ stepAll next (reach next V) := by
    rw [mem_stepAll]
    exact Or.inr ⟨r, hr, hx⟩
  rw [stepAll_reach] at this
  exact this

theorem reach_least {next : List (Rel B)} {V T : TBDD B} (h1 : V ⊆ T)
    (h2 : ∀ r ∈ next, imgFull r T ⊆ T) : reach next V ⊆ T := by
  have : ∀ n, reachIter next n V ⊆ T := by
    intro n
    induction n with
    | zero => exact h1
    | succ m ih =>
      rw [reachIter_succ_outer]
      intro x hx
      rw [mem_stepAll] at hx
      rcases hx with hx | ⟨r, hr, hx⟩
      · exact ih hx
      · exact h2 r hr (imgFull_mono ih hx)
  exact this _

theorem reach_mono_set (next : List (Rel B)) {V W : TBDD B} (h : V ⊆ W) :
    reach next V ⊆ reach next W :=
  reachIter_mono_set next _ h

theorem reach_squeeze {next : List (Rel B)} {V W : TBDD B} (h1 : V ⊆ W)
    (h2 : W ⊆ reach next V) : reach next W = reach next V := by
  apply subset_antisymm
  · exact reach_least h2 (fun r hr => reach_closed hr)
  · exact reach_mono_set next h1

theorem reach_union (next : List (Rel B)) (V W : TBDD B) :
    reach next (V ∪ W) = reach next V ∪ reach next W := by
  apply subset_antisymm
  · apply reach_least
    · exact Finset.union_subset_union (subset_reach next V) (subset_reach next W)
    · intro r hr
      rw [imgFull_union]
      exact Finset.union_subset_union (reach_closed hr) (reach_closed hr)
  · exact Finset.union_subset
      (reach_mono_set next Finset.subset_union_left)
      (reach_mono_set next Finset.subset_union_right)

theorem reach_empty (next : List (Rel B)) : reach next (∅ : TBDD B) = ∅ := by
  apply Finset.subset_empty.mp
  apply reach_least subset_rfl
  intro r _ x hx
  unfold imgFull at hx
  rw [relnext_empty_left] at hx
  exact hx

theorem stepAll_nil (V : TBDD B) : stepAll ([] : List (Rel B)) V = V := rfl

theorem reach_nil (V : TBDD B) : reach ([] : List (Rel B)) V = V :=
  reachIter_fix (stepAll_nil V) _

theorem stepAll_perm {next next' : List (Rel B)} (h : List.Perm next next') (V : TBDD B) :
    stepAll next V = stepAll next' V := by
  ext x
  rw [mem_stepAll, mem_stepAll]
  constructor
  · rintro (hx | ⟨r, hr, hx⟩)
    · exact Or.inl hx
    · exact Or.inr ⟨r, h.mem_iff.mp hr, hx⟩
  · rintro (hx | ⟨r, hr, hx⟩)
    · exact Or.inl hx
    · exact Or.inr ⟨r, h.mem_iff.mpr hr, hx⟩

theorem reach_perm {next next' : List (Rel B)} (h : List.Perm next next') (V : TBDD B) :
    reach next V = reach next' V := by
  have hstep : ∀ n W, reachIter next n W = reachIter next' n W := by
    intro n
    induction n with
    | zero => intro W; rfl
    | succ m ih =>
      intro W
      show reachIter next m (stepAll next W) = reachIter next' m (stepAll next' W)
      rw [stepAll_perm h W]
      exact ih _
  unfold reach
  exact hstep _ V

theorem mem_vectordom {v : Nat} : v ∈ vectordom B ↔ ∃ k < B, v = 2 * k :=
  mem_evens_iff

theorem relnext_filter_commute {S R : TBDD B} {vars dom : List Nat} {k0 : Fin B} {b : Bool}
    (hw : 2 * (k0 : Nat) + 1 ∉ vars) (hd : 2 * (k0 : Nat) ∈ dom) :
    tbdd_relnext (S.filter (fun α => evalV α (2 * (k0 : Nat)) = b)) R vars dom =
      (tbdd_relnext S R vars dom).filter (fun β => evalV β (2 * (k0 : Nat)) = b) := by
  ext β
  rw [Finset.mem_filter, mem_relnext, mem_relnext]
  constructor
  · rintro ⟨α, hα, γ, hγ, c1, c2, c3⟩
    rw [Finset.mem_filter] at hα
    refine ⟨⟨α, hα.1, γ, hγ, c1, c2, c3⟩, ?_⟩
    rw [c3 k0 hd hw]
    exact hα.2
  · rintro ⟨⟨α, hα, γ, hγ, c1, c2, c3⟩, hb⟩
    refine ⟨α, ?_, γ, hγ, c1, c2, c3⟩
    rw [Finset.mem_filter]
    exact ⟨hα, by rw [← c3 k0 hd hw]; exact hb⟩

theorem insens_union {S T : TBDD B} {v : Nat} (h1 : Insens S v) (h2 : Insens T v) :
    Insens (S ∪ T) v := by
  intro α
  simp only [Finset.mem_union]
  rw [h1 α, h2 α]

theorem relnext_insens {S R : TBDD B} {vars dom : List Nat} {p : Nat}
    (h : ∀ k : Fin B, 2 * (k : Nat) = p → (2 * (k : Nat) + 1 ∉ vars ∧ 2 * (k : Nat) ∉ dom)) :
    Insens (tbdd_relnext S R vars dom) p := by
  have step : ∀ b1 b2 : Bool, ∀ α0 : As B,
      setV p b1 α0 ∈ tbdd_relnext S R vars dom → setV p b2 α0 ∈ tbdd_relnext S R vars dom := by
    intro b1 b2 α0 hmem
    rw [mem_relnext] at hmem ⊢
    obtain ⟨α, hα, γ, hγ, c1, c2, c3⟩ := hmem
    refine ⟨α, hα, γ, hγ, c1, ?_, ?_⟩
    · intro k hk
      by_cases hp : 2 * (k : Nat) = p
      · exact absurd hk (h k hp).1
      · have c2k := c2 k hk
        rw [evalV_setV_ne hp] at c2k ⊢
        exact c2k
    · intro k hk1 hk2
      by_cases hp : 2 * (k : Nat) = p
      · exact absurd hk1 (h k hp).2
      · have c3k := c3 k hk1 hk2
        rw [evalV_setV_ne hp] at c3k ⊢
        exact c3k
  intro α
  exact ⟨fun hm => step true false α hm, fun hm => step false true α hm⟩

theorem imgFull_insens {r : Rel B} {X : TBDD B} {k0 : Fin B}
    (hw : 2 * (k0 : Nat) + 1 ∉ r.vars) (hv : 2 * (k0 : Nat) ∉ r.vars)
    (hX : Insens X (2 * (k0 : Nat))) : Insens (imgFull r X) (2 * (k0 : Nat)) := by
  have step : ∀ b1 b2 : Bool, ∀ α0 : As B,
      setV (2 * (k0 : Nat)) b1 α0 ∈ imgFull r X →
      setV (2 * (k0 : Nat)) b2 α0 ∈ imgFull r X := by
    intro b1 b2 α0 hmem
    rw [imgFull, mem_relnext] at hmem ⊢
    obtain ⟨α, hα, γ, hγ, c1, c2, c3⟩ := hmem
    refine ⟨setV (2 * (k0 : Nat)) b2 α, (insens_setV_mem hX b2 α).mpr hα, γ, hγ, ?_, ?_, ?_⟩
    · intro k hk
      by_cases hp : 2 * (k : Nat) = 2 * (k0 : Nat)
      · rw [hp] at hk
        exact absurd hk hv
      · rw [evalV_setV_ne hp]
        exact c1 k hk
    · intro k hk
      by_cases hp : 2 * (k : Nat) = 2 * (k0 : Nat)
      · rw [hp] at hk
        exact absurd hk hw
      · have c2k := c2 k hk
        rw [evalV_setV_ne hp] at c2k ⊢
        exact c2k
    · intro k hk1 hk2
      by_cases hp : 2 * (k : Nat) = 2 * (k0 : Nat)
      · have hk0 : 2 * (k0 : Nat) < 2 * B := by
          have := k0.isLt
          omega
        have hkk : k = k0 := Fin.ext (by omega)
        subst hkk
        rw [hp, evalV_setV_eq hk0, evalV_setV_eq hk0]
      · have c3k := c3 k hk1 hk2
        rw [evalV_setV_ne hp] at c3k
        rw [evalV_setV_ne hp, evalV_setV_ne hp]
        exact c3k
  intro α
  exact ⟨fun hm => step true false α hm, fun hm => step false true α hm⟩

theorem relnext_dom_subset {S R : TBDD B} {vars d1 d2 : List Nat}
    (h : ∀ k : Fin B, 2 * (k : Nat) + 1 ∉ vars →
      ((2 * (k : Nat) ∈ d1 ↔ 2 * (k : Nat) ∈ d2) ∨
        (Insens S (2 * (k : Nat)) ∧ 2 * (k : Nat) ∉ vars))) :
    tbdd_relnext S R vars d1 ⊆ tbdd_relnext S R vars d2 := by
  intro β hβ
  rw [mem_relnext] at hβ ⊢
  obtain ⟨α, hα, γ, hγ, c1, c2, c3⟩ := hβ
  have hdec : ∀ m : Nat, Decidable (m % 2 = 0 ∧ m + 1 ∉ vars ∧ ¬((m ∈ d1) ↔ (m ∈ d2))) :=
    fun m => inferInstance
  set P : Nat → Prop := fun m => m % 2 = 0 ∧ m + 1 ∉ vars ∧ ¬((m ∈ d1) ↔ (m ∈ d2)) with hPdef
  have hPprops : ∀ m : Nat, m < 2 * B → P m → Insens S m ∧ m ∉ vars := by
    intro m hm hPm
    obtain ⟨hm0, hm1, hm2⟩ := hPm
    have hk := h ⟨m / 2, by omega⟩ (by
      show 2 * (m / 2) + 1 ∉ vars
      rw [show 2 * (m / 2) = m by omega]
      exact hm1)
    rw [show 2 * (m / 2) = m by omega] at hk
    rcases hk with hk | hk
    · exact absurd hk hm2
    · exact hk
  set α' : As B := fun u => if P (u : Nat) then β u else α u with hadef
  have hval_div : ∀ m : Nat, (hm : m < 2 * B) → P m → evalV α' m = evalV β m := by
    intro m hm hPm
    rw [evalV_lt hm, evalV_lt hm, hadef]
    simp only []
    rw [if_pos hPm]
  have hval_nodiv : ∀ m : Nat, (hm : m < 2 * B) → ¬ P m → evalV α' m = evalV α m := by
    intro m hm hPm
    rw [evalV_lt hm, evalV_lt hm, hadef]
    simp only []
    rw [if_neg hPm]
  have hamem : α' ∈ S := by
    rw [@insens_agree B S α' α ?_]
    · exact hα
    · intro u hu
      by_cases hPu : P (u : Nat)
      · exact (hPprops (u : Nat) u.isLt hPu).1
      · exfalso
        apply hu
        rw [hadef]
        simp only []
        rw [if_neg hPu]
  refine ⟨α', hamem, γ, hγ, ?_, c2, ?_⟩
  · intro k hk
    have hk2 : 2 * (k : Nat) < 2 * B := by
      have := k.isLt
      omega
    by_cases hPk : P (2 * (k : Nat))
    · exact absurd hk (hPprops _ hk2 hPk).2
    · rw [hval_nodiv _ hk2 hPk]
      exact c1 k hk
  · intro k hk1 hk2
    have hklt : 2 * (k : Nat) < 2 * B := by
      have := k.isLt
      omega
    by_cases hPk : P (2 * (k : Nat))
    · rw [hval_div _ hklt hPk]
    · rw [hval_nodiv _ hklt hPk]
      have hiff : (2 * (k : Nat) ∈ d1) ↔ (2 * (k : Nat) ∈ d2) := by
        by_contra hc
        exact hPk ⟨by omega, hk2, hc⟩
      exact c3 k (hiff.mpr hk1) hk2

theorem stepAll_filter {next : List (Rel B)} {W : TBDD B} {k0 : Fin B} {b : Bool}
    (h : ∀ r ∈ next, 2 * (k0 : Nat) + 1 ∉ r.vars) :
    stepAll next (W.filter (fun α => evalV α (2 * (k0 : Nat)) = b)) =
      (stepAll next W).filter (fun α => evalV α (2 * (k0 : Nat)) = b) := by
  have hd : 2 * (k0 : Nat) ∈ vectordom B := mem_vectordom.mpr ⟨k0, k0.isLt, rfl⟩
  ext x
  simp only [mem_stepAll, Finset.mem_filter]
  constructor
  · rintro (⟨hx, hb⟩ | ⟨r, hr, hx⟩)
    · exact ⟨Or.inl hx, hb⟩
    · unfold imgFull at hx
      rw [relnext_filter_commute (h r hr) hd, Finset.mem_filter] at hx
      exact ⟨Or.inr ⟨r, hr, hx.1⟩, hx.2⟩
  · rintro ⟨hx | ⟨r, hr, hx⟩, hb⟩
    · exact Or.inl ⟨hx, hb⟩
    · refine Or.inr ⟨r, hr, ?_⟩
      unfold imgFull
      rw [relnext_filter_commute (h r hr) hd, Finset.mem_filter]
      exact ⟨hx, hb⟩

theorem reach_filter {next : List (Rel B)} {W : TBDD B} {k0 : Fin B} {b : Bool}
    (h : ∀ r ∈ next, 2 * (k0 : Nat) + 1 ∉ r.vars) :
    reach next (W.filter (fun α => evalV α (2 * (k0 : Nat)) = b)) =
      (reach next W).filter (fun α => evalV α (2 * (k0 : Nat)) = b) := by
  have hiter : ∀ (n : Nat) (W' : TBDD B),
      reachIter next n (W'.filter (fun α => evalV α (2 * (k0 : Nat)) = b)) =
        (reachIter next n W').filter (fun α => evalV α (2 * (k0 : Nat)) = b) := by
    intro n
    induction n with
    | zero => intro W'; rfl
    | succ m ih =>
      intro W'
      rw [reachIter_succ_outer, reachIter_succ_outer, ih W', stepAll_filter h]
  exact hiter _ W

theorem stepAll_insens {next : List (Rel B)} {X : TBDD B} {k0 : Fin B}
    (h : ∀ r ∈ next, 2 * (k0 : Nat) + 1 ∉ r.vars ∧ 2 * (k0 : Nat) ∉ r.vars)
    (hX : Insens X (2 * (k0 : Nat))) : Insens (stepAll next X) (2 * (k0 : Nat)) := by
  intro α
  rw [mem_stepAll, mem_stepAll]
  constructor
  · rintro (hm | ⟨r, hr, hm⟩)
    · exact Or.inl ((hX α).mp hm)
    · exact Or.inr ⟨r, hr, (imgFull_insens (h r hr).1 (h r hr).2 hX α).mp hm⟩
  · rintro (hm | ⟨r, hr, hm⟩)
    · exact Or.inl ((hX α).mpr hm)
    · exact Or.inr ⟨r, hr, (imgFull_insens (h r hr).1 (h r hr).2 hX α).mpr hm⟩

theorem reach_insens {next : List (Rel B)} {X : TBDD B} {k0 : Fin B}
    (h : ∀ r ∈ next, 2 * (k0 : Nat) + 1 ∉ r.vars ∧ 2 * (k0 : Nat) ∉ r.vars)
    (hX : Insens X (2 * (k0 : Nat))) : Insens (reach next X) (2 * (k0 : Nat)) := by
  have hiter : ∀ (n : Nat) (X' : TBDD B), Insens X' (2 * (k0 : Nat)) →
      Insens (reachIter next n X') (2 * (k0 : Nat)) := by
    intro n
    induction n with
    | zero => intro X' hX'; exact hX'
    | succ m ih =>
      intro X' hX'
      rw [reachIter_succ_outer]
      exact stepAll_insens h (ih X' hX')
  exact hiter _ X hX

theorem reach_mono_rels {rels rels' : List (Rel B)} (h : ∀ r ∈ rels, r ∈ rels')
    (V : TBDD B) : reach rels V ⊆ reach rels' V := by
  apply reach_least (subset_reach rels' V)
  intro r hr
  exact reach_closed (h r hr)

theorem head_le_of_mem {l : List Nat} (hs : List.Pairwise (· < ·) l) {v : Nat}
    (hv : v ∈ l) : tbdd_getvar l ≤ v := by
  cases l with
  | nil => exact absurd hv (List.not_mem_nil v)
  | cons a t =>
    rw [List.pairwise_cons] at hs
    rcases List.mem_cons.mp hv with rfl | hv'
    · exact le_refl _
    · exact le_of_lt (hs.1 v hv')

theorem makenode_false_high {L : TBDD B} {v nv : Nat} :
    tbdd_makenode v L tbdd_false nv = L.filter (fun α => evalV α v = false) := by
  unfold tbdd_makenode tbdd_false
  simp

theorem makenode_eq_filters {L H : TBDD B} {v nv : Nat} :
    tbdd_makenode v L H nv =
      L.filter (fun α => evalV α v = false) ∪ H.filter (fun α => evalV α v = true) := rfl

theorem relnext_dom_congr {S R : TBDD B} {vars d1 d2 : List Nat}
    (h : ∀ k : Fin B, 2 * (k : Nat) + 1 ∉ vars →
      ((2 * (k : Nat) ∈ d1 ↔ 2 * (k : Nat) ∈ d2) ∨
        (Insens S (2 * (k : Nat)) ∧ 2 * (k : Nat) ∉ vars))) :
    tbdd_relnext S R vars d1 = tbdd_relnext S R vars d2 := by
  apply subset_antisymm
  · exact relnext_dom_subset h
  · apply relnext_dom_subset
    intro k hk
    rcases h k hk with h1 | h1
    · exact Or.inl h1.symm
    · exact Or.inr h1

theorem nextD_eq_getElem {next : List (Rel B)} {i : Nat} (h : i < next.length) :
    nextD next i = next[i] := by
  unfold nextD
  rw [List.getD_eq_getElem?_getD, List.getElem?_eq_getElem h]
  rfl

theorem drop_cons_nextD {next : List (Rel B)} {idx : Nat} (h : idx < next.length) :
    next.drop idx = nextD next idx :: next.drop (idx + 1) := by
  rw [List.drop_eq_getElem_cons h, nextD_eq_getElem h]

theorem mem_drop_of_index {next : List (Rel B)} {idx i : Nat} (h : idx + i < next.length) :
    nextD next (idx + i) ∈ next.drop idx := by
  have h2 : i < (next.drop idx).length := by
    rw [List.length_drop]
    omega
  have h3 : (next.drop idx)[i] = next[idx + i] := List.getElem_drop next
  rw [nextD_eq_getElem h, ← h3]
  exact List.getElem_mem h2

theorem exists_index_of_mem_drop {next : List (Rel B)} {idx : Nat} {r : Rel B}
    (h : r ∈ next.drop idx) : ∃ i, idx + i < next.length ∧ r = nextD next (idx + i) := by
  obtain ⟨j, hj, he⟩ := List.getElem_of_mem h
  have hj2 : idx + j < next.length := by
    rw [List.length_drop] at hj
    omega
  refine ⟨j, hj2, ?_⟩
  have hd : (next.drop idx)[j] = next[idx + j] := List.getElem_drop next
  rw [nextD_eq_getElem hj2, ← hd, he]

theorem takeWhile_getD {α : Type _} (p : α → Bool) (d : α) :
    ∀ (l : List α) (i : Nat), i < (l.takeWhile p).length → p (l.getD i d) = true := by
  intro l
  induction l with
  | nil =>
    intro i hi
    simp [List.takeWhile] at hi
  | cons a t ih =>
    intro i hi
    rw [List.takeWhile_cons] at hi
    by_cases hpa : p a = true
    · rw [if_pos hpa] at hi
      cases i with
      | zero => simpa using hpa
      | succ n =>
        rw [List.length_cons] at hi
        have := ih n (by omega)
        simpa using this
    · rw [if_neg hpa] at hi
      simp at hi

theorem countSame_pos {next : List (Rel B)} {idx rel_var : Nat} :
    1 ≤ countSame next idx rel_var := by
  unfold countSame
  omega

theorem takeWhile_length_le {α : Type _} (p : α → Bool) :
    ∀ l : List α, (l.takeWhile p).length ≤ l.length := by
  intro l
  induction l with
  | nil => exact le_refl _
  | cons a t ih =>
    rw [List.takeWhile_cons]
    by_cases hpa : p a = true
    · rw [if_pos hpa, List.length_cons, List.length_cons]
      omega
    · rw [if_neg hpa, List.length_cons]
      simp only [List.length_nil]
      omega

theorem countSame_le {next : List (Rel B)} {idx rel_var : Nat} (h : idx < next.length) :
    idx + countSame next idx rel_var ≤ next.length := by
  unfold countSame
  have h1 := takeWhile_length_le (fun r : Rel B => tbdd_getvar r.vars == rel_var)
    (next.drop (idx + 1))
  rw [List.length_drop] at h1
  omega

theorem countSame_key {next : List (Rel B)} {idx rel_var i : Nat}
    (h0 : tbdd_getvar (nextD next idx).vars = rel_var)
    (hi : i < countSame next idx rel_var) :
    tbdd_getvar (nextD next (idx + i)).vars = rel_var := by
  cases i with
  | zero => simpa using h0
  | succ n =>
    unfold countSame at hi
    have hn : n < ((next.drop (idx + 1)).takeWhile
        (fun r => tbdd_getvar r.vars == rel_var)).length := by omega
    have hp := takeWhile_getD (fun r : Rel B => tbdd_getvar r.vars == rel_var) default
      (next.drop (idx + 1)) n hn
    have hgd : (next.drop (idx + 1)).getD n default = nextD next (idx + 1 + n) := by
      unfold nextD
      rw [List.getD_eq_getElem?_getD, List.getD_eq_getElem?_getD, List.getElem?_drop]
    rw [hgd] at hp
    rw [show idx + (n + 1) = idx + 1 + n by omega]
    simpa using hp

theorem chainApplyN_succ (next : List (Rel B)) (idx n : Nat) (X : TBDD B) :
    chainApplyN next idx (n + 1) X =
      chainApplyN next idx n X ∪
        imgSat (nextD next (idx + n)) (chainApplyN next idx n X) := by
  unfold chainApplyN
  rw [List.range_succ, List.foldl_append]
  rfl

theorem subset_chainApplyN (next : List (Rel B)) (idx : Nat) :
    ∀ (n : Nat) (X : TBDD B), X ⊆ chainApplyN next idx n X := by
  intro n
  induction n with
  | zero => intro X; exact subset_rfl
  | succ m ih =>
    intro X
    rw [chainApplyN_succ]
    exact (ih X).trans Finset.subset_union_left

theorem chainApplyN_stable (next : List (Rel B)) (idx : Nat) :
    ∀ (n : Nat) (X : TBDD B), chainApplyN next idx n X = X →
      ∀ i < n, imgSat (nextD next (idx + i)) X ⊆ X := by
  intro n
  induction n with
  | zero =>
    intro X _ i hi
    omega
  | succ m ih =>
    intro X hX i hi
    rw [chainApplyN_succ] at hX
    have hAX : chainApplyN next idx m X = X := by
      apply subset_antisymm
      · conv_rhs => rw [← hX]
        exact Finset.subset_union_left
      · exact subset_chainApplyN next idx m X
    rcases Nat.lt_or_ge i m with him | him
    · exact ih X hAX i him
    · have hieq : i = m := by omega
      subst hieq
      rw [hAX] at hX
      intro x hx
      rw [← hX]
      exact Finset.mem_union_right _ hx

theorem chainApplyN_bound (next : List (Rel B)) (idx : Nat) :
    ∀ (n : Nat) (X T : TBDD B), X ⊆ T →
      (∀ i < n, imgSat (nextD next (idx + i)) T ⊆ T) →
      chainApplyN next idx n X ⊆ T := by
  intro n
  induction n with
  | zero =>
    intro X T hXT _
    exact hXT
  | succ m ih =>
    intro X T hXT h
    rw [chainApplyN_succ]
    have hA := ih X T hXT (fun i hi => h i (by omega))
    apply Finset.union_subset hA
    intro x hx
    apply h m (by omega)
    unfold imgSat at hx ⊢
    exact relnext_mono hA hx

theorem chainApplyN_insens (next : List (Rel B)) (idx : Nat) {p : Nat} :
    ∀ (n : Nat) (X : TBDD B),
      (∀ i < n, ∀ k : Fin B, 2 * (k : Nat) = p →
        (2 * (k : Nat) + 1 ∉ (nextD next (idx + i)).vars ∧
          2 * (k : Nat) ∉ (nextD next (idx + i)).satdom)) →
      Insens X p → Insens (chainApplyN next idx n X) p := by
  intro n
  induction n with
  | zero =>
    intro X _ hX
    exact hX
  | succ m ih =>
    intro X h hX
    rw [chainApplyN_succ]
    have hA := ih X (fun i hi => h i (by omega)) hX
    exact insens_union hA (relnext_insens (h m (by omega)))

theorem mem_foldr_union {l : List (TBDD B)} {x : As B} :
    x ∈ l.foldr (· ∪ ·) ∅ ↔ ∃ y ∈ l, x ∈ y := by
  induction l with
  | nil => simp
  | cons a t ih =>
    rw [List.foldr_cons, Finset.mem_union, ih]
    constructor
    · rintro (hx | ⟨y, hy, hx⟩)
      · exact ⟨a, List.mem_cons_self a t, hx⟩
      · exact ⟨y, List.mem_cons_of_mem a hy, hx⟩
    · rintro ⟨y, hy, hx⟩
      rcases List.mem_cons.mp hy with rfl | hy'
      · exact Or.inl hx
      · exact Or.inr ⟨y, hy', hx⟩

theorem mem_rangeImg {next : List (Rel B)} {cur vis : TBDD B} {frm len : Nat} {x : As B} :
    x ∈ rangeImg next cur vis frm len ↔
      ∃ t < len, x ∈ imgFull (nextD next (frm + t)) cur ∧ x ∉ vis := by
  unfold rangeImg
  rw [mem_foldr_union]
  constructor
  · rintro ⟨y, hy, hx⟩
    rw [List.mem_map] at hy
    obtain ⟨t, ht, rfl⟩ := hy
    rw [List.mem_range] at ht
    unfold tbdd_diff at hx
    rw [Finset.mem_sdiff] at hx
    exact ⟨t, ht, hx.1, hx.2⟩
  · rintro ⟨t, ht, hx, hv⟩
    refine ⟨_, List.mem_map.mpr ⟨t, List.mem_range.mpr ht, rfl⟩, ?_⟩
    unfold tbdd_diff
    rw [Finset.mem_sdiff]
    exact ⟨hx, hv⟩

theorem go_bfs_len_zero_none {next : List (Rel B)} :
    ∀ (f : Nat) (cur visited : TBDD B) (frm : Nat),
      go_bfs next f cur visited frm 0 = none := by
  intro f
  induction f with
  | zero => intro cur visited frm; rfl
  | succ g ih =>
    intro cur visited frm
    unfold go_bfs
    rw [if_neg (by omega)]
    rw [show (0 : Nat) / 2 = 0 from rfl, ih cur visited frm]
    rfl

theorem go_bfs_some_eq {next : List (Rel B)} :
    ∀ (f : Nat) (cur visited : TBDD B) (frm len : Nat) (x : TBDD B), 1 ≤ len →
      go_bfs next f cur visited frm len = some x →
      x = rangeImg next cur visited frm len := by
  intro f
  induction f with
  | zero =>
    intro _ _ _ _ x _ h
    exact absurd h (by simp [go_bfs])
  | succ g ih =>
    intro cur visited frm len x hlen h
    unfold go_bfs at h
    by_cases h1 : len = 1
    · rw [if_pos h1] at h
      subst h1
      rw [rangeImg_one]
      exact (Option.some_inj.mp h).symm
    · rw [if_neg h1] at h
      cases hgl : go_bfs next g cur visited frm (len / 2) with
      | none =>
        rw [hgl] at h
        exact absurd h (by simp)
      | some left =>
        cases hgr : go_bfs next g cur visited (frm + len / 2) (len - len / 2) with
        | none =>
          rw [hgl, hgr] at h
          exact absurd h (by simp)
        | some right =>
          rw [hgl, hgr] at h
          have h' : some (tbdd_or left right (vectordom B)) = some x := h
          have hL := ih cur visited frm (len / 2) left (by omega) hgl
          have hR := ih cur visited (frm + len / 2) (len - len / 2) right (by omega) hgr
          have hsplit : rangeImg next cur visited frm len =
              rangeImg next cur visited frm (len / 2) ∪
                rangeImg next cur visited (frm + len / 2) (len - len / 2) := by
            conv_lhs => rw [show len = len / 2 + (len - len / 2) by omega]
            exact rangeImg_split next cur visited frm (len / 2) (len - len / 2)
          rw [← Option.some_inj.mp h', hL, hR, hsplit]
          rfl

theorem imgFull_subset_of_rangeImg_empty {next : List (Rel B)} {F V : TBDD B}
    (hfront : rangeImg next F V 0 next.length = ∅) {r' : Rel B} (hr' : r' ∈ next) :
    imgFull r' F ⊆ V := by
  intro x hx
  by_contra hxv
  have hr'' : r' ∈ next.drop 0 := by
    rw [List.drop_zero]
    exact hr'
  obtain ⟨t, ht, rfl⟩ := exists_index_of_mem_drop hr''
  have : x ∈ rangeImg next F V 0 next.length := by
    rw [mem_rangeImg]
    exact ⟨t, by omega, hx, hxv⟩
  rw [hfront] at this
  exact absurd this (Finset.not_mem_empty x)

theorem rangeImg_subset_reach {next : List (Rel B)} {F V S : TBDD B}
    (hF : F ⊆ reach next S) :
    rangeImg next F V 0 next.length ⊆ reach next S := by
  intro x hx
  rw [mem_rangeImg] at hx
  obtain ⟨t, ht, hx, _⟩ := hx
  have hmem : nextD next (0 + t) ∈ next := by
    have := @mem_drop_of_index B next 0 t (by omega)
    rw [List.drop_zero] at this
    exact this
  exact reach_closed hmem (imgFull_mono hF hx)

theorem bfsLoop_some {next : List (Rel B)} (S : TBDD B) :
    ∀ (f : Nat) (V F r : TBDD B), S ⊆ V → V ⊆ reach next S → F ⊆ V →
      (∀ r' ∈ next, imgFull r' V ⊆ V ∪ imgFull r' F) →
      bfsLoop next f V F = some r → r = reach next S := by
  intro f
  induction f with
  | zero =>
    intro V F r _ _ _ _ h
    exact absurd h (by simp [bfsLoop])
  | succ g ih =>
    intro V F r hSV hVr hFV himg h
    unfold bfsLoop at h
    cases hg : go_bfs next g F V 0 next.length with
    | none =>
      rw [hg] at h
      exact absurd h (by simp)
    | some front2 =>
      rw [hg] at h
      rcases Nat.eq_zero_or_pos next.length with hlen | hlen
      · rw [hlen, go_bfs_len_zero_none] at hg
        exact absurd hg (by simp)
      have hfront : front2 = rangeImg next F V 0 next.length :=
        go_bfs_some_eq g F V 0 next.length front2 hlen hg
      have h' : (if front2 = tbdd_false then some (tbdd_or V front2 (vectordom B))
          else bfsLoop next g (tbdd_or V front2 (vectordom B)) front2) = some r := h
      by_cases hf : front2 = tbdd_false
      · rw [if_pos hf] at h'
        have hr : r = V ∪ front2 := (Option.some_inj.mp h').symm
        have hVreach : V = reach next S := by
          apply subset_antisymm hVr
          apply reach_least hSV
          intro r' hr'
          intro x hx
          rcases Finset.mem_union.mp (himg r' hr' hx) with hxv | hxf
          · exact hxv
          · apply imgFull_subset_of_rangeImg_empty ?_ hr' hxf
            rw [← hfront]
            exact hf
        rw [hr, hf]
        unfold tbdd_false
        rw [Finset.union_empty]
        exact hVreach
      · rw [if_neg hf] at h'
        have himgF : ∀ r' ∈ next, imgFull r' F ⊆ V ∪ front2 := by
          intro r' hr' x hx
          rw [Finset.mem_union]
          by_cases hxv : x ∈ V
          · exact Or.inl hxv
          · right
            rw [hfront, mem_rangeImg]
            have hr'' : r' ∈ next.drop 0 := by
              rw [List.drop_zero]
              exact hr'
            obtain ⟨t, ht, rfl⟩ := exists_index_of_mem_drop hr''
            exact ⟨t, by omega, hx, hxv⟩
        apply ih (tbdd_or V front2 (vectordom B)) front2 r
        · exact hSV.trans Finset.subset_union_left
        · show V ∪ front2 ⊆ reach next S
          apply Finset.union_subset hVr
          rw [hfront]
          exact rangeImg_subset_reach (hFV.trans hVr)
        · exact Finset.subset_union_right
        · intro r' hr'
          show imgFull r' (V ∪ front2) ⊆ (V ∪ front2) ∪ imgFull r' front2
          rw [imgFull_union]
          apply Finset.union_subset
          · intro x hx
            rcases Finset.mem_union.mp (himg r' hr' hx) with hxv | hxf
            · exact Finset.mem_union_left _ (Finset.mem_union_left _ hxv)
            · exact Finset.mem_union_left _ (himgF r' hr' hxf)
          · exact Finset.subset_union_right
        · exact h'

/-- BFS value determination: any successful BFS run returns the reachable
set of the initial states. -/
theorem bfs_some {next : List (Rel B)} {fuel : Nat} {s s' : SetT B}
    (h : bfs next fuel s = some s') : s'.bdd = reach next s.bdd ∧ s'.vars = s.vars := by
  unfold bfs at h
  rw [Option.map_eq_some'] at h
  obtain ⟨v, hv, he⟩ := h
  have := bfsLoop_some s.bdd fuel s.bdd s.bdd v subset_rfl (subset_reach next s.bdd)
    subset_rfl (fun r' _ => le_sup_right.trans_eq rfl) hv
  constructor
  · rw [← he, this]
  · rw [← he]

theorem parLoop_eq_bfsLoop {next : List (Rel B)} :
    ∀ (f : Nat) (V F : TBDD B), parLoop next f V F = bfsLoop next f V F := by
  intro f
  induction f with
  | zero => intro V F; rfl
  | succ g ih =>
    intro V F
    unfold parLoop bfsLoop
    rw [go_par_eq_go_bfs]
    cases go_bfs next g F V 0 next.length with
    | none => rfl
    | some front2 =>
      show (if front2 = tbdd_false then some (tbdd_or V front2 (vectordom B))
          else parLoop next g (tbdd_or V front2 (vectordom B)) front2) =
        (if front2 = tbdd_false then some (tbdd_or V front2 (vectordom B))
          else bfsLoop next g (tbdd_or V front2 (vectordom B)) front2)
      by_cases hf : front2 = tbdd_false
      · rw [if_pos hf, if_pos hf]
      · rw [if_neg hf, if_neg hf, ih]

/-- PAR value determination: any successful PAR run returns the reachable
set of the initial states. -/
theorem par_some {next : List (Rel B)} {fuel : Nat} {s s' : SetT B}
    (h : par next fuel s = some s') : s'.bdd = reach next s.bdd ∧ s'.vars = s.vars := by
  apply bfs_some
  unfold bfs
  unfold par at h
  rw [parLoop_eq_bfsLoop] at h
  exact h

theorem chainFold_grow :
    ∀ (l : List (Rel B)) (X : TBDD B),
      X ⊆ l.foldl (fun acc r =>
        tbdd_or acc (tbdd_relnext acc r.bdd r.vars (vectordom B)) (vectordom B)) X := by
  intro l
  induction l with
  | nil => intro X; exact subset_rfl
  | cons a t ih =>
    intro X
    rw [List.foldl_cons]
    exact Finset.subset_union_left.trans (ih _)

theorem subset_chainBody {next : List (Rel B)} (X : TBDD B) : X ⊆ chainBody next X :=
  chainFold_grow next X

theorem imgFull_subset_chainFold :
    ∀ (l : List (Rel B)) (X : TBDD B) {r : Rel B}, r ∈ l →
      imgFull r X ⊆ l.foldl (fun acc r =>
        tbdd_or acc (tbdd_relnext acc r.bdd r.vars (vectordom B)) (vectordom B)) X := by
  intro l
  induction l with
  | nil =>
    intro X r hr
    exact absurd hr (List.not_mem_nil r)
  | cons a t ih =>
    intro X r hr
    rw [List.foldl_cons]
    rcases List.mem_cons.mp hr with rfl | hr'
    · exact Finset.subset_union_right.trans (chainFold_grow t _)
    · exact (imgFull_mono Finset.subset_union_left).trans (ih _ hr')

theorem imgFull_subset_chainBody {next : List (Rel B)} {r : Rel B} (hr : r ∈ next)
    (X : TBDD B) : imgFull r X ⊆ chainBody next X :=
  imgFull_subset_chainFold next X hr

theorem chainFold_subset_reach {next : List (Rel B)} {S : TBDD B} :
    ∀ (l : List (Rel B)) (X : TBDD B), (∀ r ∈ l, r ∈ next) → X ⊆ reach next S →
      l.foldl (fun acc r =>
        tbdd_or acc (tbdd_relnext acc r.bdd r.vars (vectordom B)) (vectordom B)) X ⊆
        reach next S := by
  intro l
  induction l with
  | nil =>
    intro X _ hX
    exact hX
  | cons a t ih =>
    intro X hmem hX
    rw [List.foldl_cons]
    apply ih _ (fun r hr => hmem r (List.mem_cons_of_mem a hr))
    apply Finset.union_subset hX
    show imgFull a X ⊆ reach next S
    exact (imgFull_mono hX).trans (reach_closed (hmem a (List.mem_cons_self a t)))

theorem chainBody_subset_reach {next : List (Rel B)} {S X : TBDD B}
    (hX : X ⊆ reach next S) : chainBody next X ⊆ reach next S :=
  chainFold_subset_reach next X (fun _ hr => hr) hX

theorem chainingLoop_some {next : List (Rel B)} (S : TBDD B) :
    ∀ (f : Nat) (V N r : TBDD B), S ⊆ V → V ⊆ reach next S → N ⊆ V →
      (∀ r' ∈ next, imgFull r' V ⊆ V ∪ chainBody next N) →
      chainingLoop next f V N = some r → r = reach next S := by
  intro f
  induction f with
  | zero =>
    intro V N r _ _ _ _ h
    exact absurd h (by simp [chainingLoop])
  | succ g ih =>
    intro V N r hSV hVr hNV himg h
    have h' : (if chainBody next N \ V = ∅ then some (V ∪ (chainBody next N \ V))
        else chainingLoop next g (V ∪ (chainBody next N \ V)) (chainBody next N \ V)) =
        some r := h
    by_cases hf : chainBody next N \ V = ∅
    · rw [if_pos hf] at h'
      have hr : r = V ∪ (chainBody next N \ V) := (Option.some_inj.mp h').symm
      have hMV : chainBody next N ⊆ V := by
        rw [← Finset.sdiff_eq_empty_iff_subset]
        exact hf
      have hVreach : V = reach next S := by
        apply subset_antisymm hVr
        apply reach_least hSV
        intro r' hr' x hx
        rcases Finset.mem_union.mp (himg r' hr' hx) with hxv | hxm
        · exact hxv
        · exact hMV hxm
      rw [hr, hf, Finset.union_empty]
      exact hVreach
    · rw [if_neg hf] at h'
      have hVM : V ∪ (chainBody next N \ V) = V ∪ chainBody next N :=
        Finset.union_sdiff_self_eq_union
      apply ih (V ∪ (chainBody next N \ V)) (chainBody next N \ V) r
      · exact hSV.trans Finset.subset_union_left
      · rw [hVM]
        exact Finset.union_subset hVr (chainBody_subset_reach (hNV.trans hVr))
      · exact Finset.subset_union_right
      · intro r' hr'
        rw [imgFull_union]
        apply Finset.union_subset
        · intro x hx
          apply Finset.mem_union_left
          rcases Finset.mem_union.mp (himg r' hr' hx) with hxv | hxm
          · exact Finset.mem_union_left _ hxv
          · rw [hVM]
            exact Finset.mem_union_right _ hxm
        · intro x hx
          exact Finset.mem_union_right _ (imgFull_subset_chainBody hr' _ hx)
      · exact h'

/-- Chaining value determination: any successful Chaining run returns the
reachable set of the initial states. -/
theorem chaining_some {next : List (Rel B)} {fuel : Nat} {s s' : SetT B}
    (h : chaining next fuel s = some s') :
    s'.bdd = reach next s.bdd ∧ s'.vars = s.vars := by
  unfold chaining at h
  rw [Option.map_eq_some'] at h
  obtain ⟨v, hv, he⟩ := h
  have := chainingLoop_some s.bdd fuel s.bdd s.bdd v subset_rfl (subset_reach next s.bdd)
    subset_rfl (fun r' hr' x hx =>
      Finset.mem_union_right _ (imgFull_subset_chainBody hr' s.bdd hx)) hv
  constructor
  · rw [← he, this]
  · rw [← he]

theorem nextD_mem {next : List (Rel B)} {i : Nat} (h : i < next.length) :
    nextD next i ∈ next := by
  rw [nextD_eq_getElem h]
  exact List.getElem_mem h

theorem relKey_even_lt {r : Rel B} (hwf : RelWF r) :
    relKey r % 2 = 0 ∧ relKey r < 2 * B := by
  obtain ⟨hne, heven, hsorted, hbound, _, _⟩ := hwf
  refine ⟨heven, ?_⟩
  cases hv : r.vars with
  | nil => exact absurd hv hne
  | cons a t =>
    have : a ∈ r.vars := by
      rw [hv]
      exact List.mem_cons_self a t
    have := hbound a this
    unfold relKey tbdd_getvar
    rw [hv]
    exact this

theorem not_mem_vars_of_lt_key {r : Rel B} (hwf : RelWF r) {v : Nat}
    (hv : v < relKey r) : v ∉ r.vars := by
  intro hc
  have := head_le_of_mem hwf.2.2.1 hc
  unfold relKey at hv
  omega

theorem key_ge_of_mem_drop {next : List (Rel B)}
    (hsort : List.Pairwise (fun a b => relKey a ≤ relKey b) next)
    {idx : Nat} (hidx : idx < next.length) {r : Rel B} (hr : r ∈ next.drop idx) :
    relKey (nextD next idx) ≤ relKey r := by
  have hdrop : List.Pairwise (fun a b => relKey a ≤ relKey b) (next.drop idx) :=
    hsort.sublist (List.drop_sublist idx next)
  rw [drop_cons_nextD hidx] at hdrop hr
  rw [List.pairwise_cons] at hdrop
  rcases List.mem_cons.mp hr with rfl | hr'
  · exact le_refl _
  · exact hdrop.1 r hr'

theorem imgSat_eq_imgFull {r : Rel B} (hwf : RelWF r) {X : TBDD B}
    (hX : ∀ k : Fin B, (k : Nat) < topBit r → Insens X (2 * (k : Nat))) :
    imgSat r X = imgFull r X := by
  unfold imgSat imgFull
  apply relnext_dom_congr
  intro k hk
  rcases Nat.lt_or_ge (k : Nat) (topBit r) with hlt | hge
  · refine Or.inr ⟨hX k hlt, ?_⟩
    apply not_mem_vars_of_lt_key hwf
    unfold topBit at hlt
    unfold relKey
    omega
  · left
    rw [hwf.2.2.2.2.2.1 k hk]
    have : 2 * (k : Nat) ∈ vectordom B := mem_vectordom.mpr ⟨k, k.isLt, rfl⟩
    constructor
    · intro _
      exact this
    · intro _
      exact hge

theorem go_sat_succ (next : List (Rel B)) (f : Nat) (set : TBDD B) (idx : Nat) :
    go_sat next (f + 1) set idx =
      if set = tbdd_false then some tbdd_false
      else if idx = next.length then some set
      else
        if pivotVar (tagOf set) (varOf set) (tbdd_getvar (nextD next idx).vars) =
            tbdd_getvar (nextD next idx).vars then
          satLoop next f set idx (countSame next idx (tbdd_getvar (nextD next idx).vars))
        else if pivotVar (tagOf set) (varOf set) (tbdd_getvar (nextD next idx).vars) <
            varOf set then
          (go_sat next f (tbdd_settag set
            (pivotVar (tagOf set) (varOf set) (tbdd_getvar (nextD next idx).vars) + 2))
            idx).map
            (fun r => tbdd_makenode
              (pivotVar (tagOf set) (varOf set) (tbdd_getvar (nextD next idx).vars)) r
              tbdd_false
              (pivotVar (tagOf set) (varOf set) (tbdd_getvar (nextD next idx).vars) + 2))
        else
          (go_sat next f (tbddnode_high set) idx).bind (fun high =>
            (go_sat next f (tbddnode_low set) idx).bind (fun low =>
              some (tbdd_makenode
                (pivotVar (tagOf set) (varOf set) (tbdd_getvar (nextD next idx).vars))
                low high
                (pivotVar (tagOf set) (varOf set)
                  (tbdd_getvar (nextD next idx).vars) + 2)))) := rfl

theorem satLoop_succ (next : List (Rel B)) (f : Nat) (set : TBDD B) (idx n : Nat) :
    satLoop next (f + 1) set idx n =
      (go_sat next f set (idx + n)).bind (fun s1 =>
        if chainApplyN next idx n s1 = set then some set
        else satLoop next f (chainApplyN next idx n s1) idx n) := rfl

theorem go_sat_satLoop_some {next : List (Rel B)} (hB : B ≤ 524288)
    (hwf : ∀ r ∈ next, RelWF r)
    (hsort : List.Pairwise (fun a b => relKey a ≤ relKey b) next) :
    ∀ f : Nat,
      (∀ (S : TBDD B) (idx : Nat) (r : TBDD B), idx ≤ next.length →
        go_sat next f S idx = some r → r = reach (next.drop idx) S) ∧
      (∀ (S : TBDD B) (idx : Nat) (r : TBDD B), idx < next.length →
        (∀ k : Fin B, 2 * (k : Nat) < tbdd_getvar (nextD next idx).vars →
          Insens S (2 * (k : Nat))) →
        satLoop next f S idx (countSame next idx (tbdd_getvar (nextD next idx).vars)) =
          some r →
        r = reach (next.drop idx) S) := by
  intro f
  induction f with
  | zero =>
    constructor
    · intro S idx r _ h
      exact absurd h (by simp [go_sat])
    · intro S idx r _ _ h
      exact absurd h (by simp [satLoop])
  | succ f ih =>
    obtain ⟨ihP, ihQ⟩ := ih
    constructor
    · -- go_sat at fuel f+1
      intro S idx r hle h
      rw [go_sat_succ] at h
      by_cases hS : S = tbdd_false
      · rw [if_pos hS] at h
        rw [← Option.some_inj.mp h, hS]
        unfold tbdd_false
        rw [reach_empty]
      rw [if_neg hS] at h
      by_cases hidx : idx = next.length
      · rw [if_pos hidx] at h
        rw [← Option.some_inj.mp h, hidx, List.drop_length, reach_nil]
      rw [if_neg hidx] at h
      have hidx2 : idx < next.length := by omega
      have hg0 := hwf (nextD next idx) (nextD_mem hidx2)
      have hkey := relKey_even_lt hg0
      have hkey1 : tbdd_getvar (nextD next idx).vars % 2 = 0 := hkey.1
      have hkey2 : tbdd_getvar (nextD next idx).vars < 2 * B := hkey.2
      have htagle := tagOf_le_varOf hB S
      by_cases hpr : pivotVar (tagOf S) (varOf S) (tbdd_getvar (nextD next idx).vars) =
          tbdd_getvar (nextD next idx).vars
      · rw [if_pos hpr] at h
        apply ihQ S idx r hidx2 ?_ h
        intro k hk
        apply insens_of_lt_tagOf (by omega)
        have htv : ¬ (tagOf S < tbdd_getvar (nextD next idx).vars) := by
          intro hc
          unfold pivotVar at hpr
          rw [if_pos hc] at hpr
          omega
        omega
      rw [if_neg hpr] at h
      by_cases hpv : pivotVar (tagOf S) (varOf S) (tbdd_getvar (nextD next idx).vars) <
          varOf S
      · -- skip case: pivot is the tag
        rw [if_pos hpv] at h
        have hcase : tagOf S < tbdd_getvar (nextD next idx).vars ∧
            pivotVar (tagOf S) (varOf S) (tbdd_getvar (nextD next idx).vars) = tagOf S := by
          unfold pivotVar at hpr hpv ⊢
          split_ifs at hpr hpv ⊢ <;> omega
        rw [hcase.2] at h
        have htlt : tagOf S < varOf S := by
          rw [← hcase.2]
          exact hpv
        have hfound : tagOf S ≠ 1048575 := by omega
        obtain ⟨⟨kt, hkt, htag2k⟩, _⟩ := tagOf_spec_found S hfound
        rw [Option.map_eq_some'] at h
        obtain ⟨r', hr', he⟩ := h
        have hrec := ihP _ idx r' (by omega) hr'
        set k0 : Fin B := ⟨tagOf S / 2, by omega⟩ with hk0
        have h2k0 : 2 * (k0 : Nat) = tagOf S := by
          rw [hk0]
          show 2 * (tagOf S / 2) = tagOf S
          omega
        have hvars : ∀ r'' ∈ next.drop idx, 2 * (k0 : Nat) + 1 ∉ r''.vars := by
          intro r'' hr''
          apply not_mem_vars_of_lt_key (hwf r'' (List.drop_subset idx next hr''))
          have := key_ge_of_mem_drop hsort hidx2 hr''
          unfold relKey at this ⊢
          omega
        have hcomm := @reach_filter B (next.drop idx) (tbdd_settag S (tagOf S + 2)) k0
          false hvars
        rw [h2k0] at hcomm
        have hS' : (tbdd_settag S (tagOf S + 2)).filter
            (fun α => evalV α (tagOf S) = false) = S := by
          rw [← makenode_false_high]
          exact settag_decomp hfound htlt
        rw [← he, makenode_false_high, hrec, ← hcomm, hS']
      · -- cofactor case: pivot is the branch variable
        rw [if_neg hpv] at h
        have hcase : varOf S < tbdd_getvar (nextD next idx).vars ∧
            pivotVar (tagOf S) (varOf S) (tbdd_getvar (nextD next idx).vars) = varOf S := by
          unfold pivotVar at hpr hpv ⊢
          split_ifs at hpr hpv ⊢ <;> omega
        rw [hcase.2] at h
        have hfound : varOf S ≠ 1048575 := by omega
        obtain ⟨⟨kv, hkv, hvv2k⟩, _, _⟩ := varOf_spec_found S hfound
        cases hH : go_sat next f (tbddnode_high S) idx with
        | none =>
          rw [hH] at h
          exact absurd h (by simp)
        | some high =>
        cases hL : go_sat next f (tbddnode_low S) idx with
        | none =>
          rw [hH, hL] at h
          exact absurd h (by simp)
        | some low =>
        rw [hH, hL] at h
        have h' : some (tbdd_makenode (varOf S) low high (varOf S + 2)) = some r := h
        have hrecL := ihP _ idx low (by omega) hL
        have hrecH := ihP _ idx high (by omega) hH
        set k0 : Fin B := ⟨varOf S / 2, by omega⟩ with hk0
        have h2k0 : 2 * (k0 : Nat) = varOf S := by
          rw [hk0]
          show 2 * (varOf S / 2) = varOf S
          omega
        have hvars : ∀ r'' ∈ next.drop idx, 2 * (k0 : Nat) + 1 ∉ r''.vars := by
          intro r'' hr''
          apply not_mem_vars_of_lt_key (hwf r'' (List.drop_subset idx next hr''))
          have := key_ge_of_mem_drop hsort hidx2 hr''
          unfold relKey at this ⊢
          omega
        have hcommL := @reach_filter B (next.drop idx) (tbddnode_low S) k0 false hvars
        have hcommH := @reach_filter B (next.drop idx) (tbddnode_high S) k0 true hvars
        rw [h2k0] at hcommL hcommH
        have hshannon : (tbddnode_low S).filter (fun α => evalV α (varOf S) = false) ∪
            (tbddnode_high S).filter (fun α => evalV α (varOf S) = true) = S := by
          rw [← makenode_eq_filters]
          exact shannon_at_varOf S (varOf S + 2)
        rw [← Option.some_inj.mp h', makenode_eq_filters, hrecL, hrecH,
          ← hcommL, ← hcommH, ← reach_union, hshannon]
    · -- satLoop at fuel f+1
      intro S idx r hidx hins h
      rw [satLoop_succ] at h
      cases hs1 : go_sat next f S
          (idx + countSame next idx (tbdd_getvar (nextD next idx).vars)) with
      | none =>
        rw [hs1] at h
        exact absurd h (by simp)
      | some s1 =>
      rw [hs1] at h
      have hg0 := hwf (nextD next idx) (nextD_mem hidx)
      have hkey := relKey_even_lt hg0
      have hkey1 : tbdd_getvar (nextD next idx).vars % 2 = 0 := hkey.1
      have hkey2 : tbdd_getvar (nextD next idx).vars < 2 * B := hkey.2
      have hlen : idx + countSame next idx (tbdd_getvar (nextD next idx).vars) ≤
          next.length := countSame_le hidx
      have hs1v : s1 = reach
          (next.drop (idx + countSame next idx (tbdd_getvar (nextD next idx).vars))) S :=
        ihP S _ s1 hlen hs1
      have hSs1 : S ⊆ s1 := by
        rw [hs1v]
        exact subset_reach _ S
      have hvars_drop : ∀ r'' ∈ next.drop idx, ∀ v,
          v < tbdd_getvar (nextD next idx).vars → v ∉ r''.vars := by
        intro r'' hr'' v hv
        apply not_mem_vars_of_lt_key (hwf r'' (List.drop_subset idx next hr''))
        have := key_ge_of_mem_drop hsort hidx hr''
        unfold relKey at this ⊢
        omega
      have hdropdown : ∀ r'' ∈ next.drop
          (idx + countSame next idx (tbdd_getvar (nextD next idx).vars)),
          r'' ∈ next.drop idx := by
        intro r'' hr''
        rw [show idx + countSame next idx (tbdd_getvar (nextD next idx).vars) =
          idx + countSame next idx (tbdd_getvar (nextD next idx).vars) from rfl,
          ← List.drop_drop] at hr''
        exact List.drop_subset _ _ hr''
      have hins_T : ∀ k : Fin B, 2 * (k : Nat) < tbdd_getvar (nextD next idx).vars →
          Insens (reach (next.drop idx) S) (2 * (k : Nat)) := by
        intro k hk
        apply reach_insens ?_ (hins k hk)
        intro r'' hr''
        exact ⟨hvars_drop r'' hr'' _ (by omega), hvars_drop r'' hr'' _ (by omega)⟩
      have hkeys : ∀ i < countSame next idx (tbdd_getvar (nextD next idx).vars),
          tbdd_getvar (nextD next (idx + i)).vars =
            tbdd_getvar (nextD next idx).vars := by
        intro i hi
        exact countSame_key rfl hi
      have himgsat_T : ∀ i < countSame next idx (tbdd_getvar (nextD next idx).vars),
          imgSat (nextD next (idx + i)) (reach (next.drop idx) S) ⊆
            reach (next.drop idx) S := by
        intro i hi
        have hii : idx + i < next.length := by omega
        rw [imgSat_eq_imgFull (hwf _ (nextD_mem hii)) ?_]
        · exact reach_closed (mem_drop_of_index hii)
        · intro k hk
          apply hins_T k
          unfold topBit at hk
          rw [hkeys i hi] at hk
          omega
      by_cases hfix : chainApplyN next idx
          (countSame next idx (tbdd_getvar (nextD next idx).vars)) s1 = S
      · have h' : some S = some r := by
          rw [← h]
          show _ = (if chainApplyN next idx
            (countSame next idx (tbdd_getvar (nextD next idx).vars)) s1 = S then some S
            else _)
          rw [if_pos hfix]
        have hs1S : s1 = S := by
          apply subset_antisymm ?_ hSs1
          conv_rhs => rw [← hfix]
          exact subset_chainApplyN next idx _ s1
        have hfixdeep : reach
            (next.drop (idx + countSame next idx (tbdd_getvar (nextD next idx).vars))) S
            = S := by
          rw [← hs1v, hs1S]
        have hfixS : chainApplyN next idx
            (countSame next idx (tbdd_getvar (nextD next idx).vars)) S = S := by
          rw [hs1S] at hfix
          exact hfix
        have hclosed : ∀ r'' ∈ next.drop idx, imgFull r'' S ⊆ S := by
          intro r'' hr''
          obtain ⟨j, hj, rfl⟩ := exists_index_of_mem_drop hr''
          rcases Nat.lt_or_ge j (countSame next idx (tbdd_getvar (nextD next idx).vars))
            with hjn | hjn
          · have hstab := chainApplyN_stable next idx _ S hfixS j hjn
            rw [← imgSat_eq_imgFull (hwf _ (nextD_mem hj)) ?_]
            · exact hstab
            · intro k hk
              apply hins k
              unfold topBit at hk
              rw [hkeys j hjn] at hk
              omega
          · have hjeq : nextD next (idx + j) = nextD next
                ((idx + countSame next idx (tbdd_getvar (nextD next idx).vars)) +
                  (j - countSame next idx (tbdd_getvar (nextD next idx).vars))) := by
              congr 1
              omega
            rw [hjeq]
            have hmem := @mem_drop_of_index B next
              (idx + countSame next idx (tbdd_getvar (nextD next idx).vars))
              (j - countSame next idx (tbdd_getvar (nextD next idx).vars))
              (by omega)
            intro x hx
            rw [← hfixdeep]
            apply reach_closed hmem
            rw [hfixdeep]
            exact hx
        rw [← Option.some_inj.mp h']
        exact subset_antisymm (subset_reach _ S) (reach_least subset_rfl hclosed)
      · have h' : satLoop next f (chainApplyN next idx
            (countSame next idx (tbdd_getvar (nextD next idx).vars)) s1) idx
            (countSame next idx (tbdd_getvar (nextD next idx).vars)) = some r := by
          rw [← h]
          show _ = (if chainApplyN next idx
            (countSame next idx (tbdd_getvar (nextD next idx).vars)) s1 = S then some S
            else _)
          rw [if_neg hfix]
        have hins2 : ∀ k : Fin B, 2 * (k : Nat) < tbdd_getvar (nextD next idx).vars →
            Insens (chainApplyN next idx
              (countSame next idx (tbdd_getvar (nextD next idx).vars)) s1)
              (2 * (k : Nat)) := by
          intro k hk
          apply chainApplyN_insens next idx _ s1 ?_ ?_
          · intro i hi k' hk'
            have hii : idx + i < next.length := by omega
            have hk'eq : (k' : Nat) = (k : Nat) := by omega
            constructor
            · apply hvars_drop _ (mem_drop_of_index hii)
              omega
            · intro hc
              have hwfi := hwf _ (nextD_mem hii)
              have hnw : 2 * (k' : Nat) + 1 ∉ (nextD next (idx + i)).vars := by
                apply hvars_drop _ (mem_drop_of_index hii)
                omega
              have := (hwfi.2.2.2.2.2.1 k' hnw).mp hc
              unfold topBit at this
              rw [hkeys i hi] at this
              omega
          · rw [hs1v]
            apply reach_insens ?_ (hins k hk)
            intro r'' hr''
            have hr''2 := hdropdown r'' hr''
            exact ⟨hvars_drop r'' hr''2 _ (by omega), hvars_drop r'' hr''2 _ (by omega)⟩
        have hres := ihQ (chainApplyN next idx
          (countSame next idx (tbdd_getvar (nextD next idx).vars)) s1) idx r hidx hins2 h'
        rw [hres]
        apply reach_squeeze
        · exact hSs1.trans (subset_chainApplyN next idx _ s1)
        · apply chainApplyN_bound next idx _ s1 (reach (next.drop idx) S) ?_ himgsat_T
          rw [hs1v]
          exact reach_mono_rels hdropdown S

theorem sat_some {next : List (Rel B)} {fuel : Nat} {s s' : SetT B}
    (hB : B ≤ 524288) (hwf : ∀ r ∈ next, RelWF r)
    (hsort : List.Pairwise (fun a b => relKey a ≤ relKey b) next)
    (h : sat next fuel s = some s') :
    s'.bdd = reach next s.bdd ∧ s'.vars = s.vars := by
  unfold sat at h
  rw [Option.map_eq_some'] at h
  obtain ⟨v, hv, he⟩ := h
  have hrw := (go_sat_satLoop_some hB hwf hsort fuel).1 s.bdd 0 v (Nat.zero_le _) hv
  rw [List.drop_zero] at hrw
  constructor
  · rw [← he, hrw]
  · rw [← he]

theorem gnomeAux_succ {α : Type _} (key : α → Nat) (f : Nat) (l : List α) (i j : Nat) :
    gnomeAux key (f + 1) l i j =
      (if i < l.length then
        match l.get? (i - 1), l.get? i with
        | some q, some p =>
          if key q > key p then
            if i - 1 ≠ 0 then gnomeAux key f ((l.set (i - 1) p).set i q) (i - 1) j
            else gnomeAux key f ((l.set (i - 1) p).set i q) j (j + 1)
          else gnomeAux key f l j (j + 1)
        | _, _ => none
      else some l) := rfl

theorem gnome_swap_eq {α : Type _} (P : List α) (q x : α) (S : List α) :
    ((P ++ q :: x :: S).set P.length x).set (P.length + 1) q = P ++ x :: q :: S := by
  induction P with
  | nil => rfl
  | cons a t ih =>
    rw [List.cons_append, List.length_cons, List.set_cons_succ, List.set_cons_succ,
      List.cons_append]
    rw [ih]

theorem exists_two_split {α : Type _} {l : List α} {i : Nat} (h1 : 1 ≤ i)
    (h2 : i < l.length) :
    ∃ P q x S, l = P ++ q :: x :: S ∧ P.length + 1 = i := by
  have hi1 : i - 1 + 1 = i := by omega
  have e1 : l.take (i + 1) = l.take i ++ [l.get ⟨i, h2⟩] := by
    rw [List.take_succ, List.getElem?_eq_getElem h2]
    simp [List.get_eq_getElem]
  have e2 : l.take i = l.take (i - 1) ++ [l.get ⟨i - 1, by omega⟩] := by
    conv_lhs => rw [← hi1]
    rw [List.take_succ, List.getElem?_eq_getElem (by omega : i - 1 < l.length)]
    simp [List.get_eq_getElem]
  refine ⟨l.take (i - 1), l.get ⟨i - 1, by omega⟩, l.get ⟨i, h2⟩, l.drop (i + 1), ?_, ?_⟩
  · conv_lhs => rw [← List.take_append_drop (i + 1) l, e1, e2]
    simp [List.append_assoc]
    have hdi : l[i - 1] :: List.drop i l = List.drop (i - 1) l := by
      conv_lhs => rw [show l.drop i = l.drop (i - 1 + 1) by rw [hi1]]
      exact List.getElem_cons_drop l (i - 1) (by omega)
    conv_lhs => rw [hi1]
    rw [List.take_append_drop, hdi, List.take_append_drop]
  · rw [List.length_take]
    omega

theorem gnome_jump {α : Type _} (key : α → Nat) {l : List α} {j : Nat} (h1 : 1 ≤ j)
    (hs : List.Pairwise (fun a b => key a ≤ key b) (l.take j)) :
    (l.length ≤ j ∧ List.Pairwise (fun a b => key a ≤ key b) l) ∨
      (∃ P q x S m, l = P ++ q :: x :: S ∧ P.length + 1 = j ∧ j + 1 = j + 1 + m ∧
        List.Pairwise (fun a b => key a ≤ key b) (P ++ q :: S.take m) ∧
        ∀ y ∈ S.take m, key x < key y) := by
  rcases le_or_lt l.length j with hlen | hlen
  · left
    refine ⟨hlen, ?_⟩
    rwa [List.take_of_length_le hlen] at hs
  · right
    obtain ⟨P, q, x, S, hl, hP⟩ := exists_two_split h1 hlen
    refine ⟨P, q, x, S, 0, hl, hP, by omega, ?_, by simp⟩
    have htk : l.take j = P ++ [q] := by
      rw [hl, List.take_append_eq_append_take, List.take_of_length_le (by omega),
        show j - P.length = 1 by omega]
      simp
    rw [htk] at hs
    simpa using hs

theorem gnomeAux_sorted_inv {α : Type _} (key : α → Nat) :
    ∀ (f : Nat) (l : List α) (i j : Nat) (r : List α),
      gnomeAux key f l i j = some r →
      ((l.length ≤ i ∧ List.Pairwise (fun a b => key a ≤ key b) l) ∨
        (∃ P q x S m, l = P ++ q :: x :: S ∧ P.length + 1 = i ∧ j = i + 1 + m ∧
          List.Pairwise (fun a b => key a ≤ key b) (P ++ q :: S.take m) ∧
          ∀ y ∈ S.take m, key x < key y)) →
      List.Pairwise (fun a b => key a ≤ key b) r := by
  intro f
  induction f with
  | zero =>
    intro l i j r h _
    exact absurd h (by simp [gnomeAux])
  | succ f ih =>
    intro l i j r h hinv
    rw [gnomeAux_succ] at h
    by_cases hi : i < l.length
    · rw [if_pos hi] at h
      rcases hinv with ⟨hle, _⟩ | ⟨P, q, x, S, m, rfl, hPlen, hj, hpair, hbub⟩
      · omega
      have hq : (P ++ q :: x :: S).get? (i - 1) = some q := by
        rw [List.get?_eq_getElem?, show i - 1 = P.length by omega,
          List.getElem?_append_right (le_refl _)]
        simp
      have hx : (P ++ q :: x :: S).get? i = some x := by
        rw [List.get?_eq_getElem?, show i = P.length + 1 by omega,
          List.getElem?_append_right (by omega)]
        simp
      rw [hq, hx] at h
      have hswap : (((P ++ q :: x :: S).set (i - 1) x).set i q) = P ++ x :: q :: S := by
        rw [show i - 1 = P.length by omega, show i = P.length + 1 by omega]
        exact gnome_swap_eq P q x S
      have h2 : (if key q > key x then
          (if i - 1 ≠ 0 then
            gnomeAux key f (((P ++ q :: x :: S).set (i - 1) x).set i q) (i - 1) j
          else gnomeAux key f (((P ++ q :: x :: S).set (i - 1) x).set i q) j (j + 1))
        else gnomeAux key f (P ++ q :: x :: S) j (j + 1)) = some r := h
      by_cases hgt : key q > key x
      · rw [if_pos hgt, hswap] at h2
        by_cases h0 : i - 1 ≠ 0
        · rw [if_pos h0] at h2
          apply ih _ _ _ _ h2
          right
          rcases List.eq_nil_or_concat P with rfl | ⟨P2, q2, rfl⟩
          · simp at hPlen
            omega
          rw [List.concat_eq_append]
          refine ⟨P2, q2, x, q :: S, m + 1, by simp [List.append_assoc], ?_, by omega,
            ?_, ?_⟩
          · rw [List.concat_eq_append] at hPlen
            simp at hPlen ⊢
            omega
          · rw [List.take_succ_cons]
            rw [List.concat_eq_append, List.append_assoc] at hpair
            simpa using hpair
          · intro y hy
            rw [List.take_succ_cons] at hy
            rcases List.mem_cons.mp hy with rfl | hy'
            · omega
            · exact hbub y hy'
        · rw [if_neg h0] at h2
          have hP0 : P = [] := by
            apply List.length_eq_zero.mp
            omega
          subst hP0
          apply ih _ _ _ _ h2
          apply gnome_jump key (by omega)
          have htk : (([] : List α) ++ x :: q :: S).take j = x :: q :: S.take m := by
            rw [List.nil_append, show j = m + 2 by omega, List.take_succ_cons,
              List.take_succ_cons]
          rw [htk]
          rw [List.nil_append] at hpair
          rw [List.pairwise_cons]
          refine ⟨?_, hpair⟩
          intro y hy
          rcases List.mem_cons.mp hy with rfl | hy'
          · omega
          · have := hbub y hy'
            omega
      · rw [if_neg hgt] at h2
        apply ih _ _ _ _ h2
        apply gnome_jump key (by omega)
        have htk : (P ++ q :: x :: S).take j = P ++ q :: x :: S.take m := by
          rw [List.take_append_eq_append_take, List.take_of_length_le (by omega),
            show j - P.length = m + 2 by omega, List.take_succ_cons, List.take_succ_cons]
        rw [htk]
        rw [List.pairwise_append] at hpair
        obtain ⟨hp1, hp2, hp3⟩ := hpair
        rw [List.pairwise_cons] at hp2
        obtain ⟨hqle, hp2'⟩ := hp2
        rw [List.pairwise_append]
        refine ⟨hp1, ?_, ?_⟩
        · rw [List.pairwise_cons]
          constructor
          · intro y hy
            rcases List.mem_cons.mp hy with rfl | hy'
            · omega
            · exact hqle y hy'
          · rw [List.pairwise_cons]
            constructor
            · intro y hy
              have := hbub y hy
              omega
            · exact hp2'
        · intro a ha b hb
          rcases List.mem_cons.mp hb with rfl | hb'
          · exact hp3 a ha b (List.mem_cons_self _ _)
          · rcases List.mem_cons.mp hb' with rfl | hb''
            · have := hp3 a ha q (List.mem_cons_self _ _)
              omega
            · exact hp3 a ha b (List.mem_cons.mpr (Or.inr hb''))
    · rw [if_neg hi] at h
      rcases hinv with ⟨_, hp⟩ | ⟨P, q, x, S, m, rfl, hPlen, _, _, _⟩
      · rw [← Option.some_inj.mp h]
        exact hp
      · exfalso
        apply hi
        rw [List.length_append, List.length_cons, List.length_cons]
        omega

theorem gnomeAux_perm {α : Type _} (key : α → Nat) :
    ∀ (f : Nat) (l : List α) (i j : Nat) (r : List α), 1 ≤ i → 1 ≤ j →
      gnomeAux key f l i j = some r → r.Perm l := by
  intro f
  induction f with
  | zero =>
    intro l i j r _ _ h
    exact absurd h (by simp [gnomeAux])
  | succ f ih =>
    intro l i j r hi1 hj1 h
    rw [gnomeAux_succ] at h
    by_cases hi : i < l.length
    · rw [if_pos hi] at h
      obtain ⟨P, q, x, S, rfl, hPlen⟩ := exists_two_split hi1 hi
      have hq : (P ++ q :: x :: S).get? (i - 1) = some q := by
        rw [List.get?_eq_getElem?, show i - 1 = P.length by omega,
          List.getElem?_append_right (le_refl _)]
        simp
      have hx : (P ++ q :: x :: S).get? i = some x := by
        rw [List.get?_eq_getElem?, show i = P.length + 1 by omega,
          List.getElem?_append_right (by omega)]
        simp
      rw [hq, hx] at h
      have hswap : (((P ++ q :: x :: S).set (i - 1) x).set i q) = P ++ x :: q :: S := by
        rw [show i - 1 = P.length by omega, show i = P.length + 1 by omega]
        exact gnome_swap_eq P q x S
      have h2 : (if key q > key x then
          (if i - 1 ≠ 0 then
            gnomeAux key f (((P ++ q :: x :: S).set (i - 1) x).set i q) (i - 1) j
          else gnomeAux key f (((P ++ q :: x :: S).set (i - 1) x).set i q) j (j + 1))
        else gnomeAux key f (P ++ q :: x :: S) j (j + 1)) = some r := h
      have hsw : (P ++ x :: q :: S).Perm (P ++ q :: x :: S) :=
        List.Perm.append_left P (List.Perm.swap q x S)
      by_cases hgt : key q > key x
      · rw [if_pos hgt, hswap] at h2
        by_cases h0 : i - 1 ≠ 0
        · rw [if_pos h0] at h2
          exact (ih _ _ _ _ (by omega) hj1 h2).trans hsw
        · rw [if_neg h0] at h2
          exact (ih _ _ _ _ hj1 (by omega) h2).trans hsw
      · rw [if_neg hgt] at h2
        exact ih _ _ _ _ hj1 (by omega) h2
    · rw [if_neg hi] at h
      rw [← Option.some_inj.mp h]

theorem filter_swap_two {α : Type _} (pb : α → Bool) (x q : α) (S : List α)
    (h : ¬(pb x = true ∧ pb q = true)) :
    (x :: q :: S).filter pb = (q :: x :: S).filter pb := by
  rw [List.filter_cons, List.filter_cons, List.filter_cons, List.filter_cons]
  by_cases h1 : pb x = true <;> by_cases h2 : pb q = true <;> simp_all

theorem gnomeAux_filter {α : Type _} (key : α → Nat) (k : Nat) :
    ∀ (f : Nat) (l : List α) (i j : Nat) (r : List α), 1 ≤ i → 1 ≤ j →
      gnomeAux key f l i j = some r →
      r.filter (fun a => decide (key a = k)) = l.filter (fun a => decide (key a = k)) := by
  intro f
  induction f with
  | zero =>
    intro l i j r _ _ h
    exact absurd h (by simp [gnomeAux])
  | succ f ih =>
    intro l i j r hi1 hj1 h
    rw [gnomeAux_succ] at h
    by_cases hi : i < l.length
    · rw [if_pos hi] at h
      obtain ⟨P, q, x, S, rfl, hPlen⟩ := exists_two_split hi1 hi
      have hq : (P ++ q :: x :: S).get? (i - 1) = some q := by
        rw [List.get?_eq_getElem?, show i - 1 = P.length by omega,
          List.getElem?_append_right (le_refl _)]
        simp
      have hx : (P ++ q :: x :: S).get? i = some x := by
        rw [List.get?_eq_getElem?, show i = P.length + 1 by omega,
          List.getElem?_append_right (by omega)]
        simp
      rw [hq, hx] at h
      have hswap : (((P ++ q :: x :: S).set (i - 1) x).set i q) = P ++ x :: q :: S := by
        rw [show i - 1 = P.length by omega, show i = P.length + 1 by omega]
        exact gnome_swap_eq P q x S
      have h2 : (if key q > key x then
          (if i - 1 ≠ 0 then
            gnomeAux key f (((P ++ q :: x :: S).set (i - 1) x).set i q) (i - 1) j
          else gnomeAux key f (((P ++ q :: x :: S).set (i - 1) x).set i q) j (j + 1))
        else gnomeAux key f (P ++ q :: x :: S) j (j + 1)) = some r := h
      by_cases hgt : key q > key x
      · have hsw : (P ++ x :: q :: S).filter (fun a => decide (key a = k)) =
            (P ++ q :: x :: S).filter (fun a => decide (key a = k)) := by
          rw [List.filter_append, List.filter_append]
          congr 1
          apply filter_swap_two
          intro hc
          obtain ⟨hcx, hcq⟩ := hc
          simp at hcx hcq
          omega
        rw [if_pos hgt, hswap] at h2
        by_cases h0 : i - 1 ≠ 0
        · rw [if_pos h0] at h2
          rw [ih _ _ _ _ (by omega) hj1 h2, hsw]
        · rw [if_neg h0] at h2
          rw [ih _ _ _ _ hj1 (by omega) h2, hsw]
      · rw [if_neg hgt] at h2
        exact ih _ _ _ _ hj1 (by omega) h2
    · rw [if_neg hi] at h
      rw [← Option.some_inj.mp h]

theorem sortRels_props {fuel : Nat} {next nexts : List (Rel B)}
    (h : sortRels fuel next = some nexts) :
    nexts.Perm next ∧
    List.Pairwise (fun a b => relKey a ≤ relKey b) nexts ∧
    ∀ k, nexts.filter (fun r => decide (relKey r = k)) =
      next.filter (fun r => decide (relKey r = k)) := by
  unfold sortRels gnomeSort at h
  refine ⟨gnomeAux_perm relKey fuel next 1 2 nexts (by omega) (by omega) h, ?_,
    fun k => gnomeAux_filter relKey k fuel next 1 2 nexts (by omega) (by omega) h⟩
  apply gnomeAux_sorted_inv relKey fuel next 1 2 nexts h
  match next with
  | [] => exact Or.inl (by simp)
  | [a] => exact Or.inl (by simp)
  | a :: b :: t =>
    right
    exact ⟨[], a, b, t, 0, rfl, rfl, rfl, by simp, by simp⟩

/-- C7: the preprocessing sort that precedes the SAT and Chaining strategies
(src/examples/tbddmc.c lines 754-768) leaves the group array stably
reordered ascending by each group's top variable: the result is a
permutation of the input with non-decreasing top variables, and the groups
sharing any fixed top variable keep their original relative order. -/
theorem sort_is_stable_ascending {fuel : Nat} {next nexts : List (Rel B)}
    (h : sortRels fuel next = some nexts) :
    nexts.Perm next ∧
    List.Pairwise (fun a b => relKey a ≤ relKey b) nexts ∧
    ∀ k, nexts.filter (fun r => decide (relKey r = k)) =
      next.filter (fun r => decide (relKey r = k)) :=
  sortRels_props h

theorem sort_is_stable_ascending_witness :
    ((sortRels 10 [wRelB, wRel]).get (by decide)).Perm [wRelB, wRel] ∧
    List.Pairwise (fun a b => relKey a ≤ relKey b)
      ((sortRels 10 [wRelB, wRel]).get (by decide)) ∧
    ∀ k, ((sortRels 10 [wRelB, wRel]).get (by decide)).filter
        (fun r => decide (relKey r = k)) =
      [wRelB, wRel].filter (fun r => decide (relKey r = k)) :=
  sort_is_stable_ascending (Option.some_get _).symm

theorem mainRun_reach {next : List (Rel B)} {s : SetT B} {st fuel : Nat} {s' : SetT B}
    (hwf : ModelWF next) (hst : st ≤ 3)
    (h : mainRun st false fuel next s = some s') :
    s'.bdd = reach next s.bdd ∧ s'.vars = s.vars := by
  interval_cases st
  · exact bfs_some h
  · exact par_some h
  · have h2 : Option.bind (sortRels fuel next) (fun next1 => sat next1 fuel s) =
        some s' := h
    rw [Option.bind_eq_some] at h2
    obtain ⟨n1, hn1, hsat⟩ := h2
    obtain ⟨hperm, hsorted, _⟩ := sortRels_props hn1
    have hwf1 : ∀ r ∈ n1, RelWF r := fun r hr => hwf.2 r (hperm.mem_iff.mp hr)
    obtain ⟨hb, hv⟩ := sat_some hwf.1 hwf1 hsorted hsat
    refine ⟨?_, hv⟩
    rw [hb, reach_perm hperm]
  · have h2 : Option.bind (sortRels fuel next) (fun next1 => chaining next1 fuel s) =
        some s' := h
    rw [Option.bind_eq_some] at h2
    obtain ⟨n1, hn1, hch⟩ := h2
    obtain ⟨hperm, _, _⟩ := sortRels_props hn1
    obtain ⟨hb, hv⟩ := chaining_some hch
    refine ⟨?_, hv⟩
    rw [hb, reach_perm hperm]

/-- C1: for every well-formed model, any two successful runs among the four
strategies (BFS, PAR, SAT, Chaining) on the same initial set return sets
with the same characteristic function over the same declared domain, and
hence identical satisfying-assignment counts over that domain. -/
theorem strategies_equivalent {next : List (Rel B)} {s : SetT B}
    {st1 st2 f1 f2 : Nat} {s1 s2 : SetT B}
    (hwf : ModelWF next) (h1 : st1 ≤ 3) (h2 : st2 ≤ 3)
    (e1 : mainRun st1 false f1 next s = some s1)
    (e2 : mainRun st2 false f2 next s = some s2) :
    s1.bdd = s2.bdd ∧ s1.vars = s2.vars ∧
      tbdd_satcount s1.bdd s1.vars = tbdd_satcount s2.bdd s2.vars := by
  obtain ⟨hb1, hv1⟩ := mainRun_reach hwf h1 e1
  obtain ⟨hb2, hv2⟩ := mainRun_reach hwf h2 e2
  have hb : s1.bdd = s2.bdd := by
    rw [hb1, hb2]
  have hv : s1.vars = s2.vars := by
    rw [hv1, hv2]
  exact ⟨hb, hv, by rw [hb, hv]⟩

theorem strategies_equivalent_witness :
    ((mainRun 0 false 10 [wRel] wSet).get (by decide)).bdd =
      ((mainRun 2 false 10 [wRel] wSet).get (by decide)).bdd ∧
    ((mainRun 0 false 10 [wRel] wSet).get (by decide)).vars =
      ((mainRun 2 false 10 [wRel] wSet).get (by decide)).vars ∧
    tbdd_satcount ((mainRun 0 false 10 [wRel] wSet).get (by decide)).bdd
        ((mainRun 0 false 10 [wRel] wSet).get (by decide)).vars =
      tbdd_satcount ((mainRun 2 false 10 [wRel] wSet).get (by decide)).bdd
        ((mainRun 2 false 10 [wRel] wSet).get (by decide)).vars :=
  strategies_equivalent (by decide) (by decide) (by decide)
    (Option.some_get _).symm (Option.some_get _).symm

theorem readInts_exact :
    ∀ (xs t : List Int), readInts xs.length (xs ++ t) = some (xs, t) := by
  intro xs
  induction xs with
  | nil =>
    intro t
    rfl
  | cons x xs ih =>
    intro t
    simp [readInts, readInt, ih t]

/-- C6 counterexample: loading a set whose projection declares the
out-of-range component index `5` on a one-component vector succeeds with an
empty variable list — the loader's matching loop silently skips the entry
(src/examples/tbddmc.c lines 191-198) — so an out-of-range component index
does not abort the load. -/
theorem load_out_of_range_succeeds :
    set_load [1] 1 [1, 5, 7] = some (([], 7), []) ∧
      ¬ (0 ≤ (5 : Int) ∧ (5 : Int) < 1) := by
  constructor
  · decide
  · decide

/-- C6 (amended): the loaders check no range or consistency condition on
projection entries: both `set_load` and `rel_load_proj` succeed on a
sufficiently long stream for arbitrary (even out-of-range) projection
entries, and they abort exactly on short reads, as on the empty stream. -/
theorem load_aborts_only_on_short_reads (statebits : List Nat) (totalbits : Nat)
    (proj rp wp : List Int) (d : Int) (rest : List Int) :
    set_load statebits totalbits ((proj.length : Int) :: (proj ++ d :: rest)) =
      some ((setVarsAux statebits 0 proj 0, d), rest) ∧
    rel_load_proj statebits totalbits
        ((rp.length : Int) :: (wp.length : Int) :: (rp ++ (wp ++ rest))) =
      some ((rp, wp, relVarsAux statebits 0 (mergeProj rp wp) 0,
        satdomOf totalbits (relVarsAux statebits 0 (mergeProj rp wp) 0)), rest) ∧
    set_load statebits totalbits [] = none ∧
    rel_load_proj statebits totalbits [] = none := by
  have h1 : ((proj.length : Int)) ≠ -1 := by omega
  have h2 : ¬ ((proj.length : Int) < 0) := by omega
  have h3 : ((proj.length : Int)).toNat = proj.length := by omega
  have h4 : ¬ ((rp.length : Int) < 0) := by omega
  have h5 : ((rp.length : Int)).toNat = rp.length := by omega
  have h6 : ¬ ((wp.length : Int) < 0) := by omega
  have h7 : ((wp.length : Int)).toNat = wp.length := by omega
  refine ⟨?_, ?_, ?_, ?_⟩
  · simp [set_load, readInt, tbdd_reader_frombinary, h1, h2, h3, readInts_exact]
  · simp [rel_load_proj, readInt, h4, h5, h6, h7, readInts_exact]
  · simp [set_load, readInt]
  · simp [rel_load_proj, readInt]

theorem maskBelow_setV_lt {t u : Nat} (hu : u < t) (hue : u % 2 = 0) (b : Bool)
    (α : As B) : maskBelow t (setV u b α) = maskBelow t α := by
  funext w
  unfold maskBelow setV
  by_cases hw : (w : Nat) < t ∧ (w : Nat) % 2 = 0
  · rw [if_pos hw, if_pos hw]
  · rw [if_neg hw, if_neg hw]
    by_cases hwu : (w : Nat) = u
    · exact absurd ⟨by omega, by omega⟩ hw
    · rw [if_neg hwu]

theorem maskBelow_setV_comm {t u : Nat} (hnm : ¬ (u < t ∧ u % 2 = 0)) (b : Bool)
    (α : As B) : maskBelow t (setV u b α) = setV u b (maskBelow t α) := by
  funext w
  simp only [maskBelow, setV]
  by_cases hwu : (w : Nat) = u
  · rw [hwu, if_neg hnm, if_pos rfl, if_pos rfl]
  · rw [if_neg hwu, if_neg hwu]

theorem insens_settag_low {S : TBDD B} {t u : Nat} (hu : u < t) (hue : u % 2 = 0) :
    Insens (tbdd_settag S t) u := by
  intro α
  rw [mem_settag, mem_settag, maskBelow_setV_lt hu hue, maskBelow_setV_lt hu hue]

theorem insens_settag_keep {S : TBDD B} {t u : Nat} (hnm : ¬ (u < t ∧ u % 2 = 0))
    (hu : Insens S u) : Insens (tbdd_settag S t) u := by
  intro α
  rw [mem_settag, mem_settag, maskBelow_setV_comm hnm, maskBelow_setV_comm hnm]
  exact hu (maskBelow t α)

theorem setV_comm {u v : Nat} (h : u ≠ v) (b c : Bool) (α : As B) :
    setV u b (setV v c α) = setV v c (setV u b α) := by
  funext w
  unfold setV
  by_cases h1 : (w : Nat) = u
  · rw [if_pos h1, if_neg (by omega : ¬ ((w : Nat) = v)), if_pos h1]
  · rw [if_neg h1]
    by_cases h2 : (w : Nat) = v
    · rw [if_pos h2, if_pos h2]
    · rw [if_neg h2, if_neg h2, if_neg h1]

theorem setV_overwrite (v : Nat) (b c : Bool) (α : As B) :
    setV v b (setV v c α) = setV v b α := by
  funext w
  unfold setV
  by_cases h1 : (w : Nat) = v
  · rw [if_pos h1, if_pos h1]
  · rw [if_neg h1, if_neg h1, if_neg h1]

theorem insens_low_self (S : TBDD B) : Insens (tbddnode_low S) (varOf S) := by
  intro α
  unfold tbddnode_low
  simp only [Finset.mem_filter, Finset.mem_univ, true_and]
  rw [setV_overwrite, setV_overwrite]

theorem insens_high_self (S : TBDD B) : Insens (tbddnode_high S) (varOf S) := by
  intro α
  unfold tbddnode_high
  simp only [Finset.mem_filter, Finset.mem_univ, true_and]
  rw [setV_overwrite, setV_overwrite]

theorem insens_low_keep {S : TBDD B} {u : Nat} (hne : u ≠ varOf S)
    (hu : Insens S u) : Insens (tbddnode_low S) u := by
  intro α
  unfold tbddnode_low
  simp only [Finset.mem_filter, Finset.mem_univ, true_and]
  rw [setV_comm (by omega : varOf S ≠ u), setV_comm (by omega : varOf S ≠ u)]
  exact hu (setV (varOf S) false α)

theorem insens_high_keep {S : TBDD B} {u : Nat} (hne : u ≠ varOf S)
    (hu : Insens S u) : Insens (tbddnode_high S) u := by
  intro α
  unfold tbddnode_high
  simp only [Finset.mem_filter, Finset.mem_univ, true_and]
  rw [setV_comm (by omega : varOf S ≠ u), setV_comm (by omega : varOf S ≠ u)]
  exact hu (setV (varOf S) true α)

theorem sensCount_lt {T S : TBDD B} (k0 : Fin B) (hk0 : ¬ Insens S (2 * (k0 : Nat)))
    (hT0 : Insens T (2 * (k0 : Nat)))
    (hmono : ∀ k : Fin B, Insens S (2 * (k : Nat)) → Insens T (2 * (k : Nat))) :
    sensCount T < sensCount S := by
  unfold sensCount
  apply Finset.card_lt_card
  have hsub : Finset.univ.filter (fun k : Fin B => ¬ Insens T (2 * (k : Nat))) ⊆
      Finset.univ.filter (fun k : Fin B => ¬ Insens S (2 * (k : Nat))) := by
    intro k hk
    rw [Finset.mem_filter] at hk ⊢
    exact ⟨hk.1, fun hI => hk.2 (hmono k hI)⟩
  rw [Finset.ssubset_iff_of_subset hsub]
  refine ⟨k0, Finset.mem_filter.mpr ⟨Finset.mem_univ _, hk0⟩, fun hc => ?_⟩
  exact (Finset.mem_filter.mp hc).2 hT0

theorem bfsLoop_total {next : List (Rel B)} (hne : next ≠ []) :
    ∀ (c : Nat) (V F : TBDD B) (fuel : Nat),
      Fintype.card (As B) - V.card < c → next.length + c ≤ fuel →
      (bfsLoop next fuel V F).isSome := by
  intro c
  induction c with
  | zero =>
    intro V F fuel h1 _
    omega
  | succ c ih =>
    intro V F fuel h1 h2
    cases fuel with
    | zero => omega
    | succ f =>
    have hlen : 1 ≤ next.length := by
      cases next with
      | nil => exact absurd rfl hne
      | cons a t => simp
    have hg := go_bfs_formula next next.length f F V 0 hlen (by omega)
    have hstep : bfsLoop next (f + 1) V F =
        Option.bind (go_bfs next f F V 0 next.length) (fun front2 =>
          if front2 = tbdd_false then some (tbdd_or V front2 (vectordom B))
          else bfsLoop next f (tbdd_or V front2 (vectordom B)) front2) := rfl
    rw [hstep, hg, Option.some_bind]
    by_cases hz : rangeImg next F V 0 next.length = tbdd_false
    · rw [if_pos hz]
      rfl
    · rw [if_neg hz]
      apply ih _ _ f ?_ (by omega)
      have hdisj : ∀ x ∈ rangeImg next F V 0 next.length, x ∉ V := by
        intro x hx
        obtain ⟨t, _, _, hnv⟩ := mem_rangeImg.mp hx
        exact hnv
      have hVsub : V ⊂ tbdd_or V (rangeImg next F V 0 next.length) (vectordom B) := by
        unfold tbdd_or
        rw [Finset.ssubset_iff_of_subset Finset.subset_union_left]
        obtain ⟨x, hx⟩ := Finset.nonempty_iff_ne_empty.mpr hz
        exact ⟨x, Finset.mem_union_right _ hx, hdisj x hx⟩
      have hcard := Finset.card_lt_card hVsub
      have hbound := Finset.card_le_univ
        (tbdd_or V (rangeImg next F V 0 next.length) (vectordom B))
      omega

theorem chainingLoop_total {next : List (Rel B)} :
    ∀ (c : Nat) (V N : TBDD B) (fuel : Nat),
      Fintype.card (As B) - V.card < c → c ≤ fuel →
      (chainingLoop next fuel V N).isSome := by
  intro c
  induction c with
  | zero =>
    intro V N fuel h1 _
    omega
  | succ c ih =>
    intro V N fuel h1 h2
    cases fuel with
    | zero => omega
    | succ f =>
    have hstep : chainingLoop next (f + 1) V N =
        (if tbdd_diff (chainBody next N) V (vectordom B) = tbdd_false then
          some (tbdd_or V (tbdd_diff (chainBody next N) V (vectordom B)) (vectordom B))
        else chainingLoop next f
          (tbdd_or V (tbdd_diff (chainBody next N) V (vectordom B)) (vectordom B))
          (tbdd_diff (chainBody next N) V (vectordom B))) := rfl
    rw [hstep]
    by_cases hz : tbdd_diff (chainBody next N) V (vectordom B) = tbdd_false
    · rw [if_pos hz]
      rfl
    · rw [if_neg hz]
      apply ih _ _ f ?_ (by omega)
      have hdisj : ∀ x ∈ tbdd_diff (chainBody next N) V (vectordom B), x ∉ V := by
        intro x hx
        unfold tbdd_diff at hx
        exact (Finset.mem_sdiff.mp hx).2
      have hVsub : V ⊂ tbdd_or V (tbdd_diff (chainBody next N) V (vectordom B))
          (vectordom B) := by
        unfold tbdd_or
        rw [Finset.ssubset_iff_of_subset Finset.subset_union_left]
        obtain ⟨x, hx⟩ := Finset.nonempty_iff_ne_empty.mpr hz
        exact ⟨x, Finset.mem_union_right _ hx, hdisj x hx⟩
      have hcard := Finset.card_lt_card hVsub
      have hbound := Finset.card_le_univ
        (tbdd_or V (tbdd_diff (chainBody next N) V (vectordom B)) (vectordom B))
      omega

theorem gnomeAux_total {α : Type _} (key : α → Nat) :
    ∀ (n : Nat) (l : List α) (i j : Nat), 1 ≤ i → i < j → j ≤ l.length + 2 →
      (j ≤ l.length + 1 ∨ l.length ≤ i) →
      (l.length + 2 - j) * (l.length + 2) + i < n →
      (gnomeAux key n l i j).isSome := by
  intro n
  induction n with
  | zero =>
    intro l i j _ _ _ _ hm
    omega
  | succ f ih =>
    intro l i j hi1 hij hj2 hdisj hm
    rw [gnomeAux_succ]
    by_cases hi : i < l.length
    · rw [if_pos hi]
      have hjlt : j ≤ l.length + 1 := by
        rcases hdisj with hdj | hdj
        · exact hdj
        · omega
      obtain ⟨P, q, x, S, rfl, hPlen⟩ := exists_two_split hi1 hi
      have hq : (P ++ q :: x :: S).get? (i - 1) = some q := by
        rw [List.get?_eq_getElem?, show i - 1 = P.length by omega,
          List.getElem?_append_right (le_refl _)]
        simp
      have hx : (P ++ q :: x :: S).get? i = some x := by
        rw [List.get?_eq_getElem?, show i = P.length + 1 by omega,
          List.getElem?_append_right (by omega)]
        simp
      rw [hq, hx]
      have hswap : (((P ++ q :: x :: S).set (i - 1) x).set i q) = P ++ x :: q :: S := by
        rw [show i - 1 = P.length by omega, show i = P.length + 1 by omega]
        exact gnome_swap_eq P q x S
      show (if key q > key x then
          (if i - 1 ≠ 0 then
            gnomeAux key f (((P ++ q :: x :: S).set (i - 1) x).set i q) (i - 1) j
          else gnomeAux key f (((P ++ q :: x :: S).set (i - 1) x).set i q) j (j + 1))
        else gnomeAux key f (P ++ q :: x :: S) j (j + 1)).isSome
      rw [hswap]
      have hlen2 : (P ++ x :: q :: S).length = (P ++ q :: x :: S).length := by simp
      have hstepm : ((P ++ q :: x :: S).length + 2 - j) * ((P ++ q :: x :: S).length + 2)
          = ((P ++ q :: x :: S).length + 2 - (j + 1)) * ((P ++ q :: x :: S).length + 2)
            + ((P ++ q :: x :: S).length + 2) := by
        rw [show (P ++ q :: x :: S).length + 2 - j =
          ((P ++ q :: x :: S).length + 2 - (j + 1)) + 1 by omega, Nat.succ_mul]
      by_cases hgt : key q > key x
      · rw [if_pos hgt]
        by_cases h0 : i - 1 ≠ 0
        · rw [if_pos h0]
          apply ih _ (i - 1) j (by omega) (by omega) (by omega) ?_ ?_
          · rw [hlen2]
            left
            exact hjlt
          · rw [hlen2]
            omega
        · rw [if_neg h0]
          apply ih _ j (j + 1) (by omega) (by omega) (by omega) ?_ ?_
          · rw [hlen2]
            omega
          · rw [hlen2]
            omega
      · rw [if_neg hgt]
        apply ih _ j (j + 1) (by omega) (by omega) (by omega) (by omega) (by omega)
    · rw [if_neg hi]
      rfl

theorem sortRels_total {next : List (Rel B)} {fuel : Nat}
    (h : next.length * (next.length + 2) + 2 ≤ fuel) : (sortRels fuel next).isSome := by
  unfold sortRels gnomeSort
  apply gnomeAux_total relKey fuel next 1 2 (by omega) (by omega) (by omega)
    (by omega) ?_
  rw [show next.length + 2 - 2 = next.length by omega]
  omega

theorem satLoop_total_of {next : List (Rel B)} (hB : B ≤ 524288)
    (hwf : ∀ r ∈ next, RelWF r)
    (hsort : List.Pairwise (fun a b => relKey a ≤ relKey b) next) (g : Nat)
    (hP : ∀ (set : TBDD B) (idx fuel : Nat), idx ≤ next.length →
      next.length - idx ≤ g →
      g * (B + Fintype.card (As B) + 4) + 1 ≤ fuel →
      (go_sat next fuel set idx).isSome) :
    ∀ (c : Nat) (set : TBDD B) (idx n fuel : Nat),
      idx + n ≤ next.length → next.length - (idx + n) ≤ g →
      Fintype.card (As B) - set.card < c →
      g * (B + Fintype.card (As B) + 4) + 1 + c ≤ fuel →
      (satLoop next fuel set idx n).isSome := by
  intro c
  induction c with
  | zero =>
    intro set idx n fuel _ _ h3 _
    omega
  | succ c ih =>
    intro set idx n fuel h1 h2 h3 h4
    cases fuel with
    | zero => omega
    | succ f =>
    have hgo := hP set (idx + n) f h1 h2 (by omega)
    obtain ⟨s1, hs1⟩ := Option.isSome_iff_exists.mp hgo
    have hs1v := (go_sat_satLoop_some hB hwf hsort f).1 set (idx + n) s1 h1 hs1
    have hsub : set ⊆ chainApplyN next idx n s1 := by
      refine subset_trans ?_ (subset_chainApplyN next idx n s1)
      rw [hs1v]
      exact subset_reach _ _
    rw [satLoop_succ, hs1, Option.some_bind]
    by_cases hfix : chainApplyN next idx n s1 = set
    · rw [if_pos hfix]
      rfl
    · rw [if_neg hfix]
      apply ih (chainApplyN next idx n s1) idx n f h1 h2 ?_ (by omega)
      have hne : ¬ chainApplyN next idx n s1 ⊆ set := by
        intro hc
        exact hfix (subset_antisymm hc hsub)
      have hcard := Finset.card_lt_card (Finset.ssubset_def.mpr ⟨hsub, hne⟩)
      have hbound := Finset.card_le_univ (chainApplyN next idx n s1)
      omega

theorem go_sat_total {next : List (Rel B)} (hB : B ≤ 524288)
    (hwf : ∀ r ∈ next, RelWF r)
    (hsort : List.Pairwise (fun a b => relKey a ≤ relKey b) next) :
    ∀ (g : Nat) (set : TBDD B) (idx fuel : Nat), idx ≤ next.length →
      next.length - idx ≤ g →
      g * (B + Fintype.card (As B) + 4) + 1 ≤ fuel →
      (go_sat next fuel set idx).isSome := by
  intro g
  induction g with
  | zero =>
    intro set idx fuel h1 h2 h3
    have hidx : idx = next.length := by omega
    subst hidx
    cases fuel with
    | zero => omega
    | succ f =>
    rw [go_sat_succ]
    by_cases hS : set = tbdd_false
    · rw [if_pos hS]
      rfl
    · rw [if_neg hS, if_pos rfl]
      rfl
  | succ g ihg =>
    have inner : ∀ (m : Nat) (set : TBDD B) (idx fuel : Nat), idx ≤ next.length →
        next.length - idx ≤ g + 1 → sensCount set ≤ m →
        g * (B + Fintype.card (As B) + 4) + 1 +
          (Fintype.card (As B) + 3 + m) ≤ fuel →
        (go_sat next fuel set idx).isSome := by
      intro m
      induction m using Nat.strong_induction_on with
      | _ m ihm =>
      intro set idx fuel h1 h2 hsens h4
      cases fuel with
      | zero => omega
      | succ f =>
      rw [go_sat_succ]
      by_cases hS : set = tbdd_false
      · rw [if_pos hS]
        rfl
      rw [if_neg hS]
      by_cases hidx : idx = next.length
      · rw [if_pos hidx]
        rfl
      rw [if_neg hidx]
      have hidx2 : idx < next.length := by omega
      have hg0 := hwf (nextD next idx) (nextD_mem hidx2)
      have hkey := relKey_even_lt hg0
      have hkey1 : tbdd_getvar (nextD next idx).vars % 2 = 0 := hkey.1
      have hkey2 : tbdd_getvar (nextD next idx).vars < 2 * B := hkey.2
      have htagle := tagOf_le_varOf hB set
      by_cases hpr : pivotVar (tagOf set) (varOf set) (tbdd_getvar (nextD next idx).vars)
          = tbdd_getvar (nextD next idx).vars
      · rw [if_pos hpr]
        have hn1 : 1 ≤ countSame next idx (tbdd_getvar (nextD next idx).vars) := by
          unfold countSame
          omega
        have hcle := @countSame_le B next idx (tbdd_getvar (nextD next idx).vars) hidx2
        exact satLoop_total_of hB hwf hsort g ihg
          (Fintype.card (As B) - set.card + 1) set idx
          (countSame next idx (tbdd_getvar (nextD next idx).vars)) f hcle (by omega)
          (by omega) (by omega)
      · rw [if_neg hpr]
        by_cases hpv : pivotVar (tagOf set) (varOf set)
            (tbdd_getvar (nextD next idx).vars) < varOf set
        · rw [if_pos hpv]
          have hcase : tagOf set < tbdd_getvar (nextD next idx).vars ∧
              pivotVar (tagOf set) (varOf set) (tbdd_getvar (nextD next idx).vars)
                = tagOf set := by
            unfold pivotVar at hpr hpv ⊢
            split_ifs at hpr hpv ⊢ <;> omega
          rw [hcase.2]
          have hfound : tagOf set ≠ 1048575 := by omega
          obtain ⟨⟨kt, hkt, htag2k⟩, hnI⟩ := tagOf_spec_found set hfound
          set k0 : Fin B := ⟨tagOf set / 2, by omega⟩ with hk0def
          have h2k0 : 2 * (k0 : Nat) = tagOf set := by
            rw [hk0def]
            show 2 * (tagOf set / 2) = tagOf set
            omega
          have hdrop : sensCount (tbdd_settag set (tagOf set + 2)) < sensCount set := by
            apply sensCount_lt k0 ?_ ?_ ?_
            · rw [h2k0]
              exact hnI
            · rw [h2k0]
              exact insens_settag_low (by omega) (by omega)
            · intro k hI
              by_cases hlt : 2 * (k : Nat) < tagOf set + 2
              · exact insens_settag_low hlt (by omega)
              · exact insens_settag_keep (by omega) hI
          have hm1 : 1 ≤ m := by
            have hpos : 0 < sensCount set := by
              unfold sensCount
              apply Finset.card_pos.mpr
              refine ⟨k0, Finset.mem_filter.mpr ⟨Finset.mem_univ _, ?_⟩⟩
              rw [h2k0]
              exact hnI
            omega
          have hrec := ihm (m - 1) (by omega) (tbdd_settag set (tagOf set + 2)) idx f
            h1 h2 (by omega) (by omega)
          obtain ⟨r', hr'⟩ := Option.isSome_iff_exists.mp hrec
          rw [hr']
          rfl
        · rw [if_neg hpv]
          have hcase : varOf set < tbdd_getvar (nextD next idx).vars ∧
              pivotVar (tagOf set) (varOf set) (tbdd_getvar (nextD next idx).vars)
                = varOf set := by
            unfold pivotVar at hpr hpv ⊢
            split_ifs at hpr hpv ⊢ <;> omega
          rw [hcase.2]
          have hveq : varOf set = tagOf set := by
            unfold pivotVar at hpr hpv
            split_ifs at hpr hpv <;> omega
          have hfound : tagOf set ≠ 1048575 := by omega
          obtain ⟨⟨kt, hkt, htag2k⟩, hnI⟩ := tagOf_spec_found set hfound
          set k0 : Fin B := ⟨tagOf set / 2, by omega⟩ with hk0def
          have h2k0 : 2 * (k0 : Nat) = tagOf set := by
            rw [hk0def]
            show 2 * (tagOf set / 2) = tagOf set
            omega
          have hdropL : sensCount (tbddnode_low set) < sensCount set := by
            apply sensCount_lt k0 ?_ ?_ ?_
            · rw [h2k0]
              exact hnI
            · rw [h2k0, ← hveq]
              exact insens_low_self set
            · intro k hI
              by_cases hne : 2 * (k : Nat) = varOf set
              · rw [hne]
                exact insens_low_self set
              · exact insens_low_keep hne hI
          have hdropH : sensCount (tbddnode_high set) < sensCount set := by
            apply sensCount_lt k0 ?_ ?_ ?_
            · rw [h2k0]
              exact hnI
            · rw [h2k0, ← hveq]
              exact insens_high_self set
            · intro k hI
              by_cases hne : 2 * (k : Nat) = varOf set
              · rw [hne]
                exact insens_high_self set
              · exact insens_high_keep hne hI
          have hm1 : 1 ≤ m := by
            have hpos : 0 < sensCount set := by
              unfold sensCount
              apply Finset.card_pos.mpr
              refine ⟨k0, Finset.mem_filter.mpr ⟨Finset.mem_univ _, ?_⟩⟩
              rw [h2k0]
              exact hnI
            omega
          have hrecH := ihm (m - 1) (by omega) (tbddnode_high set) idx f h1 h2
            (by omega) (by omega)
          obtain ⟨rh, hrh⟩ := Option.isSome_iff_exists.mp hrecH
          have hrecL := ihm (m - 1) (by omega) (tbddnode_low set) idx f h1 h2
            (by omega) (by omega)
          obtain ⟨rl, hrl⟩ := Option.isSome_iff_exists.mp hrecL
          rw [hrh, Option.some_bind, hrl, Option.some_bind]
          rfl
    intro set idx fuel h1 h2 h3
    apply inner (sensCount set) set idx fuel h1 h2 (le_refl _) ?_
    have hsB : sensCount set ≤ B := by
      unfold sensCount
      have hle := Finset.card_filter_le Finset.univ
        (fun k : Fin B => ¬ Insens set (2 * (k : Nat)))
      rw [Finset.card_univ, Fintype.card_fin] at hle
      exact hle
    have hK : (g + 1) * (B + Fintype.card (As B) + 4) =
        g * (B + Fintype.card (As B) + 4) + (B + Fintype.card (As B) + 4) := by
      rw [Nat.succ_mul]
    omega

/-- C3 counterexample: with zero transition groups the BFS strategy never
returns: `go_bfs` splits `len = 0` into two empty halves and recurses
forever (src/examples/tbddmc.c lines 329-340 never reach `len == 1`), so no
recursion bound makes the embedded run produce a result. -/
theorem strategies_terminate_counterexample : ¬ StratTerminates 0 [] wSet := by
  rintro ⟨fuel, hf⟩
  have h : (bfs ([] : List (Rel 1)) fuel wSet).isSome := hf
  have hnone : ∀ (f : Nat) (V F : TBDD 1), bfsLoop [] f V F = none := by
    intro f V F
    cases f with
    | zero => rfl
    | succ f2 =>
      have hstep : bfsLoop ([] : List (Rel 1)) (f2 + 1) V F =
          Option.bind (go_bfs [] f2 F V 0 0) (fun front2 =>
            if front2 = tbdd_false then some (tbdd_or V front2 (vectordom 1))
            else bfsLoop [] f2 (tbdd_or V front2 (vectordom 1)) front2) := rfl
      rw [hstep, go_bfs_len_zero_none]
      rfl
  unfold bfs at h
  rw [hnone] at h
  simp at h

/-- C3 (amended): on a well-formed model with at least one transition group
all four strategies terminate for some recursion bound, and the SAT and
Chaining strategies terminate even with zero groups; only the BFS and PAR
per-level recursion diverges on an empty group array. -/
theorem strategies_terminate_amended {next : List (Rel B)} {s : SetT B}
    (hwf : ModelWF next) :
    (next ≠ [] → StratTerminates 0 next s ∧ StratTerminates 1 next s) ∧
    StratTerminates 2 next s ∧ StratTerminates 3 next s := by
  refine ⟨fun hne => ⟨?_, ?_⟩, ?_, ?_⟩
  · refine ⟨next.length + (Fintype.card (As B) - (s.bdd).card + 1), ?_⟩
    show (bfs next (next.length + (Fintype.card (As B) - (s.bdd).card + 1)) s).isSome
    unfold bfs
    have hl := bfsLoop_total hne (Fintype.card (As B) - (s.bdd).card + 1) s.bdd s.bdd
      (next.length + (Fintype.card (As B) - (s.bdd).card + 1)) (by omega) (le_refl _)
    obtain ⟨v, hv⟩ := Option.isSome_iff_exists.mp hl
    rw [hv]
    rfl
  · refine ⟨next.length + (Fintype.card (As B) - (s.bdd).card + 1), ?_⟩
    show (par next (next.length + (Fintype.card (As B) - (s.bdd).card + 1)) s).isSome
    unfold par
    rw [parLoop_eq_bfsLoop]
    have hl := bfsLoop_total hne (Fintype.card (As B) - (s.bdd).card + 1) s.bdd s.bdd
      (next.length + (Fintype.card (As B) - (s.bdd).card + 1)) (by omega) (le_refl _)
    obtain ⟨v, hv⟩ := Option.isSome_iff_exists.mp hl
    rw [hv]
    rfl
  · refine ⟨next.length * (next.length + 2) + 2 +
      (next.length * (B + Fintype.card (As B) + 4) + 1), ?_⟩
    show (Option.bind (sortRels (next.length * (next.length + 2) + 2 +
      (next.length * (B + Fintype.card (As B) + 4) + 1)) next)
      (fun n1 => sat n1 (next.length * (next.length + 2) + 2 +
        (next.length * (B + Fintype.card (As B) + 4) + 1)) s)).isSome
    obtain ⟨n1, hn1⟩ := Option.isSome_iff_exists.mp
      (@sortRels_total B next (next.length * (next.length + 2) + 2 +
        (next.length * (B + Fintype.card (As B) + 4) + 1)) (by omega))
    rw [hn1, Option.some_bind]
    obtain ⟨hperm, hsorted, _⟩ := sortRels_props hn1
    have hwf1 : ∀ r ∈ n1, RelWF r := fun r hr => hwf.2 r (hperm.mem_iff.mp hr)
    have hlen1 : n1.length = next.length := hperm.length_eq
    unfold sat
    have hg := go_sat_total hwf.1 hwf1 hsorted n1.length s.bdd 0
      (next.length * (next.length + 2) + 2 +
        (next.length * (B + Fintype.card (As B) + 4) + 1)) (by omega) (by omega) ?_
    · obtain ⟨v, hv⟩ := Option.isSome_iff_exists.mp hg
      rw [hv]
      rfl
    · rw [hlen1]
      omega
  · refine ⟨next.length * (next.length + 2) + 2 +
      (Fintype.card (As B) - (s.bdd).card + 1), ?_⟩
    show (Option.bind (sortRels (next.length * (next.length + 2) + 2 +
      (Fintype.card (As B) - (s.bdd).card + 1)) next)
      (fun n1 => chaining n1 (next.length * (next.length + 2) + 2 +
        (Fintype.card (As B) - (s.bdd).card + 1)) s)).isSome
    obtain ⟨n1, hn1⟩ := Option.isSome_iff_exists.mp
      (@sortRels_total B next (next.length * (next.length + 2) + 2 +
        (Fintype.card (As B) - (s.bdd).card + 1)) (by omega))
    rw [hn1, Option.some_bind]
    unfold chaining
    have hl := @chainingLoop_total B n1 (Fintype.card (As B) - (s.bdd).card + 1)
      s.bdd s.bdd
      (next.length * (next.length + 2) + 2 +
        (Fintype.card (As B) - (s.bdd).card + 1)) (by omega) (by omega)
    obtain ⟨v, hv⟩ := Option.isSome_iff_exists.mp hl
    rw [hv]
    rfl

theorem strategies_terminate_amended_witness :
    (([wRel] : List (Rel 1)) ≠ [] →
      StratTerminates 0 [wRel] wSet ∧ StratTerminates 1 [wRel] wSet) ∧
    StratTerminates 2 [wRel] wSet ∧ StratTerminates 3 [wRel] wSet :=
  strategies_terminate_amended (by decide)

theorem takeWhile_all {α : Type _} (p : α → Bool) :
    ∀ l : List α, (∀ a ∈ l, p a = true) → l.takeWhile p = l := by
  intro l
  induction l with
  | nil =>
    intro _
    rfl
  | cons a t ih =>
    intro h
    rw [List.takeWhile_cons, if_pos (h a (List.mem_cons_self a t))]
    rw [ih (fun b hb => h b (List.mem_cons.mpr (Or.inr hb)))]

theorem extendEqAux_fst (has : Nat → Bool) :
    ∀ m : Nat, m ≤ B → (@extendEqAux B has m).1 =
      Finset.univ.filter (fun γ : As B => ∀ k : Fin B, B - m ≤ (k : Nat) →
        has (k : Nat) = false →
        evalV γ (2 * (k : Nat)) = evalV γ (2 * (k : Nat) + 1)) := by
  intro m
  induction m with
  | zero =>
    intro _
    show tbdd_true = _
    unfold tbdd_true
    refine (Finset.filter_true_of_mem ?_).symm
    intro γ _ k hk
    have := k.isLt
    exact absurd hk (by omega)
  | succ m ih =>
    intro hm
    have ihe := ih (by omega)
    have hiB : B - 1 - m < B := by omega
    have hpair : @extendEqAux B has (m + 1) =
        (if has (B - 1 - m) then ((@extendEqAux B has m).1, 2 * (B - 1 - m))
         else (tbdd_makenode (2 * (B - 1 - m))
            (tbdd_makenode (2 * (B - 1 - m) + 1) (@extendEqAux B has m).1 tbdd_false
              (@extendEqAux B has m).2)
            (tbdd_makenode (2 * (B - 1 - m) + 1) tbdd_false (@extendEqAux B has m).1
              (@extendEqAux B has m).2) (2 * (B - 1 - m) + 1),
          2 * (B - 1 - m))) := rfl
    rw [hpair]
    by_cases hh : has (B - 1 - m)
    · rw [if_pos hh]
      show (@extendEqAux B has m).1 = _
      rw [ihe]
      apply Finset.filter_congr
      intro γ _
      constructor
      · intro hcond k hk hhk
        by_cases hki : (k : Nat) = B - 1 - m
        · rw [hki] at hhk
          rw [hh] at hhk
          exact absurd hhk (by simp)
        · exact hcond k (by omega) hhk
      · intro hcond k hk hhk
        exact hcond k (by omega) hhk
    · rw [if_neg hh]
      show tbdd_makenode (2 * (B - 1 - m))
          (tbdd_makenode (2 * (B - 1 - m) + 1) (@extendEqAux B has m).1 tbdd_false
            (@extendEqAux B has m).2)
          (tbdd_makenode (2 * (B - 1 - m) + 1) tbdd_false (@extendEqAux B has m).1
            (@extendEqAux B has m).2) (2 * (B - 1 - m) + 1) = _
      ext γ
      have hmem : γ ∈ (@extendEqAux B has m).1 ↔ (∀ k : Fin B, B - m ≤ (k : Nat) →
          has (k : Nat) = false →
          evalV γ (2 * (k : Nat)) = evalV γ (2 * (k : Nat) + 1)) := by
        rw [ihe]
        simp
      simp only [mem_makenode, Finset.mem_filter, Finset.mem_univ, true_and]
      unfold tbdd_false
      simp only [Finset.not_mem_empty, false_and, or_false, false_or]
      constructor
      · intro hlr
        have hkey : γ ∈ (@extendEqAux B has m).1 ∧
            evalV γ (2 * (B - 1 - m)) = evalV γ (2 * (B - 1 - m) + 1) := by
          rcases hlr with ⟨⟨hγ, hodd⟩, heven⟩ | ⟨⟨hγ, hodd⟩, heven⟩
          · exact ⟨hγ, by rw [heven, hodd]⟩
          · exact ⟨hγ, by rw [heven, hodd]⟩
        obtain ⟨hγ, hiq⟩ := hkey
        intro k hk hhk
        by_cases hki : (k : Nat) = B - 1 - m
        · rw [hki]
          exact hiq
        · exact (hmem.mp hγ) k (by omega) hhk
      · intro hcond
        have hγ : γ ∈ (@extendEqAux B has m).1 := by
          rw [hmem]
          intro k hk hhk
          exact hcond k (by omega) hhk
        have hiq : evalV γ (2 * (B - 1 - m)) = evalV γ (2 * (B - 1 - m) + 1) :=
          hcond ⟨B - 1 - m, hiB⟩ (by simp; omega) (by simpa using hh)
        cases hE : evalV γ (2 * (B - 1 - m)) with
        | false =>
          left
          refine ⟨⟨hγ, ?_⟩, rfl⟩
          rw [← hiq, hE]
        | true =>
          right
          refine ⟨⟨hγ, ?_⟩, rfl⟩
          rw [← hiq, hE]

theorem mem_extend_relation {r : Rel B} (hwf : RelWF r) (γ : As B) :
    γ ∈ extend_relation r.bdd r.vars (newvarsList B) ↔
      γ ∈ r.bdd ∧ ∀ k : Fin B, 2 * (k : Nat) ∉ r.vars →
        evalV γ (2 * (k : Nat)) = evalV γ (2 * (k : Nat) + 1) := by
  obtain ⟨hne, heven, hsorted, hbound, hclosed, hsat, hpairs⟩ := hwf
  have hshape : extend_relation r.bdd r.vars (newvarsList B) =
      tbdd_and r.bdd
        (@extendEqAux B (fun i => decide (i ∈
          (r.vars.takeWhile (fun v => decide (v / 2 < B))).map (fun v => v / 2))) B).1
        (newvarsList B) := rfl
  have htw : r.vars.takeWhile (fun v => decide (v / 2 < B)) = r.vars := by
    apply takeWhile_all
    intro v hv
    simp only [decide_eq_true_eq]
    have := hbound v hv
    omega
  have hhas : ∀ k : Fin B, ((k : Nat) ∈ r.vars.map (fun v => v / 2)) ↔
      2 * (k : Nat) ∈ r.vars := by
    intro k
    constructor
    · rw [List.mem_map]
      rintro ⟨v, hv, hvk⟩
      have hb := hbound v hv
      by_cases hpar : v % 2 = 0
      · rw [show 2 * (k : Nat) = v by omega]
        exact hv
      · apply (hpairs k).mpr
        rw [show 2 * (k : Nat) + 1 = v by omega]
        exact hv
    · intro h2k
      rw [List.mem_map]
      exact ⟨2 * (k : Nat), h2k, by omega⟩
  rw [hshape, htw]
  unfold tbdd_and
  rw [Finset.mem_inter]
  apply and_congr_right
  intro _
  rw [extendEqAux_fst _ B (le_refl B), Finset.mem_filter]
  simp only [Finset.mem_univ, true_and]
  constructor
  · intro hcond k h2k
    apply hcond k (by omega)
    rw [decide_eq_false_iff_not]
    intro hmem
    exact h2k ((hhas k).mp hmem)
  · intro hcond k _ hhk
    apply hcond k
    rw [decide_eq_false_iff_not] at hhk
    intro h2k
    exact hhk ((hhas k).mpr h2k)

theorem relnext_extended {r : Rel B} (hwf : RelWF r) (V : TBDD B) :
    tbdd_relnext V (extend_relation r.bdd r.vars (newvarsList B)) (newvarsList B)
      (vectordom B) = imgFull r V := by
  have hpairs : ∀ k : Fin B, 2 * (k : Nat) ∈ r.vars ↔ 2 * (k : Nat) + 1 ∈ r.vars :=
    hwf.2.2.2.2.2.2
  have hclosed := hwf.2.2.2.2.1
  have hbound := hwf.2.2.2.1
  have hmemnv : ∀ v, v ∈ newvarsList B ↔ v < 2 * B := by
    intro v
    unfold newvarsList
    exact List.mem_range
  unfold imgFull
  ext β
  rw [mem_relnext, mem_relnext]
  constructor
  · rintro ⟨α, hα, γ, hγ, c1, c2, c3⟩
    rw [mem_extend_relation hwf] at hγ
    obtain ⟨hγR, hγE⟩ := hγ
    refine ⟨α, hα, γ, hγR, ?_, ?_, ?_⟩
    · intro k _
      exact c1 k ((hmemnv _).mpr (by omega))
    · intro k _
      exact c2 k ((hmemnv _).mpr (by omega))
    · intro k _ hk1
      have h2k : 2 * (k : Nat) ∉ r.vars := fun hc => hk1 ((hpairs k).mp hc)
      have heq := hγE k h2k
      rw [c2 k ((hmemnv _).mpr (by omega)), ← heq, c1 k ((hmemnv _).mpr (by omega))]
  · rintro ⟨α, hα, γ, hγ, c1, c2, c3⟩
    refine ⟨α, hα, (fun u : Fin (2 * B) =>
      if (u : Nat) % 2 = 0 then evalV α (u : Nat)
      else if (u : Nat) ∈ r.vars then γ u else evalV α ((u : Nat) - 1)), ?_, ?_, ?_, ?_⟩
    case _ =>
      -- membership of the adjusted transition in the extended relation
      rw [mem_extend_relation hwf]
      have hγ'even : ∀ k : Fin B, evalV (fun u : Fin (2 * B) =>
          if (u : Nat) % 2 = 0 then evalV α (u : Nat)
          else if (u : Nat) ∈ r.vars then γ u else evalV α ((u : Nat) - 1))
          (2 * (k : Nat)) = evalV α (2 * (k : Nat)) := by
        intro k
        have h2k : 2 * (k : Nat) < 2 * B := by omega
        rw [evalV_lt h2k]
        show (if (2 * (k : Nat)) % 2 = 0 then evalV α (2 * (k : Nat))
          else _) = evalV α (2 * (k : Nat))
        rw [if_pos (by omega)]
      have hγ'odd_in : ∀ k : Fin B, 2 * (k : Nat) + 1 ∈ r.vars →
          evalV (fun u : Fin (2 * B) =>
            if (u : Nat) % 2 = 0 then evalV α (u : Nat)
            else if (u : Nat) ∈ r.vars then γ u else evalV α ((u : Nat) - 1))
            (2 * (k : Nat) + 1) = evalV γ (2 * (k : Nat) + 1) := by
        intro k hk
        have h2k : 2 * (k : Nat) + 1 < 2 * B := by omega
        rw [evalV_lt h2k]
        show (if (2 * (k : Nat) + 1) % 2 = 0 then evalV α (2 * (k : Nat) + 1)
          else if (2 * (k : Nat) + 1) ∈ r.vars then γ ⟨2 * (k : Nat) + 1, h2k⟩
            else evalV α ((2 * (k : Nat) + 1) - 1)) = evalV γ (2 * (k : Nat) + 1)
        rw [if_neg (by omega), if_pos hk, evalV_lt h2k]
      have hγ'odd_out : ∀ k : Fin B, 2 * (k : Nat) + 1 ∉ r.vars →
          evalV (fun u : Fin (2 * B) =>
            if (u : Nat) % 2 = 0 then evalV α (u : Nat)
            else if (u : Nat) ∈ r.vars then γ u else evalV α ((u : Nat) - 1))
            (2 * (k : Nat) + 1) = evalV α (2 * (k : Nat)) := by
        intro k hk
        have h2k : 2 * (k : Nat) + 1 < 2 * B := by omega
        rw [evalV_lt h2k]
        show (if (2 * (k : Nat) + 1) % 2 = 0 then evalV α (2 * (k : Nat) + 1)
          else if (2 * (k : Nat) + 1) ∈ r.vars then γ ⟨2 * (k : Nat) + 1, h2k⟩
            else evalV α ((2 * (k : Nat) + 1) - 1)) = evalV α (2 * (k : Nat))
        rw [if_neg (by omega), if_neg hk,
          show 2 * (k : Nat) + 1 - 1 = 2 * (k : Nat) by omega]
      refine ⟨?_, ?_⟩
      · have hagree : ∀ v ∈ r.vars, evalV (fun u : Fin (2 * B) =>
            if (u : Nat) % 2 = 0 then evalV α (u : Nat)
            else if (u : Nat) ∈ r.vars then γ u else evalV α ((u : Nat) - 1)) v
            = evalV γ v := by
          intro v hv
          have hb := hbound v hv
          by_cases hpar : v % 2 = 0
          · have hk : v / 2 < B := by omega
            have h1 : evalV (fun u : Fin (2 * B) =>
                if (u : Nat) % 2 = 0 then evalV α (u : Nat)
                else if (u : Nat) ∈ r.vars then γ u else evalV α ((u : Nat) - 1))
                (2 * (v / 2)) = evalV α (2 * (v / 2)) := hγ'even ⟨v / 2, hk⟩
            have h2 : 2 * (v / 2) ∈ r.vars →
                evalV γ (2 * (v / 2)) = evalV α (2 * (v / 2)) := c1 ⟨v / 2, hk⟩
            rw [show v = 2 * (v / 2) by omega, h1]
            refine (h2 ?_).symm
            rw [show 2 * (v / 2) = v by omega]
            exact hv
          · have hk : v / 2 < B := by omega
            have h1 : 2 * (v / 2) + 1 ∈ r.vars →
                evalV (fun u : Fin (2 * B) =>
                  if (u : Nat) % 2 = 0 then evalV α (u : Nat)
                  else if (u : Nat) ∈ r.vars then γ u else evalV α ((u : Nat) - 1))
                (2 * (v / 2) + 1) = evalV γ (2 * (v / 2) + 1) := hγ'odd_in ⟨v / 2, hk⟩
            rw [show v = 2 * (v / 2) + 1 by omega]
            apply h1
            rw [show 2 * (v / 2) + 1 = v by omega]
            exact hv
        exact (hclosed _ γ hagree).mpr hγ
      · intro k h2k
        have h2k1 : 2 * (k : Nat) + 1 ∉ r.vars := fun hc => h2k ((hpairs k).mpr hc)
        rw [hγ'even k, hγ'odd_out k h2k1]
    case _ =>
      intro k _
      have h2k : 2 * (k : Nat) < 2 * B := by omega
      rw [evalV_lt h2k]
      show (if (2 * (k : Nat)) % 2 = 0 then evalV α (2 * (k : Nat))
        else _) = evalV α (2 * (k : Nat))
      rw [if_pos (by omega)]
    case _ =>
      intro k _
      have h2k : 2 * (k : Nat) + 1 < 2 * B := by omega
      rw [evalV_lt h2k]
      show evalV β (2 * (k : Nat)) =
        (if (2 * (k : Nat) + 1) % 2 = 0 then evalV α (2 * (k : Nat) + 1)
          else if (2 * (k : Nat) + 1) ∈ r.vars then γ ⟨2 * (k : Nat) + 1, h2k⟩
            else evalV α ((2 * (k : Nat) + 1) - 1))
      rw [if_neg (by omega)]
      by_cases hk : 2 * (k : Nat) + 1 ∈ r.vars
      · rw [if_pos hk]
        have hc := c2 k hk
        rw [evalV_lt h2k] at hc
        exact hc
      · rw [if_neg hk, show 2 * (k : Nat) + 1 - 1 = 2 * (k : Nat) by omega]
        apply c3 k ?_ hk
        exact mem_vectordom.mpr ⟨(k : Nat), k.isLt, rfl⟩
    case _ =>
      intro k _ hk1
      exfalso
      apply hk1
      unfold newvarsList
      rw [List.mem_range]
      omega

theorem big_union_some {next : List (Rel B)} :
    ∀ (fuel first count : Nat) (u : TBDD B), 1 ≤ count →
      big_union next fuel first count = some u →
      ∀ x, x ∈ u ↔ ∃ i < count, x ∈ (nextD next (first + i)).bdd := by
  intro fuel
  induction fuel with
  | zero =>
    intro first count u _ h
    exact absurd h (by simp [big_union])
  | succ f ih =>
    intro first count u hc h
    have hstep : big_union next (f + 1) first count =
        (if count = 1 then some (nextD next first).bdd
         else Option.bind (big_union next f (first + count / 2) (count - count / 2))
           (fun right => Option.bind (big_union next f first (count / 2))
             (fun left => some (tbdd_or left right (nextD next first).vars)))) := rfl
    rw [hstep] at h
    by_cases h1 : count = 1
    · rw [if_pos h1] at h
      subst h1
      intro x
      rw [← Option.some_inj.mp h]
      constructor
      · intro hx
        exact ⟨0, by omega, by simpa using hx⟩
      · rintro ⟨i, hi, hx⟩
        have hi0 : i = 0 := by omega
        subst hi0
        simpa using hx
    · rw [if_neg h1] at h
      rw [Option.bind_eq_some] at h
      obtain ⟨right, hr, h⟩ := h
      rw [Option.bind_eq_some] at h
      obtain ⟨left, hl, h⟩ := h
      have hu : u = left ∪ right := by
        rw [← Option.some_inj.mp h]
        rfl
      have ihr := ih (first + count / 2) (count - count / 2) right (by omega) hr
      have ihl := ih first (count / 2) left (by omega) hl
      intro x
      rw [hu, Finset.mem_union, ihl x, ihr x]
      constructor
      · rintro (⟨i, hi, hx⟩ | ⟨i, hi, hx⟩)
        · exact ⟨i, by omega, hx⟩
        · refine ⟨count / 2 + i, by omega, ?_⟩
          rw [show first + (count / 2 + i) = first + count / 2 + i by omega]
          exact hx
      · rintro ⟨i, hi, hx⟩
        rcases Nat.lt_or_ge i (count / 2) with h2 | h2
        · exact Or.inl ⟨i, h2, hx⟩
        · refine Or.inr ⟨i - count / 2, by omega, ?_⟩
          rw [show first + count / 2 + (i - count / 2) = first + i by omega]
          exact hx

theorem mergeRels_struct {next : List (Rel B)} {fuel : Nat} {nm : List (Rel B)}
    (h : mergeRels fuel next = some nm) :
    ∃ r0 rest u, next = r0 :: rest ∧
      nm = [Rel.mk u (newvarsList B) r0.r_proj r0.w_proj r0.satdom] ∧
      ∀ x, x ∈ u ↔ ∃ r ∈ next, x ∈ extend_relation r.bdd r.vars (newvarsList B) := by
  cases next with
  | nil =>
    exfalso
    have h' : Option.bind (big_union ([] : List (Rel B)) fuel 0 0)
        (fun _ => (none : Option (List (Rel B)))) = some nm := h
    cases hbu : big_union ([] : List (Rel B)) fuel 0 0 with
    | none =>
      rw [hbu] at h'
      exact absurd h' (by simp)
    | some u =>
      rw [hbu] at h'
      exact absurd h' (by simp)
  | cons r0 rest =>
    have h' : Option.bind
        (big_union ((r0 :: rest).map (fun r =>
          Rel.mk (extend_relation r.bdd r.vars (newvarsList B)) (newvarsList B)
            r.r_proj r.w_proj r.satdom)) fuel 0
          ((r0 :: rest).map (fun r =>
            Rel.mk (extend_relation r.bdd r.vars (newvarsList B)) (newvarsList B)
              r.r_proj r.w_proj r.satdom)).length)
        (fun u => some [Rel.mk u (newvarsList B) r0.r_proj r0.w_proj r0.satdom])
        = some nm := h
    rw [Option.bind_eq_some] at h'
    obtain ⟨u, hu, heq⟩ := h'
    refine ⟨r0, rest, u, rfl, (Option.some_inj.mp heq).symm, ?_⟩
    have hlen1 : ((r0 :: rest).map (fun r =>
        Rel.mk (extend_relation r.bdd r.vars (newvarsList B)) (newvarsList B)
          r.r_proj r.w_proj r.satdom)).length = rest.length + 1 := by
      simp
    have hmap : ∀ i, i < rest.length + 1 →
        nextD ((r0 :: rest).map (fun r =>
          Rel.mk (extend_relation r.bdd r.vars (newvarsList B)) (newvarsList B)
            r.r_proj r.w_proj r.satdom)) i =
        Rel.mk (extend_relation (nextD (r0 :: rest) i).bdd
            (nextD (r0 :: rest) i).vars (newvarsList B)) (newvarsList B)
          (nextD (r0 :: rest) i).r_proj (nextD (r0 :: rest) i).w_proj
          (nextD (r0 :: rest) i).satdom := by
      intro i hi
      unfold nextD
      rw [List.getD_eq_getElem _ _ (by simpa using hi),
        List.getD_eq_getElem _ _ (by simpa using hi), List.getElem_map]
    intro x
    have hbu := big_union_some fuel 0 _ u (by rw [hlen1]; omega) hu x
    rw [hbu]
    simp only [Nat.zero_add]
    constructor
    · rintro ⟨i, hi, hx⟩
      rw [hlen1] at hi
      rw [hmap i hi] at hx
      refine ⟨nextD (r0 :: rest) i, nextD_mem (by simpa using hi), ?_⟩
      simpa using hx
    · rintro ⟨r, hr, hx⟩
      obtain ⟨i, hilt, hieq⟩ := List.mem_iff_getElem.mp hr
      refine ⟨i, by rw [hlen1]; simpa using hilt, ?_⟩
      rw [hmap i (by simpa using hilt)]
      have hrD : nextD (r0 :: rest) i = r := by
        unfold nextD
        rw [List.getD_eq_getElem _ _ hilt]
        exact hieq
      simpa [hrD] using hx

theorem stepAll_merged {next nm : List (Rel B)} {fuel : Nat}
    (h : mergeRels fuel next = some nm) (hwf : ∀ r ∈ next, RelWF r) (V : TBDD B) :
    stepAll nm V = stepAll next V := by
  obtain ⟨r0, rest, u, hnext, hnm, hu⟩ := mergeRels_struct h
  subst hnext
  ext x
  rw [mem_stepAll, mem_stepAll]
  apply or_congr Iff.rfl
  rw [hnm]
  constructor
  · rintro ⟨rM, hrM, hx⟩
    rw [List.mem_singleton] at hrM
    subst hrM
    have hx' : x ∈ tbdd_relnext V u (newvarsList B) (vectordom B) := hx
    rw [mem_relnext] at hx'
    obtain ⟨α, hα, γ, hγ, c1, c2, c3⟩ := hx'
    obtain ⟨r, hr, hγr⟩ := (hu γ).mp hγ
    refine ⟨r, hr, ?_⟩
    rw [← relnext_extended (hwf r hr) V, mem_relnext]
    exact ⟨α, hα, γ, hγr, c1, c2, c3⟩
  · rintro ⟨r, hr, hx⟩
    refine ⟨_, List.mem_singleton_self _, ?_⟩
    show x ∈ tbdd_relnext V u (newvarsList B) (vectordom B)
    rw [← relnext_extended (hwf r hr) V, mem_relnext] at hx
    obtain ⟨α, hα, γ, hγ, c1, c2, c3⟩ := hx
    rw [mem_relnext]
    exact ⟨α, hα, γ, (hu γ).mpr ⟨r, hr, hγ⟩, c1, c2, c3⟩

theorem reach_merged {next nm : List (Rel B)} {fuel : Nat}
    (h : mergeRels fuel next = some nm) (hwf : ∀ r ∈ next, RelWF r) (V : TBDD B) :
    reach nm V = reach next V := by
  unfold reach
  have hiter : ∀ (n : Nat) (W : TBDD B), reachIter nm n W = reachIter next n W := by
    intro n
    induction n with
    | zero =>
      intro W
      rfl
    | succ n ih =>
      intro W
      show reachIter nm n (stepAll nm W) = reachIter next n (stepAll next W)
      rw [stepAll_merged h hwf W, ih]
  exact hiter _ V

theorem merged_relwf {next nm : List (Rel B)} {fuel : Nat} (hB1 : 1 ≤ B)
    (h : mergeRels fuel next = some nm) : ∀ r ∈ nm, RelWF r := by
  obtain ⟨r0, rest, u, hnext, hnm, hu⟩ := mergeRels_struct h
  intro r hr
  rw [hnm, List.mem_singleton] at hr
  subst hr
  refine ⟨?_, ?_, ?_, ?_, ?_, ?_, ?_⟩
  · show newvarsList B ≠ []
    unfold newvarsList
    simp
    omega
  · show tbdd_getvar (newvarsList B) % 2 = 0
    unfold tbdd_getvar newvarsList
    rw [show 2 * B = (2 * B - 1) + 1 by omega, List.range_succ_eq_map]
    rfl
  · show List.Pairwise (· < ·) (newvarsList B)
    unfold newvarsList
    exact List.pairwise_lt_range _
  · intro v hv
    have hv' : v ∈ List.range (2 * B) := hv
    exact List.mem_range.mp hv'
  · intro γ δ hagree
    have hfun : γ = δ := by
      funext w
      have hw : (w : Nat) ∈ List.range (2 * B) := by
        rw [List.mem_range]
        exact w.isLt
      have he := hagree (w : Nat) hw
      rw [evalV_lt w.isLt, evalV_lt w.isLt] at he
      exact he
    rw [hfun]
  · intro k hk
    exfalso
    apply hk
    show 2 * (k : Nat) + 1 ∈ List.range (2 * B)
    rw [List.mem_range]
    omega
  · intro k
    constructor
    · intro _
      show 2 * (k : Nat) + 1 ∈ List.range (2 * B)
      rw [List.mem_range]
      omega
    · intro _
      show 2 * (k : Nat) ∈ List.range (2 * B)
      rw [List.mem_range]
      omega

/-- C2: for a well-formed model, running any strategy after the merge
preprocessing (every group extended to the full-vector domain with an
explicit identity relation over its absent components, all extended
diagrams combined by balanced binary disjunction into one single group)
yields the same final reachable-state set as running that strategy against
the original unmerged groups. -/
theorem merged_matches_unmerged {next : List (Rel B)} {s : SetT B}
    {st f1 f2 : Nat} {s1 s2 : SetT B}
    (hB1 : 1 ≤ B) (hwf : ModelWF next) (hst : st ≤ 3)
    (e1 : mainRun st true f1 next s = some s1)
    (e2 : mainRun st false f2 next s = some s2) :
    s1.bdd = s2.bdd ∧ s1.vars = s2.vars := by
  obtain ⟨hb2, hv2⟩ := mainRun_reach hwf hst e2
  suffices h : s1.bdd = reach next s.bdd ∧ s1.vars = s.vars by
    refine ⟨?_, ?_⟩
    · rw [h.1, hb2]
    · rw [h.2, hv2]
  interval_cases st
  · have h1 : Option.bind (mergeRels f1 next) (fun n2 => bfs n2 f1 s) = some s1 := e1
    rw [Option.bind_eq_some] at h1
    obtain ⟨n2, hn2, hrun⟩ := h1
    obtain ⟨hb, hv⟩ := bfs_some hrun
    exact ⟨by rw [hb, reach_merged hn2 hwf.2], hv⟩
  · have h1 : Option.bind (mergeRels f1 next) (fun n2 => par n2 f1 s) = some s1 := e1
    rw [Option.bind_eq_some] at h1
    obtain ⟨n2, hn2, hrun⟩ := h1
    obtain ⟨hb, hv⟩ := par_some hrun
    exact ⟨by rw [hb, reach_merged hn2 hwf.2], hv⟩
  · have h1 : Option.bind (sortRels f1 next)
        (fun n1 => Option.bind (mergeRels f1 n1) (fun n2 => sat n2 f1 s)) =
        some s1 := e1
    rw [Option.bind_eq_some] at h1
    obtain ⟨n1, hn1, h1⟩ := h1
    rw [Option.bind_eq_some] at h1
    obtain ⟨n2, hn2, hrun⟩ := h1
    obtain ⟨hperm, _, _⟩ := sortRels_props hn1
    have hwf1 : ∀ r ∈ n1, RelWF r := fun r hr => hwf.2 r (hperm.mem_iff.mp hr)
    have hwf2 := merged_relwf hB1 hn2
    have hsorted2 : List.Pairwise (fun a b => relKey a ≤ relKey b) n2 := by
      obtain ⟨r0, rest, u, hnext, hnm, _⟩ := mergeRels_struct hn2
      rw [hnm]
      exact List.pairwise_singleton _ _
    obtain ⟨hb, hv⟩ := sat_some hwf.1 hwf2 hsorted2 hrun
    refine ⟨?_, hv⟩
    rw [hb, reach_merged hn2 hwf1, reach_perm hperm]
  · have h1 : Option.bind (sortRels f1 next)
        (fun n1 => Option.bind (mergeRels f1 n1) (fun n2 => chaining n2 f1 s)) =
        some s1 := e1
    rw [Option.bind_eq_some] at h1
    obtain ⟨n1, hn1, h1⟩ := h1
    rw [Option.bind_eq_some] at h1
    obtain ⟨n2, hn2, hrun⟩ := h1
    obtain ⟨hperm, _, _⟩ := sortRels_props hn1
    have hwf1 : ∀ r ∈ n1, RelWF r := fun r hr => hwf.2 r (hperm.mem_iff.mp hr)
    obtain ⟨hb, hv⟩ := chaining_some hrun
    refine ⟨?_, hv⟩
    rw [hb, reach_merged hn2 hwf1, reach_perm hperm]

theorem merged_matches_unmerged_witness :
    ((mainRun 0 true 10 [wRel] wSet).get (by decide)).bdd =
      ((mainRun 0 false 10 [wRel] wSet).get (by decide)).bdd ∧
    ((mainRun 0 true 10 [wRel] wSet).get (by decide)).vars =
      ((mainRun 0 false 10 [wRel] wSet).get (by decide)).vars :=
  merged_matches_unmerged (by decide) (by decide) (by decide)
    (Option.some_get _).symm (Option.some_get _).symm

end Lemmas

end Tbddmc
